/-
Verification of the heat-news-extraction pipeline (AIDMI-DataHub).

This file is a shallow embedding of the parts of the pipeline that the
specification's checkable claims are about:

  * `src/reliability/_checkpoint.py` — checkpoint persistence and query keys,
  * `src/query/_scheduler.py`       — the source scheduler (budget / breaker /
                                      language gates, daily counter),
  * `src/sources/gnews.py`, `src/sources/google_news.py` — adapter error paths,
  * `src/dedup/_url_dedup.py`       — URL canonicalisation and URL dedup,
  * `src/dedup/_title_dedup.py`     — title-similarity dedup,
  * `src/dedup/_relevance.py`       — relevance scoring,
  * `src/extraction/_extractor.py`  — batch extraction.

Python strings are modelled as `List Char` (Unicode code points, which is
what CPython strings are).  Python `float` arithmetic in the scoring and
similarity code is modelled with `ℚ`; every comparison the claims depend on
is far from the rounding error of binary64, so the rational model and the
float code agree on all comparisons appearing in theorems below.
Python's `str.lower()` is modelled by its ASCII case mapping (the only case
mapping the claims exercise).  Effectful code (HTTP, the event loop, the
file system) is modelled by passing outcomes explicitly: a source call is a
value describing what the wrapped coroutine did (returned / raised), and the
checkpoint save is a trace of file-system operations.
-/

import Mathlib

namespace HeatNews

/-! # Python string primitives

`PyStr` is a CPython `str`: a sequence of Unicode code points. -/

abbrev PyStr := List Char

/-- ASCII lower-case mapping of a code point (model of `str.lower()` for the
ASCII range; all strings the theorems below evaluate on are ASCII). -/
def pyLowerChar (c : Char) : Char :=
  if 'A' ≤ c ∧ c ≤ 'Z' then Char.ofNat (c.toNat + 32) else c

/-- Model of `str.lower()`. -/
def pyLower (s : PyStr) : PyStr := s.map pyLowerChar

/-- `str.removeprefix(p)`. -/
def removePrefix (s p : PyStr) : PyStr :=
  if p.isPrefixOf s then s.drop p.length else s

/-- `str.startswith(p)`. -/
def startsWith (s p : PyStr) : Bool := p.isPrefixOf s

/-- `str.rstrip(cs)`: drop trailing characters that are in `cs`. -/
def rstripChars (s : PyStr) (cs : List Char) : PyStr :=
  ((s.reverse).dropWhile (fun c => cs.contains c)).reverse

/-! # Scheduler (`src/query/_scheduler.py`)

`SourceScheduler.execute` is modelled as a pure step function.  The parts of
the scheduler state that the claims are about are the daily counter; the
circuit breaker is reduced to its observable `is_open` bit (`none` = no
breaker configured).  What the wrapped, retry-protected source call would do
if it were issued is passed in as a `CallOutcome`; `execute` consults it only
on the code path that actually issues the call, and the `called` flag of the
result records whether it did. -/

/-- An article reference as far as the scheduler is concerned (opaque). -/
structure ARef where
  id : Nat
deriving DecidableEq, Repr

/-- The final outcome of the retry-wrapped `source.search(...)` call:
either it returned a list of articles or it raised an exception
(post-retry; the scheduler's `except Exception` sees the latter). -/
inductive CallOutcome where
  | returns (articles : List ARef)
  | raises (msg : PyStr)
deriving DecidableEq, Repr

/-- Configuration of a `SourceScheduler` (constructor arguments that the
gate checks read). `breakerOpen = none` models `circuit_breaker=None`;
`some b` models a configured breaker whose `is_open` currently reads `b`. -/
structure SchedConfig where
  dailyLimit : Option Nat
  supportedLanguages : Option (List PyStr)
  breakerOpen : Option Bool
deriving DecidableEq, Repr

/-- The slice of a `QueryResult` the claims are about. -/
structure QResult where
  articles : List ARef
  success : Bool
  error : Option PyStr
deriving DecidableEq, Repr

/-- Result of one `execute` step: the new daily counter, the returned
`QueryResult`, and whether the underlying source was invoked. -/
structure ExecStep where
  newCount : Nat
  result : QResult
  called : Bool
deriving DecidableEq, Repr

/-- `SourceScheduler._is_budget_exhausted` (lines 266–271). -/
def isBudgetExhausted (cfg : SchedConfig) (dailyCount : Nat) : Bool :=
  match cfg.dailyLimit with
  | none => false
  | some lim => decide (dailyCount ≥ lim)

/-- `SourceScheduler.supports_language` (lines 273–275). -/
def supportsLanguage (cfg : SchedConfig) (lang : PyStr) : Bool :=
  match cfg.supportedLanguages with
  | none => true
  | some ls => ls.contains lang

/-- `SourceScheduler.execute` (lines 159–262), as a step function.

Check order as in the code: 0. breaker `is_open`, 1. budget, 2. language,
then the rate-limited call.  The daily counter is incremented on line 230,
which is *inside* the `try` block and *after* `await _call_source()`;
when the call raises, control transfers to the `except` handler and the
increment is skipped. -/
def execute (cfg : SchedConfig) (dailyCount : Nat) (queryLanguage : PyStr)
    (outcome : CallOutcome) : ExecStep :=
  if cfg.breakerOpen = some true then
    { newCount := dailyCount
      result := { articles := [], success := true, error := some "circuit_breaker_open".toList }
      called := false }
  else if isBudgetExhausted cfg dailyCount then
    { newCount := dailyCount
      result := { articles := [], success := true, error := some "budget_exhausted".toList }
      called := false }
  else if ¬ supportsLanguage cfg queryLanguage then
    { newCount := dailyCount
      result := { articles := [], success := true, error := some "unsupported_language".toList }
      called := false }
  else
    match outcome with
    | CallOutcome.returns articles =>
        { newCount := dailyCount + 1
          result := { articles := articles, success := true, error := none }
          called := true }
    | CallOutcome.raises msg =>
        { newCount := dailyCount
          result := { articles := [], success := false, error := some msg }
          called := true }

/-- Run a sequence of `execute` steps threading the daily counter through,
returning the final counter (`_daily_count` after the calls). -/
def runExecutes (cfg : SchedConfig) (dailyCount : Nat)
    (steps : List (PyStr × CallOutcome)) : Nat :=
  match steps with
  | [] => dailyCount
  | (lang, outcome) :: rest =>
      runExecutes cfg (execute cfg dailyCount lang outcome).newCount rest

/-! # Source adapters (`src/sources/gnews.py`, `src/sources/google_news.py`)

`search()` is modelled from the response onward: the HTTP transaction's
outcome is a parameter (`HttpOutcome`), and the adapter's dispatch over it is
embedded literally.  The return type is `Except SourceExc _` so that the
model *could* raise — `SourceExc.rateLimit` stands for
`src/reliability/_retry.py`'s `RateLimitError` — and every handler branch of
the Python code is represented; which branches produce `.error` (raise) and
which produce `.ok` (return) is exactly what claim C2 is about. -/

/-- Exceptions an adapter could propagate.  `rateLimit` is
`RateLimitError` from `src/reliability/_retry.py`. -/
inductive SourceExc where
  | rateLimit
  | other (msg : PyStr)
deriving DecidableEq, Repr

/-- Outcome of `client.get(...)` + `response.raise_for_status()`:
either a body (status 2xx), an `httpx.HTTPStatusError` with a status code,
an `httpx.TimeoutException`, or an `httpx.RequestError`. -/
inductive HttpOutcome where
  | body (parsedArticles : Option (List ARef))
  | statusError (code : Nat)
  | timeout
  | requestError (msg : PyStr)
deriving DecidableEq, Repr

instance : DecidableEq (Except SourceExc (List ARef)) := fun a b =>
  match a, b with
  | Except.ok x, Except.ok y =>
      if h : x = y then isTrue (by rw [h])
      else isFalse (by intro hc; injection hc; exact h (by assumption))
  | Except.error x, Except.error y =>
      if h : x = y then isTrue (by rw [h])
      else isFalse (by intro hc; injection hc; exact h (by assumption))
  | Except.ok _, Except.error _ => isFalse (by intro hc; exact Except.noConfusion hc)
  | Except.error _, Except.ok _ => isFalse (by intro hc; exact Except.noConfusion hc)

/-- Result of one `GNewsSource.search` call: the updated in-process daily
counter and the value returned (or exception raised). -/
structure GNewsStep where
  newCount : Nat
  result : Except SourceExc (List ARef)
deriving Repr

/-- `GNewsSource.search` (gnews.py lines 145–263), from the guards through
the response dispatch.  `dailyCount`/`dailyLimit` are the adapter's own
in-process quota counter (constructor sets the limit to 100).  Note
`self._daily_count += 1` sits between `client.get` and `raise_for_status`,
so status errors still count, while timeouts/transport errors do not.
In the `except httpx.HTTPStatusError` handler the 403 arm sets the counter
to the limit; the 429, 401 and catch-all arms only log — every arm falls
through to `return []`. -/
def gnewsSearch (apiKey : Option PyStr) (language : PyStr)
    (dailyCount dailyLimit : Nat) (out : HttpOutcome) : GNewsStep :=
  let supported : List PyStr :=
    ["en".toList, "hi".toList, "bn".toList, "ta".toList,
     "te".toList, "mr".toList, "ml".toList, "pa".toList]
  if apiKey = none ∨ apiKey = some [] then
    { newCount := dailyCount, result := Except.ok [] }
  else if ¬ supported.contains language then
    { newCount := dailyCount, result := Except.ok [] }
  else if dailyCount ≥ dailyLimit then
    { newCount := dailyCount, result := Except.ok [] }
  else
    match out with
    | HttpOutcome.statusError code =>
        if code = 403 then
          { newCount := dailyLimit, result := Except.ok [] }
        else
          -- 429, 401 and all other status codes: log and `return []`.
          { newCount := dailyCount + 1, result := Except.ok [] }
    | HttpOutcome.timeout =>
        { newCount := dailyCount, result := Except.ok [] }
    | HttpOutcome.requestError _ =>
        { newCount := dailyCount, result := Except.ok [] }
    | HttpOutcome.body parsed =>
        match parsed with
        | none => { newCount := dailyCount + 1, result := Except.ok [] }
        | some articles => { newCount := dailyCount + 1, result := Except.ok articles }

/-- `GoogleNewsSource.search` (google_news.py lines 182–264), response
dispatch.  Google News has no API key or daily counter; the
`except httpx.HTTPStatusError` handler logs the status code — 429
included — and returns `[]`, as do the timeout / transport / catch-all
handlers. -/
def googleNewsSearch (out : HttpOutcome) : Except SourceExc (List ARef) :=
  match out with
  | HttpOutcome.statusError _ => Except.ok []
  | HttpOutcome.timeout => Except.ok []
  | HttpOutcome.requestError _ => Except.ok []
  | HttpOutcome.body parsed =>
      match parsed with
      | none => Except.ok []
      | some articles => Except.ok articles

/-! # SHA-256 (for `CheckpointStore.query_key`)

Straightforward embedding of FIPS 180-4 over bytes, word arithmetic in
`Nat mod 2^32`. -/

def w32 : Nat := 4294967296

def rotr32 (x n : Nat) : Nat := ((x >>> n) ||| (x <<< (32 - n))) % w32

def shaCh (x y z : Nat) : Nat := ((x &&& y) ^^^ ((x ^^^ 4294967295) &&& z)) % w32

def shaMaj (x y z : Nat) : Nat := ((x &&& y) ^^^ (x &&& z) ^^^ (y &&& z)) % w32

def bigSigma0 (x : Nat) : Nat := (rotr32 x 2) ^^^ (rotr32 x 13) ^^^ (rotr32 x 22)

def bigSigma1 (x : Nat) : Nat := (rotr32 x 6) ^^^ (rotr32 x 11) ^^^ (rotr32 x 25)

def smallSigma0 (x : Nat) : Nat := (rotr32 x 7) ^^^ (rotr32 x 18) ^^^ (x >>> 3)

def smallSigma1 (x : Nat) : Nat := (rotr32 x 17) ^^^ (rotr32 x 19) ^^^ (x >>> 10)

def shaK : List Nat :=
  [1116352408, 1899447441, 3049323471, 3921009573, 961987163, 1508970993,
   2453635748, 2870763221, 3624381080, 310598401, 607225278, 1426881987,
   1925078388, 2162078206, 2614888103, 3248222580, 3835390401, 4022224774,
   264347078, 604807628, 770255983, 1249150122, 1555081692, 1996064986,
   2554220882, 2821834349, 2952996808, 3210313671, 3336571891, 3584528711,
   113926993, 338241895, 666307205, 773529912, 1294757372, 1396182291,
   1695183700, 1986661051, 2177026350, 2456956037, 2730485921, 2820302411,
   3259730800, 3345764771, 3516065817, 3600352804, 4094571909, 275423344,
   430227734, 506948616, 659060556, 883997877, 958139571, 1322822218,
   1537002063, 1747873779, 1955562222, 2024104815, 2227730452, 2361852424,
   2428436474, 2756734187, 3204031479, 3329325298]

def shaH0 : List Nat :=
  [1779033703, 3144134277, 1013904242, 2773480762,
   1359893119, 2600822924, 528734635, 1541459225]

/-- Big-endian bytes → 32-bit words (4 bytes per word). -/
def bytesToWords : List Nat → List Nat
  | b0 :: b1 :: b2 :: b3 :: rest =>
      (((b0 * 256 + b1) * 256 + b2) * 256 + b3) :: bytesToWords rest
  | _ => []

/-- SHA-256 padding: append `0x80`, zeros, and the 64-bit bit length. -/
def shaPad (msg : List Nat) : List Nat :=
  let len := msg.length
  let bitLen := len * 8
  let zeros := (64 - ((len + 9) % 64)) % 64
  msg ++ [0x80] ++ List.replicate zeros 0 ++
    [(bitLen >>> 56) % 256, (bitLen >>> 48) % 256, (bitLen >>> 40) % 256,
     (bitLen >>> 32) % 256, (bitLen >>> 24) % 256, (bitLen >>> 16) % 256,
     (bitLen >>> 8) % 256, bitLen % 256]

/-- Message-schedule expansion: given words `w16 … w1` (most recent first),
produce the next word. -/
def shaExtendStep (recent : List Nat) : Nat :=
  match recent with
  | _ :: w2 :: _ :: _ :: _ :: _ :: w7 :: _ :: _ :: _ :: _ :: _ :: _ :: _ :: w15 :: w16 :: _ =>
      (smallSigma1 w2 + w7 + smallSigma0 w15 + w16) % w32
  | _ => 0

/-- Build the 64-entry message schedule from a 16-word block. -/
def shaSchedule (block : List Nat) : List Nat :=
  let rec go (recentRev : List Nat) (n : Nat) : List Nat :=
    match n with
    | 0 => []
    | n + 1 =>
        let w := shaExtendStep recentRev
        w :: go (w :: recentRev) n
  block ++ go block.reverse 48

/-- One round of the compression function. -/
def shaRound (state : List Nat) (kw : Nat × Nat) : List Nat :=
  match state with
  | [a, b, c, d, e, f, g, h] =>
      let t1 := (h + bigSigma1 e + shaCh e f g + kw.1 + kw.2) % w32
      let t2 := (bigSigma0 a + shaMaj a b c) % w32
      [(t1 + t2) % w32, a, b, c, (d + t1) % w32, e, f, g]
  | s => s

/-- Compress one 16-word block into the hash state. -/
def shaCompress (state block : List Nat) : List Nat :=
  let ws := shaSchedule block
  let final := (shaK.zip ws).foldl shaRound state
  (state.zip final).map (fun p => (p.1 + p.2) % w32)

/-- Split padded words into 16-word blocks and fold the compression. -/
def shaBlocks (state : List Nat) (ws : List Nat) : List Nat :=
  let rec go (st : List Nat) (rest : List Nat) (fuel : Nat) : List Nat :=
    match fuel with
    | 0 => st
    | fuel + 1 =>
        match rest with
        | [] => st
        | _ => go (shaCompress st (rest.take 16)) (rest.drop 16) fuel
  go state ws ws.length

/-- SHA-256 of a byte sequence, as the list of eight 32-bit state words. -/
def sha256Words (msg : List Nat) : List Nat :=
  shaBlocks shaH0 (bytesToWords (shaPad msg))

def hexDigitChar (n : Nat) : Char :=
  if n < 10 then Char.ofNat (48 + n) else Char.ofNat (87 + n)

/-- Lower-case hex rendering of a 32-bit word (8 digits). -/
def wordToHex (x : Nat) : List Char :=
  [hexDigitChar ((x >>> 28) % 16), hexDigitChar ((x >>> 24) % 16),
   hexDigitChar ((x >>> 20) % 16), hexDigitChar ((x >>> 16) % 16),
   hexDigitChar ((x >>> 12) % 16), hexDigitChar ((x >>> 8) % 16),
   hexDigitChar ((x >>> 4) % 16), hexDigitChar (x % 16)]

/-- `hashlib.sha256(bytes).hexdigest()`: 64 lower-case hex characters. -/
def sha256Hex (msg : List Nat) : PyStr :=
  (sha256Words msg).flatMap wordToHex

/-! # UTF-8 -/

/-- UTF-8 encoding of one code point (`Char` excludes surrogates and is
≤ 0x10FFFF, so this is total on `Char`). -/
def utf8EncodeChar (c : Char) : List Nat :=
  let n := c.toNat
  if n < 0x80 then [n]
  else if n < 0x800 then [0xC0 + n / 64, 0x80 + n % 64]
  else if n < 0x10000 then [0xE0 + n / 4096, 0x80 + (n / 64) % 64, 0x80 + n % 64]
  else [0xF0 + n / 262144, 0x80 + (n / 4096) % 64, 0x80 + (n / 64) % 64, 0x80 + n % 64]

/-- `str.encode("utf-8")`. -/
def utf8Encode (s : PyStr) : List Nat := s.flatMap utf8EncodeChar

/-! # Checkpoint store (`src/reliability/_checkpoint.py`) -/

/-- `CheckpointStore.query_key` reads these five `Query` fields
(`src/query/_models.py` lines 19–41; the dataclass has further fields —
`state`, `category`, `districts` — that the key does not read). -/
inductive SourceHint where
  | google
  | newsdata
  | gnews
deriving DecidableEq, Repr

inductive QueryLevel where
  | state
  | district
deriving DecidableEq, Repr

structure Query where
  queryString : PyStr
  language : PyStr
  state : PyStr
  stateSlug : PyStr
  level : QueryLevel
  category : Option PyStr
  sourceHint : SourceHint
  districts : List PyStr
deriving DecidableEq, Repr

def sourceHintStr : SourceHint → PyStr
  | SourceHint.google => "google".toList
  | SourceHint.newsdata => "newsdata".toList
  | SourceHint.gnews => "gnews".toList

def levelStr : QueryLevel → PyStr
  | QueryLevel.state => "state".toList
  | QueryLevel.district => "district".toList

/-- The f-string `f"{q.source_hint}|{q.state_slug}|{q.language}|{q.level}|{q.query_string}"`
(checkpoint.py lines 48–51). -/
def queryKeyRaw (q : Query) : PyStr :=
  sourceHintStr q.sourceHint ++ ['|'] ++ q.stateSlug ++ ['|'] ++ q.language
    ++ ['|'] ++ levelStr q.level ++ ['|'] ++ q.queryString

/-- `CheckpointStore.query_key`: first 16 hex chars of the SHA-256 of the
UTF-8 encoded raw string (checkpoint.py line 52). -/
def queryKey (q : Query) : PyStr :=
  (sha256Hex (utf8Encode (queryKeyRaw q))).take 16

/-! ## `CheckpointStore.save` as a file-system trace

`save()` (checkpoint.py lines 66–76) runs
`aiofiles.open(self._path, "w")` — which creates/*truncates* the file at the
checkpoint path — and then writes `json.dumps(data, indent=2)` into it.
We model the checkpoint path's contents as `Option PyStr` (`none` =
no file) and `save` as the trace of mutating steps it performs on that
path.  `FsOp.rename` is renaming some other freshly written file onto the
path (the write-then-rename idiom); it is part of the op vocabulary so that
"the trace contains no rename" is a statement, but `save` never emits it. -/

inductive FsOp where
  | truncate
  | write (s : PyStr)
  | rename (newContents : PyStr)
deriving DecidableEq, Repr

def applyFsOp (file : Option PyStr) (op : FsOp) : Option PyStr :=
  match op with
  | FsOp.truncate => some []
  | FsOp.write s =>
      match file with
      | none => some s
      | some old => some (old ++ s)
  | FsOp.rename s => some s

def runFsOps (file : Option PyStr) (ops : List FsOp) : Option PyStr :=
  ops.foldl applyFsOp file

/-- `json.dumps({"completed_queries": sorted(self._completed)}, indent=2)`,
byte-for-byte (CPython `json` with `indent=2`, default separators). -/
def dumpsCompleted (sortedKeys : List PyStr) : PyStr :=
  let header := "\x7b\n  \"completed_queries\": [".toList
  match sortedKeys with
  | [] => header ++ "]\n\x7d".toList
  | ks =>
      let items := ks.map (fun k => "\n    \"".toList ++ k ++ ['"'])
      header ++ (items.intersperse [',']).flatten ++ "\n  ]\n\x7d".toList

/-- Sort (ascending, code-point lexicographic — CPython `sorted` on `str`). -/
def pyStrLe (a b : PyStr) : Prop := List.Lex (· < ·) a b ∨ a = b

instance : DecidableRel pyStrLe := fun a b =>
  inferInstanceAs (Decidable (List.Lex (· < ·) a b ∨ a = b))

def insortStr (x : PyStr) : List PyStr → List PyStr
  | [] => [x]
  | y :: ys => if pyStrLe x y then x :: y :: ys else y :: insortStr x ys

def sortStrs (l : List PyStr) : List PyStr := l.foldr insortStr []

/-- The trace of file operations `CheckpointStore.save` performs on the
checkpoint path: open-with-truncate, then write the JSON dump.
No temporary file, no rename. -/
def saveTrace (completedSorted : List PyStr) : List FsOp :=
  [FsOp.truncate, FsOp.write (dumpsCompleted completedSorted)]

/-! # Articles (`src/models/article.py`)

`Article` extends `ArticleRef` with `full_text` and `relevance_score`.
The pydantic model validates `title`/`url`/`source`/`state`/`search_term`
non-empty and `relevance_score ∈ [0,1]`; theorem hypotheses state the
validated facts where a claim needs them.  The IST datetime is opaque to
every claim below and is carried as an integer timestamp. -/

structure Article where
  title : PyStr
  url : PyStr
  source : PyStr
  date : Int
  language : PyStr
  state : PyStr
  district : Option PyStr
  searchTerm : PyStr
  fullText : Option PyStr
  relevanceScore : ℚ
deriving DecidableEq, Repr

/-! # Relevance scoring (`src/dedup/_relevance.py`)

The English heat-term table is static reference data loaded from
`src/data/heat_terms.json` (spec §1: loading of reference data is an
out-of-core collaborator), so the scorer is parametrised by the table:
`termTable` lists `(category, terms)` in the order the scorer iterates,
which the code fixes as `sorted(TERM_CATEGORIES)` with
`get_terms_by_category("en", category)`.  Python `float` scores are
modelled in `ℚ`. -/

/-- Python substring test `t in text` (contiguous). -/
def pySubstr (t text : PyStr) : Bool := decide (t <:+: text)

/-- `_combine_text` (relevance.py lines 44–58): join truthy title and
non-`None` full text with `"\n"`, lower-cased. -/
def combineText (article : Article) : PyStr :=
  let parts : List PyStr :=
    (if article.title ≠ [] then [article.title] else []) ++
    (match article.fullText with
     | none => []
     | some ft => [ft])
  pyLower ((parts.intersperse ['\n']).flatten)

/-- Set-insert preserving first-occurrence order (model of accumulating a
Python `set`; only the cardinality and membership of the set are read). -/
def insertUnique (x : PyStr) (l : List PyStr) : List PyStr :=
  if l.contains x then l else l ++ [x]

/-- One term of the `score_relevance` matching loop: if
`term.lower() in text`, add the lowered term to `matched_terms` and the
category name to `matched_categories`. -/
def matchedTermStep (text catName : PyStr) (acc : List PyStr × List PyStr)
    (term : PyStr) : List PyStr × List PyStr :=
  if pySubstr (pyLower term) text then
    (insertUnique (pyLower term) acc.1, insertUnique catName acc.2)
  else acc

/-- The inner loop over one category's terms. -/
def matchedCatFold (text : PyStr) (cat : PyStr × List PyStr)
    (acc : List PyStr × List PyStr) : List PyStr × List PyStr :=
  cat.2.foldl (matchedTermStep text cat.1) acc

/-- The loop of `score_relevance` lines 99–104: for each category in
iteration order, for each term, if `term.lower() in text` add the term to
`matched_terms` and the category to `matched_categories`. -/
def matchedSets (termTable : List (PyStr × List PyStr)) (text : PyStr) :
    List PyStr × List PyStr :=
  termTable.foldl (fun acc cat => matchedCatFold text cat acc) ([], [])

/-- `score_relevance` (relevance.py lines 74–122), scores in `ℚ`. -/
def scoreRelevance (termTable : List (PyStr × List PyStr)) (article : Article) : ℚ :=
  let text := combineText article
  if text = [] then 0
  else
    let ms := matchedSets termTable text
    let matchedTerms := ms.1
    let matchedCategories := ms.2
    if matchedTerms = [] then 0
    else
      let termScore : ℚ := min ((matchedTerms.length : ℚ) / 3) 1
      let categoryScore : ℚ := min ((matchedCategories.length : ℚ) / 2) 1
      let titleLower := pyLower article.title
      let titleTerms := (matchedTerms.filter (fun t => pySubstr t titleLower)).length
      let titleBonus : ℚ := if titleTerms > 0 then 1/5 else 0
      let rawScore := termScore * (1/2) + categoryScore * (3/10) + titleBonus
      let rawScore :=
        if article.fullText = none ∧ titleTerms > 0 then max rawScore (3/10)
        else rawScore
      min rawScore 1

/-! # Extractor (`src/extraction/_extractor.py`)

`extract_article` ends in one of three ways: the fetch failed
(`full_text=None`), extraction ran and produced `text : Option`, or an
unexpected exception was caught (`full_text=None`); in all cases it returns
`Article(**ref.model_dump(), full_text=…, relevance_score=0.0)`.  The
per-ref outcome is therefore a single `Option PyStr` supplied by an oracle
`outcome : ℕ → Option PyStr` indexed by the ref's position.  The deadline
is `time.monotonic() >= deadline`, polled once per chunk; an oracle
`deadlineHit : ℕ → Bool` gives the poll's value at the start of chunk `k`
(the model quantifies over all oracles, hence over all clock behaviours). -/

/-- An `ArticleRef` (models/article.py): the fields `extract_article`
copies through `ref.model_dump()`. -/
structure ArticleRef where
  title : PyStr
  url : PyStr
  source : PyStr
  date : Int
  language : PyStr
  state : PyStr
  district : Option PyStr
  searchTerm : PyStr
deriving DecidableEq, Repr

/-- `Article(**ref.model_dump(), full_text=ft, relevance_score=0.0)`. -/
def mkArticle (ref : ArticleRef) (ft : Option PyStr) : Article :=
  { title := ref.title, url := ref.url, source := ref.source, date := ref.date
    language := ref.language, state := ref.state, district := ref.district
    searchTerm := ref.searchTerm, fullText := ft, relevanceScore := 0 }

/-- The projection back to the ref fields (for stating "the i-th output
derives from the i-th input"). -/
def articleRefOf (a : Article) : ArticleRef :=
  { title := a.title, url := a.url, source := a.source, date := a.date
    language := a.language, state := a.state, district := a.district
    searchTerm := a.searchTerm }

/-- The chunk loop of `extract_articles` (extractor.py lines 192–207):
`for i in range(0, len(refs), chunk_size)` — check deadline, else gather
the chunk.  `chunkIdx` counts loop iterations; `base` is the absolute
index of the chunk's first ref.  Structural recursion on the remaining
refs (each step drops `chunkSize ≥ 1` refs via `List.drop (chunkSize-1)`
on the tail). -/
def extractLoop (outcome : Nat → Option PyStr) (deadlineHit : Nat → Bool)
    (chunkSize : Nat) : Nat → List ArticleRef → Nat → Nat → List Article
  | 0, _, _, _ => []
  | _, [], _, _ => []
  | fuel + 1, r :: rest, chunkIdx, base =>
      if deadlineHit chunkIdx then []
      else
        ((r :: rest).take chunkSize).enum.map
            (fun p => mkArticle p.2 (outcome (base + p.1)))
          ++ extractLoop outcome deadlineHit chunkSize fuel
              (rest.drop (chunkSize - 1)) (chunkIdx + 1) (base + chunkSize)

/-- `extract_articles` (extractor.py lines 146–228): empty input short-cut,
chunked loop with per-chunk deadline poll, then the tail fill
`refs[len(articles):]` as Articles with `full_text=None`.  The loop runs
`⌈len refs / chunkSize⌉ ≤ len refs` iterations when `chunkSize ≥ 1`, so
fuel `len refs` makes the fuel-indexed loop exact. -/
def extractArticles (refs : List ArticleRef) (maxConcurrent : Nat)
    (outcome : Nat → Option PyStr) (deadlineHit : Nat → Bool) : List Article :=
  match refs with
  | [] => []
  | _ =>
      let chunkSize := maxConcurrent * 3
      let processed := extractLoop outcome deadlineHit chunkSize refs.length refs 0 0
      processed ++ (refs.drop processed.length).map (fun r => mkArticle r none)

/-! # `urllib.parse` (CPython 3.11), the slice `normalize_url` uses

The repository's URL canonicalisation (`src/dedup/_url_dedup.py`) is built
on `urlparse`, `parse_qs`, `urlencode` and `urlunparse`; the adapters also
use `quote_plus`.  This section embeds those stdlib functions (CPython
3.11 source) over `PyStr`.  Two documented simplifications, neither load-
bearing for any theorem below: (i) `_check_bracketed_host`'s IPv6/IPvFuture
validity test is not modelled — a netloc whose brackets are matched is
accepted (a superset of what the stdlib accepts; mismatched brackets are
rejected exactly as in the stdlib); (ii) `_checknetloc`'s NFKC test, a
no-op for ASCII netlocs, is modelled as a no-op (theorems that reparse a
netloc restrict to ASCII netlocs). -/

def isAsciiAlphaChar (c : Char) : Bool :=
  ('a' ≤ c ∧ c ≤ 'z') ∨ ('A' ≤ c ∧ c ≤ 'Z')

def isAsciiDigitChar (c : Char) : Bool := '0' ≤ c ∧ c ≤ '9'

/-- `scheme_chars` = letters, digits, `+`, `-`, `.`. -/
def isSchemeChar (c : Char) : Bool :=
  isAsciiAlphaChar c ∨ isAsciiDigitChar c ∨ c = '+' ∨ c = '-' ∨ c = '.'

/-- `_WHATWG_C0_CONTROL_OR_SPACE`: code points `0x00`–`0x20`. -/
def isC0OrSpace (c : Char) : Bool := c.toNat ≤ 32

/-- `_UNSAFE_URL_BYTES_TO_REMOVE` = tab, CR, LF. -/
def isUnsafeUrlChar (c : Char) : Bool := c = '\t' ∨ c = '\r' ∨ c = '\n'

/-- `uses_netloc` (the members that are syntactically possible schemes). -/
def usesNetloc : List PyStr :=
  ["ftp", "http", "gopher", "nntp", "telnet", "imap", "wais", "file", "mms",
   "https", "shttp", "snews", "prospero", "rtsp", "rtsps", "rtspu", "rsync",
   "svn", "svn+ssh", "sftp", "nfs", "git", "git+ssh", "ws",
   "wss"].map String.toList ++ [[]]

/-- `uses_params`. -/
def usesParams : List PyStr :=
  ["ftp", "hdl", "prospero", "http", "imap", "https", "shttp", "rtsp",
   "rtspu", "sip", "sips", "mms", "sftp", "tel"].map String.toList ++ [[]]

/-- `url.split(c, 1)` when `c` occurs: the part before the first `c` and
the part after it; when `c` does not occur: `(url, none)`. -/
def splitOnce (s : PyStr) (c : Char) : PyStr × Option PyStr :=
  let pre := s.takeWhile (· ≠ c)
  let rest := s.dropWhile (· ≠ c)
  match rest with
  | [] => (s, none)
  | _ :: tail => (pre, some tail)

/-- The result record of `urlsplit`. -/
structure SplitResult where
  scheme : PyStr
  netloc : PyStr
  path : PyStr
  query : PyStr
  fragment : PyStr
deriving DecidableEq, Repr

/-- `urlsplit(url)` (urllib/parse.py, CPython 3.11): lstrip C0/space,
remove tab/CR/LF, extract a valid scheme (first `:` at position > 0, first
char ASCII alpha, all chars in `scheme_chars`; the scheme is lower-cased),
then `//netloc` up to the first of `/?#` with the bracket-matching check,
then fragment at the first `#`, then query at the first `?`.  `none`
models the `ValueError` raise for mismatched brackets. -/
def urlsplitM (url : PyStr) : Option SplitResult :=
  let u0 := url.dropWhile isC0OrSpace
  let u1 := u0.filter (fun c => ¬ isUnsafeUrlChar c)
  let pre := u1.takeWhile (· ≠ ':')
  let afterColon := u1.dropWhile (· ≠ ':')
  let (scheme, rest) :=
    match afterColon with
    | [] => (([] : PyStr), u1)
    | _ :: tail =>
        match pre with
        | [] => (([] : PyStr), u1)
        | c :: _ =>
            if isAsciiAlphaChar c ∧ pre.all isSchemeChar then (pyLower pre, tail)
            else (([] : PyStr), u1)
  let (netloc, rest2) :=
    if startsWith rest "//".toList then
      let body := rest.drop 2
      (body.takeWhile (fun c => ¬ (c = '/' ∨ c = '?' ∨ c = '#')),
       body.dropWhile (fun c => ¬ (c = '/' ∨ c = '?' ∨ c = '#')))
    else (([] : PyStr), rest)
  if (netloc.contains '[' ∧ ¬ netloc.contains ']') ∨
     (netloc.contains ']' ∧ ¬ netloc.contains '[') then none
  else
    let (rest3, fragment) :=
      match splitOnce rest2 '#' with
      | (p, none) => (p, ([] : PyStr))
      | (p, some f) => (p, f)
    let (path, query) :=
      match splitOnce rest3 '?' with
      | (p, none) => (p, ([] : PyStr))
      | (p, some q) => (p, q)
    some { scheme := scheme, netloc := netloc, path := path,
           query := query, fragment := fragment }

/-- The scheme-extraction stage of `urlsplit`, as a standalone function on
the cleaned string `u1` (same code as the corresponding lines of
`urlsplitM`): the pair `(scheme, rest)`. -/
def schemeSplit (u1 : PyStr) : PyStr × PyStr :=
  let pre := u1.takeWhile (· ≠ ':')
  match u1.dropWhile (· ≠ ':') with
  | [] => (([] : PyStr), u1)
  | _ :: tail =>
      match pre with
      | [] => (([] : PyStr), u1)
      | c :: _ =>
          if isAsciiAlphaChar c ∧ pre.all isSchemeChar then (pyLower pre, tail)
          else (([] : PyStr), u1)

/-- The post-scheme stage of `urlsplit` (netloc, bracket check, fragment,
query), as a standalone function — same code as the corresponding lines of
`urlsplitM`. -/
def urlsplitTail (scheme rest : PyStr) : Option SplitResult :=
  let (netloc, rest2) :=
    if startsWith rest "//".toList then
      let body := rest.drop 2
      (body.takeWhile (fun c => ¬ (c = '/' ∨ c = '?' ∨ c = '#')),
       body.dropWhile (fun c => ¬ (c = '/' ∨ c = '?' ∨ c = '#')))
    else (([] : PyStr), rest)
  if (netloc.contains '[' ∧ ¬ netloc.contains ']') ∨
     (netloc.contains ']' ∧ ¬ netloc.contains '[') then none
  else
    let (rest3, fragment) :=
      match splitOnce rest2 '#' with
      | (p, none) => (p, ([] : PyStr))
      | (p, some f) => (p, f)
    let (path, query) :=
      match splitOnce rest3 '?' with
      | (p, none) => (p, ([] : PyStr))
      | (p, some q) => (p, q)
    some { scheme := scheme, netloc := netloc, path := path,
           query := query, fragment := fragment }

/-- Index of the last `/` in `s`, if any. -/
def rfindSlash (s : PyStr) : Option Nat :=
  let fromEnd := (s.reverse.takeWhile (· ≠ '/')).length
  if fromEnd < s.length then some (s.length - 1 - fromEnd) else none

/-- Index of the first `;` at or after position `start`, if any. -/
def findSemiFrom (s : PyStr) (start : Nat) : Option Nat :=
  let idx := start + ((s.drop start).takeWhile (· ≠ ';')).length
  if idx < s.length then some idx else none

/-- `_splitparams(url)` — split path parameters off the last path segment.
Only called under the guard `';' in url`. -/
def splitparams (url : PyStr) : PyStr × PyStr :=
  if url.contains '/' then
    match rfindSlash url with
    | none => (url, [])
    | some r =>
        match findSemiFrom url r with
        | none => (url, [])
        | some i => (url.take i, url.drop (i + 1))
  else
    match findSemiFrom url 0 with
    | none => (url, [])
    | some i => (url.take i, url.drop (i + 1))

/-- The result record of `urlparse` (adds `params`). -/
structure ParseResult where
  scheme : PyStr
  netloc : PyStr
  path : PyStr
  params : PyStr
  query : PyStr
  fragment : PyStr
deriving DecidableEq, Repr

/-- `urlparse(url)`: `urlsplit`, then split path parameters when the
scheme is in `uses_params` and the path contains `;`. -/
def urlparseM (url : PyStr) : Option ParseResult := do
  let sr ← urlsplitM url
  let (path, params) :=
    if usesParams.contains sr.scheme ∧ sr.path.contains ';' then
      splitparams sr.path
    else (sr.path, [])
  some { scheme := sr.scheme, netloc := sr.netloc, path := path,
         params := params, query := sr.query, fragment := sr.fragment }

/-- `urlunsplit((scheme, netloc, url, query, fragment))`, CPython 3.11:
note the `uses_netloc` clause that re-introduces `//` for netloc-carrying
schemes. -/
def urlunsplitM (scheme netloc path query fragment : PyStr) : PyStr :=
  let url := path
  let url :=
    if netloc ≠ [] ∨
       (scheme ≠ [] ∧ usesNetloc.contains scheme ∧ ¬ startsWith url "//".toList) then
      let url' := if url ≠ [] ∧ ¬ startsWith url "/".toList then '/' :: url else url
      "//".toList ++ netloc ++ url'
    else url
  let url := if scheme ≠ [] then scheme ++ [':'] ++ url else url
  let url := if query ≠ [] then url ++ ['?'] ++ query else url
  if fragment ≠ [] then url ++ ['#'] ++ fragment else url

/-- `urlunparse`: merge params back (`normalize_url` passes `params=""`),
then `urlunsplit`. -/
def urlunparseM (scheme netloc path params query fragment : PyStr) : PyStr :=
  let path' := if params ≠ [] then path ++ [';'] ++ params else path
  urlunsplitM scheme netloc path' query fragment

/-! ## Percent-coding (`quote_plus` / `unquote`) -/

def hexVal (c : Char) : Option Nat :=
  if '0' ≤ c ∧ c ≤ '9' then some (c.toNat - 48)
  else if 'a' ≤ c ∧ c ≤ 'f' then some (c.toNat - 87)
  else if 'A' ≤ c ∧ c ≤ 'F' then some (c.toNat - 55)
  else none

/-- UTF-8 decoding with `errors="replace"` (U+FFFD per maximal invalid
subpart), as `bytes.decode("utf-8", "replace")` does; fuel-indexed so that
the recursion is structural (every step consumes at least one byte, so
fuel = byte count is exact).  Only ever applied below to byte runs;
round-trip theorems only exercise it on valid output of `utf8Encode`. -/
def utf8DecodeAux : Nat → List Nat → PyStr
  | 0, _ => []
  | _, [] => []
  | fuel + 1, b0 :: rest =>
      if b0 < 0x80 then Char.ofNat b0 :: utf8DecodeAux fuel rest
      else if 0xC2 ≤ b0 ∧ b0 ≤ 0xDF then
        match rest with
        | [] => [Char.ofNat 0xFFFD]
        | b1 :: rest1 =>
            if 0x80 ≤ b1 ∧ b1 ≤ 0xBF then
              Char.ofNat ((b0 - 0xC0) * 64 + (b1 - 0x80)) :: utf8DecodeAux fuel rest1
            else Char.ofNat 0xFFFD :: utf8DecodeAux fuel rest
      else if 0xE0 ≤ b0 ∧ b0 ≤ 0xEF then
        match rest with
        | [] => [Char.ofNat 0xFFFD]
        | b1 :: rest1 =>
            if (if b0 = 0xE0 then 0xA0 else 0x80) ≤ b1 ∧
               b1 ≤ (if b0 = 0xED then 0x9F else 0xBF) then
              match rest1 with
              | [] => [Char.ofNat 0xFFFD]
              | b2 :: rest2 =>
                  if 0x80 ≤ b2 ∧ b2 ≤ 0xBF then
                    Char.ofNat ((b0 - 0xE0) * 4096 + (b1 - 0x80) * 64 + (b2 - 0x80))
                      :: utf8DecodeAux fuel rest2
                  else Char.ofNat 0xFFFD :: utf8DecodeAux fuel rest1
            else Char.ofNat 0xFFFD :: utf8DecodeAux fuel rest
      else if 0xF0 ≤ b0 ∧ b0 ≤ 0xF4 then
        match rest with
        | [] => [Char.ofNat 0xFFFD]
        | b1 :: rest1 =>
            if (if b0 = 0xF0 then 0x90 else 0x80) ≤ b1 ∧
               b1 ≤ (if b0 = 0xF4 then 0x8F else 0xBF) then
              match rest1 with
              | [] => [Char.ofNat 0xFFFD]
              | b2 :: rest2 =>
                  if 0x80 ≤ b2 ∧ b2 ≤ 0xBF then
                    match rest2 with
                    | [] => [Char.ofNat 0xFFFD]
                    | b3 :: rest3 =>
                        if 0x80 ≤ b3 ∧ b3 ≤ 0xBF then
                          Char.ofNat ((b0 - 0xF0) * 262144 + (b1 - 0x80) * 4096
                              + (b2 - 0x80) * 64 + (b3 - 0x80))
                            :: utf8DecodeAux fuel rest3
                        else Char.ofNat 0xFFFD :: utf8DecodeAux fuel rest2
                  else Char.ofNat 0xFFFD :: utf8DecodeAux fuel rest1
            else Char.ofNat 0xFFFD :: utf8DecodeAux fuel rest
      else Char.ofNat 0xFFFD :: utf8DecodeAux fuel rest

def utf8DecodeReplace (bs : List Nat) : PyStr := utf8DecodeAux bs.length bs

/-- `unquote(s, encoding="utf-8", errors="replace")`: replace maximal runs
of `%XX` (valid hex, either case) by the UTF-8 decoding of their bytes; a
`%` not followed by two hex digits is literal. -/
def unquoteAux : PyStr → List Nat → PyStr
  | [], acc => utf8DecodeReplace acc
  | '%' :: h1 :: h2 :: rest, acc =>
      match hexVal h1, hexVal h2 with
      | some a, some b => unquoteAux rest (acc ++ [16 * a + b])
      | _, _ => utf8DecodeReplace acc ++ '%' :: unquoteAux (h1 :: h2 :: rest) []
  | c :: rest, acc => utf8DecodeReplace acc ++ c :: unquoteAux rest []

def unquote (s : PyStr) : PyStr := unquoteAux s []

/-- `.replace('+', ' ')` followed by `unquote` — the treatment
`parse_qsl` applies to each name and value. -/
def unquotePlus (s : PyStr) : PyStr :=
  unquote (s.map (fun c => if c = '+' then ' ' else c))

/-- `_ALWAYS_SAFE`: ASCII alphanumerics and `_.-~`. -/
def alwaysSafeByte (b : Nat) : Bool :=
  (48 ≤ b ∧ b ≤ 57) ∨ (65 ≤ b ∧ b ≤ 90) ∨ (97 ≤ b ∧ b ≤ 122) ∨
    b = 45 ∨ b = 46 ∨ b = 95 ∨ b = 126

def hexUpperChar (n : Nat) : Char :=
  if n < 10 then Char.ofNat (48 + n) else Char.ofNat (55 + n)

/-- `quote_plus(s, safe='')` for a `str`: safe bytes pass through, the
space becomes `+`, every other UTF-8 byte becomes uppercase `%XX`. -/
def quotePlusChar (c : Char) : PyStr :=
  if c = ' ' then ['+']
  else
    (utf8EncodeChar c).flatMap fun b =>
      if alwaysSafeByte b then [Char.ofNat b]
      else ['%', hexUpperChar (b / 16), hexUpperChar (b % 16)]

def quotePlus (s : PyStr) : PyStr := s.flatMap quotePlusChar

/-! ## `parse_qs` / `urlencode` -/

/-- `s.split(sep)` for a one-character separator (empty pieces kept). -/
def splitAll (sep : Char) : PyStr → List PyStr
  | [] => [[]]
  | c :: rest =>
      if c = sep then [] :: splitAll sep rest
      else
        match splitAll sep rest with
        | [] => [[c]]
        | h :: t => (c :: h) :: t

/-- `parse_qsl(qs, keep_blank_values=False, separator='&')`: split on `&`,
skip empty fields and fields without `=` and fields with an empty value,
`+`-to-space and percent-decode names and values. -/
def parseQsl (qs : PyStr) : List (PyStr × PyStr) :=
  let pieces := if qs = [] then [] else splitAll '&' qs
  pieces.foldr
    (fun nv acc =>
      if nv = [] then acc
      else
        match splitOnce nv '=' with
        | (_, none) => acc
        | (name, some value) =>
            if value = [] then acc
            else (unquotePlus name, unquotePlus value) :: acc)
    []

/-- Append `v` to the entry for `k` (first-occurrence key order preserved,
as a CPython dict). -/
def groupInsert (k v : PyStr) : List (PyStr × List PyStr) → List (PyStr × List PyStr)
  | [] => [(k, [v])]
  | (k', vs) :: rest =>
      if k' = k then (k', vs ++ [v]) :: rest else (k', vs) :: groupInsert k v rest

/-- `parse_qs`: group `parse_qsl` pairs by name. -/
def parseQs (qs : PyStr) : List (PyStr × List PyStr) :=
  (parseQsl qs).foldl (fun acc p => groupInsert p.1 p.2 acc) []

/-- Code-point comparison of strings (CPython `str` ordering). -/
def cmpStr : PyStr → PyStr → Ordering
  | [], [] => Ordering.eq
  | [], _ :: _ => Ordering.lt
  | _ :: _, [] => Ordering.gt
  | a :: as', b :: bs' =>
      match compare a.toNat b.toNat with
      | Ordering.eq => cmpStr as' bs'
      | o => o

/-- CPython `list[str]` comparison. -/
def cmpStrList : List PyStr → List PyStr → Ordering
  | [], [] => Ordering.eq
  | [], _ :: _ => Ordering.lt
  | _ :: _, [] => Ordering.gt
  | a :: as', b :: bs' =>
      match cmpStr a b with
      | Ordering.eq => cmpStrList as' bs'
      | o => o

/-- CPython tuple comparison for `(str, list[str])`. -/
def cmpPair (a b : PyStr × List PyStr) : Ordering :=
  match cmpStr a.1 b.1 with
  | Ordering.eq => cmpStrList a.2 b.2
  | o => o

def insortBy {α : Type} (le : α → α → Bool) (x : α) : List α → List α
  | [] => [x]
  | y :: ys => if le x y then x :: y :: ys else y :: insortBy le x ys

/-- `sorted` (any stable comparison sort agrees with this on the inputs
below, whose compared elements are pairwise distinct). -/
def sortedBy {α : Type} (le : α → α → Bool) (l : List α) : List α :=
  l.foldr (insortBy le) []

def strLeB (a b : PyStr) : Bool := cmpStr a b ≠ Ordering.gt

def pairLeB (a b : PyStr × List PyStr) : Bool := cmpPair a b ≠ Ordering.gt

/-- `urlencode(clean, doseq=True)` for `list[tuple[str, list[str]]]`. -/
def urlencodeDoseq (l : List (PyStr × List PyStr)) : PyStr :=
  ((l.flatMap fun p => p.2.map fun v => quotePlus p.1 ++ ['='] ++ quotePlus v).intersperse
    ['&']).flatten

/-! # URL canonicalisation (`src/dedup/_url_dedup.py`) -/

/-- `_TRACKING_PARAMS` (url_dedup.py lines 18–42), verbatim — including
the mixed-case `hsCtaTracking` entry, which the lower-cased lookup can
never match. -/
def trackingParams : List PyStr :=
  ["utm_source", "utm_medium", "utm_campaign", "utm_term", "utm_content",
   "utm_id", "fbclid", "gclid", "yclid", "msclkid", "_ga", "_gl", "ref",
   "source", "mkt_tok", "mc_cid", "mc_eid", "hsCtaTracking", "si",
   "__cft__", "__tn__"].map String.toList

/-- The body of `normalize_url`'s query handling: `parse_qs`, drop
tracking parameters, sort values then pairs, re-encode. -/
def queryNormalized (qs : PyStr) : PyStr :=
  urlencodeDoseq
    (sortedBy pairLeB
      ((((parseQs qs).filter fun p => ¬ trackingParams.contains (pyLower p.1)).map
        fun p => (p.1, sortedBy strLeB p.2))))

/-- The four canonicalised components `normalize_url` computes before
reassembling the URL. -/
structure NormParts where
  scheme : PyStr
  netloc : PyStr
  path : PyStr
  query : PyStr
deriving DecidableEq, Repr

/-- The component-computing half of `normalize_url`
(url_dedup.py lines 45–66). -/
def normParts (url : PyStr) : Option NormParts := do
  let parsed ← urlparseM url
  let scheme := pyLower (if parsed.scheme = [] then "https".toList else parsed.scheme)
  let netloc := removePrefix (pyLower parsed.netloc) "www.".toList
  let path0 := rstripChars parsed.path ['/']
  let path := if path0 = [] then ['/'] else path0
  some { scheme := scheme, netloc := netloc, path := path
         query := queryNormalized parsed.query }

/-- `normalize_url` (url_dedup.py lines 45–68): the canonicalised
components reassembled by `urlunparse((scheme, netloc, path, "", query,
""))`.  `none` models the `ValueError` propagated out of `urlparse`. -/
def normalizeUrl (url : PyStr) : Option PyStr :=
  (normParts url).map fun p => urlunparseM p.scheme p.netloc p.path [] p.query []

/-- Does `_splitparams` split this path?  True when the path's last
segment (the whole path if it has no `/`) contains a `;`. -/
def lastSegmentHasSemi (path : PyStr) : Bool :=
  if path.contains '/' then ((path.reverse.takeWhile (· ≠ '/')).contains ';')
  else path.contains ';'

/-- The canonicalised components on which `normalize_url` is a fixed
point of reassembly (see the C5 theorems): the host does not still start
with `www.` (a doubled `www.www.` host loses one prefix per pass), the
path's last segment has no `;` (reparsing would strip it as a path
parameter), and an empty host does not precede a `//`-initial path (the
reassembled `scheme://…` would absorb the path head into the host). -/
def idempotentSafe (p : NormParts) : Bool :=
  (¬ startsWith p.netloc "www.".toList) ∧
  (¬ lastSegmentHasSemi p.path) ∧
  (¬ (p.netloc = [] ∧ startsWith p.path "//".toList))

/-! # URL dedup (`src/dedup/_url_dedup.py`) -/

/-- `_quality_score` (url_dedup.py lines 71–88). -/
def qualityScore (a : Article) : Nat :=
  (match a.fullText with
   | some t => 100 + t.length
   | none => 0) +
  (match a.district with
   | some _ => 10
   | none => 0) +
  (if a.source ≠ "Unknown".toList then 5 else 0)

/-- One iteration of the `deduplicate_by_url` loop: look up the normalized
URL in the insertion-ordered `seen` dict; on a collision replace the stored
article only when the new one's quality is strictly greater. -/
def urlSeenStep (key : PyStr) (a : Article) :
    List (PyStr × Article) → List (PyStr × Article)
  | [] => [(key, a)]
  | (k, e) :: rest =>
      if k = key then
        (if qualityScore a > qualityScore e then (k, a) :: rest else (k, e) :: rest)
      else (k, e) :: urlSeenStep key a rest

/-- The `seen` dict after the whole loop, built left to right (`none`
models the `ValueError` that `normalize_url` propagates on an unparsable
URL, which `deduplicate_by_url` does not catch). -/
def urlSeenFold (articles : List Article) (acc : List (PyStr × Article)) :
    Option (List (PyStr × Article)) :=
  match articles with
  | [] => some acc
  | a :: rest => do
      let norm ← normalizeUrl a.url
      urlSeenFold rest (urlSeenStep norm a acc)

/-- `deduplicate_by_url` (url_dedup.py lines 91–109):
`list(seen.values())`. -/
def deduplicateByUrl (articles : List Article) : Option (List Article) := do
  let seen ← urlSeenFold articles []
  some (seen.map Prod.snd)

/-! # Title dedup (`src/dedup/_title_dedup.py`)

`difflib.SequenceMatcher(None, a, b).ratio()` is embedded below:
`b2j` (with the autojunk "popular" rule for sequences of length ≥ 200),
the `find_longest_match` dynamic program with its non-junk extension
loops (the junk extension loops are vacuous since `isjunk=None`), the
block-sum of `get_matching_blocks`, and `ratio = 2M/(len a + len b)`
as a rational. -/

/-- Indices `j` with `b[j] = c` (ascending), after the autojunk rule:
for `len(b) ≥ 200`, elements occurring more than `len(b)//100 + 1` times
are dropped from `b2j`. -/
def b2jIndices (b : PyStr) (c : Char) : List Nat :=
  let idxs := (List.range b.length).filter fun j => b.getD j ' ' = c
  if b.length ≥ 200 ∧ idxs.length > b.length / 100 + 1 then [] else idxs

/-- One row of the `find_longest_match` dynamic program (a fixed `i`;
the inner loop over `j ∈ b2j[a[i]]`, whose `continue` below `blo` and
`break` at `bhi` equal filtering an ascending list): returns the new
`j2len` row (`newj2len`) and the updated best triple. -/
def flmRow (blo bhi i : Nat) (js : List Nat) (j2len : Nat → Nat)
    (best : Nat × Nat × Nat) : (Nat → Nat) × (Nat × Nat × Nat) :=
  let js' := js.filter fun j => blo ≤ j ∧ j < bhi
  js'.foldl
    (fun acc j =>
      let (row, b) := acc
      let k := (if j = 0 then 0 else j2len (j - 1)) + 1
      let row' := fun j' => if j' = j then k else row j'
      let b' := if k > b.2.2 then (i + 1 - k, j + 1 - k, k) else b
      (row', b'))
    ((fun _ => 0), best)

/-- Fuel-indexed while loop extending the match leftward
(`while besti > alo and bestj > blo and a[besti-1] == b[bestj-1]`). -/
def flmExtendLeft (a b : PyStr) (alo blo : Nat) :
    Nat → Nat × Nat × Nat → Nat × Nat × Nat
  | 0, best => best
  | fuel + 1, (besti, bestj, bestsize) =>
      if besti > alo ∧ bestj > blo ∧ a.getD (besti - 1) ' ' = b.getD (bestj - 1) ' ' then
        flmExtendLeft a b alo blo fuel (besti - 1, bestj - 1, bestsize + 1)
      else (besti, bestj, bestsize)

/-- Fuel-indexed while loop extending the match rightward. -/
def flmExtendRight (a b : PyStr) (ahi bhi : Nat) :
    Nat → Nat × Nat × Nat → Nat × Nat × Nat
  | 0, best => best
  | fuel + 1, (besti, bestj, bestsize) =>
      if besti + bestsize < ahi ∧ bestj + bestsize < bhi ∧
         a.getD (besti + bestsize) ' ' = b.getD (bestj + bestsize) ' ' then
        flmExtendRight a b ahi bhi fuel (besti, bestj, bestsize + 1)
      else (besti, bestj, bestsize)

/-- `find_longest_match(alo, ahi, blo, bhi)` (difflib, `isjunk=None`):
the earliest-starting longest matching block, then the two (non-junk)
extension loops; the junk extension loops are vacuous because the junk
set is empty. -/
def findLongestMatch (a b : PyStr) (alo ahi blo bhi : Nat) : Nat × Nat × Nat :=
  let init : (Nat → Nat) × (Nat × Nat × Nat) := (fun _ => 0, (alo, blo, 0))
  let rows := (List.range' alo (ahi - alo)).foldl
    (fun acc i =>
      let (j2len, best) := acc
      flmRow blo bhi i (b2jIndices b (a.getD i ' ')) j2len best)
    init
  let best := rows.2
  let best := flmExtendLeft a b alo blo best.1 best
  flmExtendRight a b ahi bhi (bhi + ahi) best

/-- Total size of matching blocks (`get_matching_blocks`, summed): find
the longest match, recurse on both sides.  Fuel: each recursion step has
a strictly smaller `(ahi-alo)+(bhi-blo)`, so `ahi+bhi+1` suffices. -/
def matchTotal (a b : PyStr) : Nat → Nat → Nat → Nat → Nat → Nat
  | 0, _, _, _, _ => 0
  | fuel + 1, alo, ahi, blo, bhi =>
      let (i, j, k) := findLongestMatch a b alo ahi blo bhi
      if k = 0 then 0
      else
        (if alo < i ∧ blo < j then matchTotal a b fuel alo i blo j else 0) + k +
          (if i + k < ahi ∧ j + k < bhi then matchTotal a b fuel (i + k) ahi (j + k) bhi
           else 0)

/-- Total matched characters between `a` and `b` (the `M` of
`ratio() = 2M/T`). -/
def smMatches (a b : PyStr) : Nat :=
  matchTotal a b (a.length + b.length + 1) 0 a.length 0 b.length

/-- `SequenceMatcher(None, a, b).ratio()` as a rational:
`2*M / (len a + len b)`, and 1.0 for two empty sequences. -/
def smRatio (a b : PyStr) : ℚ :=
  let total := a.length + b.length
  if total = 0 then 1
  else (2 * smMatches a b : ℚ) / (total : ℚ)

/-- Last index where `" - "` occurs in `s` (Python `str.rfind(" - ")`). -/
def rfindDashSep (s : PyStr) : Option Nat :=
  ((List.range s.length).filter fun i => (s.drop i).take 3 = " - ".toList).getLast?

/-- `_strip_source_suffix` (title_dedup.py lines 20–37). -/
def stripSourceSuffix (title : PyStr) : PyStr :=
  match rfindDashSep title with
  | none => title
  | some idx =>
      let suffix := title.drop (idx + 3)
      if suffix.length ≤ 40 then title.take idx else title

/-- `str.strip()` (ASCII whitespace; the titles the theorems evaluate are
ASCII). -/
def isPySpace (c : Char) : Bool :=
  c = ' ' ∨ c = '\t' ∨ c = '\n' ∨ c = '\r' ∨ c.toNat = 11 ∨ c.toNat = 12

def pyStrip (s : PyStr) : PyStr :=
  ((s.dropWhile isPySpace).reverse.dropWhile isPySpace).reverse

/-- `_title_similarity` (title_dedup.py lines 40–49), as a rational. -/
def titleSimilarity (ta tb : PyStr) : ℚ :=
  smRatio (pyLower (pyStrip (stripSourceSuffix ta)))
    (pyLower (pyStrip (stripSourceSuffix tb)))

/-- The comparison `_title_similarity(a, b) >= threshold` with
`threshold = n/d` (the pipeline's 0.85 = 85/100), in exact integer
arithmetic: `2M/T ≥ n/d ↔ n*T ≤ d*2M`, and `T = 0` gives ratio 1.
(Mathlib's `ℚ` arithmetic is not kernel-reducible, so the executable
dedup path compares cross-multiplied integers; `titleSimilarGe_iff_ratio`
below proves this Bool equal to the `ℚ` comparison.  Every comparison a
theorem below evaluates is far from the rounding error of the binary64
floats the Python code compares.) -/
def titleSimilarGe (ta tb : PyStr) (n d : Nat) : Bool :=
  let a := pyLower (pyStrip (stripSourceSuffix ta))
  let b := pyLower (pyStrip (stripSourceSuffix tb))
  let total := a.length + b.length
  if total = 0 then decide (n ≤ d)
  else decide (n * total ≤ d * (2 * smMatches a b))

/-- The inner loop of `deduplicate_by_title`: scan `kept` for the first
article whose title is similar to `article`'s at or above the threshold
`n/d`; on a hit, replace it only when strictly higher quality; otherwise
append. -/
def titleKeptStep (n d : Nat) (kept : List Article) (article : Article) :
    List Article :=
  match kept.findIdx? (fun e => titleSimilarGe article.title e.title n d) with
  | some i =>
      let e := kept.getD i article
      if qualityScore article > qualityScore e then kept.set i article else kept
  | none => kept ++ [article]

/-- Process one language bucket (the greedy `kept` loop,
title_dedup.py lines 79–90). -/
def titleBucket (n d : Nat) (bucket : List Article) : List Article :=
  bucket.foldl (titleKeptStep n d) []

/-- First-occurrence order of languages (CPython `defaultdict` key
order). -/
def languagesInOrder (articles : List Article) : List PyStr :=
  articles.foldl (fun acc a => if acc.contains a.language then acc else acc ++ [a.language]) []

/-- `deduplicate_by_title(articles, threshold)` (title_dedup.py
lines 52–94) at threshold `n/d`: bucket by language, deduplicate each
bucket, concatenate buckets in language first-occurrence order. -/
def deduplicateByTitle (n d : Nat) (articles : List Article) : List Article :=
  (languagesInOrder articles).flatMap fun lang =>
    titleBucket n d (articles.filter fun a => a.language = lang)

/-- Stages 1–2 of `deduplicate_and_filter` (src/dedup/__init__.py):
URL dedup then title dedup at threshold 0.85. -/
def dedup (articles : List Article) : Option (List Article) := do
  let byUrl ← deduplicateByUrl articles
  some (deduplicateByTitle 85 100 byUrl)

/-- Lower-case hex digit (the alphabet of `hexdigest()`). -/
def isLowerHexChar (c : Char) : Bool :=
  isAsciiDigitChar c ∨ ('a' ≤ c ∧ c ≤ 'f')

/-! ## Concrete inputs used by counterexamples and witnesses -/

/-- Two queries whose *different* field tuples produce the same raw key
string, because `query_key` joins the fields with an unescaped `|`:
`"google" | "a|en" | "x"` and `"google" | "a" | "en|x"` both serialise to
`"google|a|en|x|state|q"`. -/
def exQueryPipeA : Query :=
  { queryString := "q".toList, language := "x".toList, state := "S".toList
    stateSlug := "a|en".toList, level := QueryLevel.state, category := none
    sourceHint := SourceHint.google, districts := [] }

def exQueryPipeB : Query :=
  { queryString := "q".toList, language := "en|x".toList, state := "S".toList
    stateSlug := "a".toList, level := QueryLevel.state, category := none
    sourceHint := SourceHint.google, districts := [] }

/-- Two queries that agree on the five key fields but differ in `category`
(a field the key does not read). -/
def exQueryCatA : Query :=
  { queryString := "(heatwave) Rajasthan".toList, language := "en".toList
    state := "Rajasthan".toList, stateSlug := "rajasthan".toList
    level := QueryLevel.state, category := none
    sourceHint := SourceHint.google, districts := [] }

def exQueryCatB : Query :=
  { exQueryCatA with category := some "weather".toList }

/-- Lookup in the insertion-ordered `seen` dict. -/
def seenLookup (k : PyStr) (seen : List (PyStr × Article)) : Option Article :=
  (seen.find? fun p => p.1 = k).map Prod.snd

/-- Three same-language articles breaking title-dedup idempotence:
`exArtA`/`exArtB` are dissimilar (ratio 0.8 < 0.85) so both are kept;
`exArtC` is similar to both (0.9) and higher-quality than `exArtA`, so it
*replaces* `exArtA` in place — leaving `exArtC` and `exArtB`, a similar
pair, in the output. -/
def exArtA : Article :=
  { title := "xxxxxxxxxx".toList, url := "http://a.com/1".toList
    source := "Unknown".toList, date := 0, language := "en".toList
    state := "S".toList, district := none, searchTerm := "q".toList
    fullText := none, relevanceScore := 0 }

def exArtB : Article :=
  { exArtA with title := "xxxxxxxxyy".toList, url := "http://a.com/2".toList }

def exArtC : Article :=
  { exArtA with
    title := "xxxxxxxxxy".toList,
    url := "http://a.com/3".toList,
    fullText := some (List.replicate 20 'z') }

/-! # Theorems -/

/-! ## C3 — daily counter increment -/

/-- C3 (counterexample).  The claim says the scheduler's daily counter is
incremented after the request returns *both* when the source call succeeds
and when it raises.  Concretely: a scheduler with `daily_limit=5`, no
breaker, all languages supported, whose source call raises, reaches the
source (`called = true`) yet leaves the counter at 0, not 1 — the
increment sits inside the `try` block after the call and is skipped when
the call raises. -/
theorem execute_raise_does_not_increment :
    let cfg : SchedConfig :=
      { dailyLimit := some 5, supportedLanguages := none, breakerOpen := none }
    let st := execute cfg 0 "en".toList (CallOutcome.raises "boom".toList)
    st.called = true ∧ st.newCount = 0 ∧ st.newCount ≠ 1 := by
  decide

/-- C3 (amended).  For every `execute` that passes the circuit-breaker,
budget and language checks and reaches the underlying source, the daily
counter is incremented exactly when the source call returns without
raising; when the call raises, the counter is left unchanged (and the
result is `success=False` with the exception text). -/
theorem execute_counter_increment (cfg : SchedConfig) (count : Nat)
    (lang : PyStr) (arts : List ARef) (msg : PyStr)
    (hbr : cfg.breakerOpen ≠ some true)
    (hbu : isBudgetExhausted cfg count = false)
    (hl : supportsLanguage cfg lang = true) :
    (execute cfg count lang (CallOutcome.returns arts)).newCount = count + 1 ∧
    (execute cfg count lang (CallOutcome.returns arts)).called = true ∧
    (execute cfg count lang (CallOutcome.raises msg)).newCount = count ∧
    (execute cfg count lang (CallOutcome.raises msg)).called = true ∧
    (execute cfg count lang (CallOutcome.raises msg)).result.success = false := by
  simp [execute, hbr, hbu, hl]

/-- C3 (witness): the amended theorem applied at a concrete scheduler. -/
theorem execute_counter_increment_witness :
    let cfg : SchedConfig :=
      { dailyLimit := some 5, supportedLanguages := none, breakerOpen := none }
    (execute cfg 2 "en".toList (CallOutcome.returns [⟨7⟩])).newCount = 3 ∧
    (execute cfg 2 "en".toList (CallOutcome.raises "x".toList)).newCount = 2 := by
  have h := execute_counter_increment
    { dailyLimit := some 5, supportedLanguages := none, breakerOpen := none }
    2 "en".toList [⟨7⟩] "x".toList (by decide) (by decide) (by decide)
  exact ⟨h.1, h.2.2.1⟩

/-! ## C4 — daily budget -/

/-- C4 (counterexample).  The claim counts every execute that *reached*
the source against the budget.  With `daily_limit=1`: the first execute
reaches the source, whose call raises; the second execute reaches the
source again (`called = true`, error `none`) instead of returning
`budget_exhausted` without invoking it — raising calls do not consume
budget. -/
theorem execute_budget_counts_only_returns :
    let cfg : SchedConfig :=
      { dailyLimit := some 1, supportedLanguages := none, breakerOpen := none }
    let s1 := execute cfg 0 "en".toList (CallOutcome.raises "x".toList)
    let s2 := execute cfg s1.newCount "en".toList (CallOutcome.returns [])
    s1.called = true ∧ s2.called = true ∧
      s2.result.error ≠ some "budget_exhausted".toList := by
  decide

/-- C4 (amended).  For a scheduler with `daily_limit=N` (and a breaker
that is absent or closed): after `N` executes in which the source call
returned without raising (each on a supported language), the counter
reads `N`; and from any counter at or above `N`, every execute returns
`QueryResult(success=True, error="budget_exhausted", articles=[])`
without invoking the underlying source. -/
theorem execute_budget_exhausted (cfg : SchedConfig) (n : Nat)
    (steps : List (PyStr × List ARef)) (lang : PyStr) (out : CallOutcome)
    (count : Nat)
    (hlim : cfg.dailyLimit = some n)
    (hbr : cfg.breakerOpen ≠ some true)
    (hsteps : ∀ p ∈ steps, supportsLanguage cfg p.1 = true)
    (hn : steps.length = n)
    (hcount : n ≤ count) :
    runExecutes cfg 0 (steps.map fun p => (p.1, CallOutcome.returns p.2)) = n ∧
    execute cfg count lang out =
      { newCount := count
        result := { articles := [], success := true,
                    error := some "budget_exhausted".toList }
        called := false } := by
  constructor
  · -- the first N successful executes each increment the counter by one
    have key : ∀ (l : List (PyStr × List ARef)) (c : Nat),
        (∀ p ∈ l, supportsLanguage cfg p.1 = true) →
        c + l.length ≤ n →
        runExecutes cfg c (l.map fun p => (p.1, CallOutcome.returns p.2)) =
          c + l.length := by
      intro l
      induction l with
      | nil => intro c _ _; simp [runExecutes]
      | cons p rest ih =>
          intro c hsup hle
          rw [List.length_cons] at hle
          have hnotex : isBudgetExhausted cfg c = false := by
            unfold isBudgetExhausted
            rw [hlim]
            simp only [decide_eq_false_iff_not, not_le]
            omega
          have hstep :
              (execute cfg c p.1 (CallOutcome.returns p.2)).newCount = c + 1 := by
            simp [execute, hbr, hnotex, hsup p (by simp)]
          simp only [List.map_cons, runExecutes, hstep]
          have := ih (c + 1) (fun q hq => hsup q (by simp [hq])) (by omega)
          rw [this, List.length_cons]
          omega
    have := key steps 0 hsteps (by omega)
    simpa [hn] using this
  · have hex : isBudgetExhausted cfg count = true := by
      unfold isBudgetExhausted
      rw [hlim]
      simpa using hcount
    unfold execute
    rw [if_neg hbr, if_pos hex]

/-- C4 (witness): `daily_limit=2`, two successful executes, then a third
execute is refused without a source call. -/
theorem execute_budget_exhausted_witness :
    let cfg : SchedConfig :=
      { dailyLimit := some 2, supportedLanguages := none, breakerOpen := none }
    runExecutes cfg 0 [("en".toList, CallOutcome.returns []),
        ("hi".toList, CallOutcome.returns [⟨1⟩])] = 2 ∧
    execute cfg 2 "en".toList (CallOutcome.returns [⟨2⟩]) =
      { newCount := 2
        result := { articles := [], success := true,
                    error := some "budget_exhausted".toList }
        called := false } := by
  have h := execute_budget_exhausted
    { dailyLimit := some 2, supportedLanguages := none, breakerOpen := none }
    2 [("en".toList, []), ("hi".toList, [⟨1⟩])] "en".toList
    (CallOutcome.returns [⟨2⟩]) 2 rfl (by decide) (by decide) rfl (le_refl 2)
  exact ⟨h.1, h.2⟩

/-! ## C2 — HTTP 429 handling in the source adapters -/

/-- C2.  The claim (and the design note in
`src/reliability/_retry.py`) says a source adapter re-raises HTTP 429 as
the distinguished `RateLimitError`.  The code instead catches the status
error, logs, and returns `[]`: evaluating the adapters at a 429 response
yields `Except.ok []` — not `Except.error SourceExc.rateLimit` — so the
scheduler's retry wrapper can never see a rate-limit signal from these
adapters. -/
theorem search_429_returns_empty_instead_of_raising :
    (gnewsSearch (some "key".toList) "en".toList 0 100
        (HttpOutcome.statusError 429)).result = Except.ok [] ∧
    (gnewsSearch (some "key".toList) "en".toList 0 100
        (HttpOutcome.statusError 429)).result ≠
      Except.error SourceExc.rateLimit ∧
    googleNewsSearch (HttpOutcome.statusError 429) = Except.ok [] := by
  refine ⟨?_, ?_, rfl⟩ <;> decide

/-! ## C1 — checkpoint save atomicity -/

/-- C1 (counterexample).  The claim says `save()` is write-then-rename, so
a crash mid-save leaves the previous checkpoint intact and a reader sees
either the prior or the new file.  In the code, `aiofiles.open(path, "w")`
truncates the checkpoint file in place: after the first step of the save
trace the path holds the empty string — neither the prior contents
(`"OLD"`) nor the new JSON. -/
theorem save_midpoint_is_partial_file :
    let prior : Option PyStr := some "OLD".toList
    let tr := saveTrace ["ab12".toList]
    let midpoint := runFsOps prior (tr.take 1)
    let finalFile := runFsOps prior tr
    midpoint = some [] ∧ midpoint ≠ prior ∧ midpoint ≠ finalFile := by
  decide

/-- C1 (amended).  `save()` persists the sorted completed set by
truncating the checkpoint path and writing
`json.dumps({"completed_queries": sorted(...)}, indent=2)` in place: an
uninterrupted save leaves exactly the new JSON, the trace contains no
rename, and the state after the truncating open (a crash point) is an
empty file, not the prior one. -/
theorem save_writes_in_place (prior : Option PyStr) (keys : List PyStr) :
    runFsOps prior (saveTrace keys) = some (dumpsCompleted keys) ∧
    (saveTrace keys).all
      (fun op => match op with | FsOp.rename _ => false | _ => true) = true ∧
    runFsOps prior ((saveTrace keys).take 1) = some [] := by
  refine ⟨rfl, rfl, rfl⟩

/-! ## C7 — checkpoint fingerprints -/

theorem shaRound_length (s : List Nat) (kw : Nat × Nat) :
    (shaRound s kw).length = s.length := by
  unfold shaRound
  split <;> rfl

theorem foldl_shaRound_length (l : List (Nat × Nat)) (s : List Nat) :
    (l.foldl shaRound s).length = s.length := by
  induction l generalizing s with
  | nil => rfl
  | cons x xs ih => rw [List.foldl_cons, ih, shaRound_length]

theorem shaCompress_length (s b : List Nat) :
    (shaCompress s b).length = s.length := by
  unfold shaCompress
  rw [List.length_map, List.length_zip, foldl_shaRound_length,
    Nat.min_self]

theorem shaBlocksGo_length (fuel : Nat) (st rest : List Nat) :
    (shaBlocks.go st rest fuel).length = st.length := by
  induction fuel generalizing st rest with
  | zero => rfl
  | succ n ih =>
      unfold shaBlocks.go
      split
      · rfl
      · rw [ih, shaCompress_length]

theorem sha256Words_length (msg : List Nat) : (sha256Words msg).length = 8 := by
  unfold sha256Words shaBlocks
  rw [shaBlocksGo_length]
  rfl

theorem flatMap_wordToHex_length (l : List Nat) :
    (l.flatMap wordToHex).length = 8 * l.length := by
  induction l with
  | nil => rfl
  | cons x xs ih =>
      rw [List.flatMap_cons, List.length_append, ih, List.length_cons]
      have : (wordToHex x).length = 8 := rfl
      omega

theorem sha256Hex_length (msg : List Nat) : (sha256Hex msg).length = 64 := by
  unfold sha256Hex
  rw [flatMap_wordToHex_length, sha256Words_length]

theorem hexDigitChar_isLowerHex : ∀ n < 16, isLowerHexChar (hexDigitChar n) = true := by
  decide

theorem wordToHex_isLowerHex (x : Nat) :
    (wordToHex x).all isLowerHexChar = true := by
  have h16 : ∀ y : Nat, y % 16 < 16 := fun y => Nat.mod_lt _ (by norm_num)
  simp only [wordToHex, List.all_cons, List.all_nil, Bool.and_eq_true]
  exact ⟨hexDigitChar_isLowerHex _ (h16 _), hexDigitChar_isLowerHex _ (h16 _),
    hexDigitChar_isLowerHex _ (h16 _), hexDigitChar_isLowerHex _ (h16 _),
    hexDigitChar_isLowerHex _ (h16 _), hexDigitChar_isLowerHex _ (h16 _),
    hexDigitChar_isLowerHex _ (h16 _), ⟨hexDigitChar_isLowerHex _ (h16 _), trivial⟩⟩

theorem sha256Hex_isLowerHex (msg : List Nat) :
    (sha256Hex msg).all isLowerHexChar = true := by
  unfold sha256Hex
  rw [List.all_eq_true]
  intro c hc
  rw [List.mem_flatMap] at hc
  obtain ⟨w, _, hcw⟩ := hc
  have := wordToHex_isLowerHex w
  rw [List.all_eq_true] at this
  exact this c hcw

/-- C7 (counterexample).  The claim's "only if" direction — equal
fingerprints imply equal `(source-hint, region-slug, language, level,
query-string)` — fails: `query_key` joins the fields with an unescaped
`|`, so the two distinct field tuples `(google, "a|en", "x", state, "q")`
and `(google, "a", "en|x", state, "q")` serialise to the same raw string
and hash to the same 16-hex key. -/
theorem query_fingerprint_pipe_collision :
    queryKey exQueryPipeA = queryKey exQueryPipeB ∧
    exQueryPipeA.stateSlug ≠ exQueryPipeB.stateSlug ∧
    exQueryPipeA.language ≠ exQueryPipeB.language := by
  refine ⟨?_, by decide, by decide⟩
  unfold queryKey
  exact congrArg (fun r => (sha256Hex (utf8Encode r)).take 16) (by decide)

/-- C7 (amended).  The fingerprint is a deterministic, process-independent
function of exactly `(source-hint, region-slug, language, level,
query-string)`: two queries agreeing on those five fields (whatever their
other fields) get the same key, and the key is 16 lower-case hex
characters.  Equal fingerprints do *not* imply equal fields, because the
five fields are joined with an unescaped `|` before hashing (and the key
is a 16-hex truncation). -/
theorem query_fingerprint_determined_by_fields (p q : Query)
    (h1 : p.sourceHint = q.sourceHint) (h2 : p.stateSlug = q.stateSlug)
    (h3 : p.language = q.language) (h4 : p.level = q.level)
    (h5 : p.queryString = q.queryString) :
    queryKey p = queryKey q ∧ (queryKey p).length = 16 ∧
    (queryKey p).all isLowerHexChar = true := by
  refine ⟨?_, ?_, ?_⟩
  · unfold queryKey
    have hraw : queryKeyRaw p = queryKeyRaw q := by
      unfold queryKeyRaw
      rw [h1, h2, h3, h4, h5]
    rw [hraw]
  · unfold queryKey
    rw [List.length_take, sha256Hex_length]
    rfl
  · unfold queryKey
    rw [List.all_eq_true]
    intro c hc
    have hall := sha256Hex_isLowerHex (utf8Encode (queryKeyRaw p))
    rw [List.all_eq_true] at hall
    exact hall c (List.take_subset _ _ hc)

/-- C7 (witness): two queries differing only in `category` share their
16-hex fingerprint. -/
theorem query_fingerprint_determined_by_fields_witness :
    queryKey exQueryCatA = queryKey exQueryCatB ∧
    (queryKey exQueryCatA).length = 16 ∧
    (queryKey exQueryCatA).all isLowerHexChar = true :=
  query_fingerprint_determined_by_fields exQueryCatA exQueryCatB
    rfl rfl rfl rfl rfl

/-! ## C8 — relevance scoring -/

theorem insertUnique_ne_nil (x : PyStr) (l : List PyStr) : insertUnique x l ≠ [] := by
  unfold insertUnique
  split
  · intro h
    subst h
    simp at *
  · simp

/-- If one category's inner loop ends with no matched terms, it started
with none and nothing in the category matched. -/
theorem matchedCatFold_fst_nil (text : PyStr) (cat : PyStr × List PyStr) :
    ∀ (terms : List PyStr) (acc : List PyStr × List PyStr),
    (terms.foldl (matchedTermStep text cat.1) acc).1 = [] →
    acc.1 = [] ∧ ∀ t ∈ terms, pySubstr (pyLower t) text = false := by
  intro terms
  induction terms with
  | nil => exact fun acc h => ⟨h, by simp⟩
  | cons t ts ih =>
      intro acc h
      rw [List.foldl_cons] at h
      by_cases hm : pySubstr (pyLower t) text
      · have hstep : (matchedTermStep text cat.1 acc t).1 =
            insertUnique (pyLower t) acc.1 := by
          unfold matchedTermStep
          rw [if_pos hm]
        have := (ih _ h).1
        rw [hstep] at this
        exact absurd this (insertUnique_ne_nil _ _)
      · have hstep : matchedTermStep text cat.1 acc t = acc := by
          unfold matchedTermStep
          rw [if_neg hm]
        rw [hstep] at h
        obtain ⟨h1, h2⟩ := ih _ h
        refine ⟨h1, ?_⟩
        intro u hu
        rcases List.mem_cons.mp hu with hu | hu
        · simpa [hu] using hm
        · exact h2 u hu

/-- Backwards-emptiness over the whole table: an empty matched-terms
result means every term of every category failed the substring test. -/
theorem matchedFold_fst_nil (text : PyStr) :
    ∀ (tbl : List (PyStr × List PyStr)) (acc : List PyStr × List PyStr),
    (tbl.foldl (fun acc cat => matchedCatFold text cat acc) acc).1 = [] →
    acc.1 = [] ∧ ∀ p ∈ tbl, ∀ t ∈ p.2, pySubstr (pyLower t) text = false := by
  intro tbl
  induction tbl with
  | nil => exact fun acc h => ⟨h, by simp⟩
  | cons cat rest ih =>
      intro acc h
      rw [List.foldl_cons] at h
      obtain ⟨hmid, hrest⟩ := ih _ h
      obtain ⟨hacc, hcat⟩ := matchedCatFold_fst_nil text cat cat.2 acc hmid
      refine ⟨hacc, ?_⟩
      intro p hp
      rcases List.mem_cons.mp hp with hp | hp
      · subst hp; exact hcat
      · exact hrest p hp

/-- No matching term in a category means its inner loop is the identity. -/
theorem matchedTermFold_of_no_match (text catName : PyStr) :
    ∀ (terms : List PyStr) (acc : List PyStr × List PyStr),
    (∀ t ∈ terms, pySubstr (pyLower t) text = false) →
    terms.foldl (matchedTermStep text catName) acc = acc := by
  intro terms
  induction terms with
  | nil => intro acc _; rfl
  | cons t ts ih =>
      intro acc hno
      rw [List.foldl_cons]
      have hstep : matchedTermStep text catName acc t = acc := by
        unfold matchedTermStep
        rw [if_neg (by simp [hno t (by simp)])]
      rw [hstep]
      exact ih acc (fun u hu => hno u (by simp [hu]))

/-- No matching term anywhere means the fold is the identity. -/
theorem matchedFold_of_no_match (text : PyStr) :
    ∀ (tbl : List (PyStr × List PyStr)) (acc : List PyStr × List PyStr),
    (∀ p ∈ tbl, ∀ t ∈ p.2, pySubstr (pyLower t) text = false) →
    tbl.foldl (fun acc cat => matchedCatFold text cat acc) acc = acc := by
  intro tbl
  induction tbl with
  | nil => intro acc _; rfl
  | cons cat rest ih =>
      intro acc hno
      rw [List.foldl_cons]
      have hcat : matchedCatFold text cat acc = acc :=
        matchedTermFold_of_no_match text cat.1 cat.2 acc (hno cat (by simp))
      rw [hcat]
      exact ih acc (fun p hp => hno p (by simp [hp]))

/-- A non-empty title makes the combined text non-empty. -/
theorem combineText_ne_nil (article : Article) (h : article.title ≠ []) :
    combineText article ≠ [] := by
  unfold combineText pyLower
  rw [if_pos h]
  cases hft : article.fullText with
  | none => simpa using h
  | some ft => simp [List.intersperse, h]

/-- C8.  For every article with a (validated) non-empty title, the
relevance score lies in `[0, 1]`, and it is `0` exactly when no English
heat term of the table occurs as a substring of the combined lower-cased
title-plus-full-text. -/
theorem score_relevance_range_and_zero_iff
    (table : List (PyStr × List PyStr)) (article : Article)
    (ht : article.title ≠ []) :
    (0 ≤ scoreRelevance table article ∧ scoreRelevance table article ≤ 1) ∧
    (scoreRelevance table article = 0 ↔
      ∀ p ∈ table, ∀ t ∈ p.2,
        pySubstr (pyLower t) (combineText article) = false) := by
  have htext := combineText_ne_nil article ht
  simp only [scoreRelevance]
  rw [if_neg htext]
  by_cases hm : (matchedSets table (combineText article)).1 = []
  · rw [if_pos hm]
    refine ⟨⟨le_refl 0, zero_le_one⟩, ?_⟩
    have hno := matchedFold_fst_nil (combineText article) table ([], []) hm
    exact iff_of_true rfl hno.2
  · rw [if_neg hm]
    set text := combineText article with htextdef
    set ms := matchedSets table text with hms
    have hlen : 1 ≤ (ms.1.length : ℚ) := by
      have : ms.1 ≠ [] := hm
      have hpos : 0 < ms.1.length := List.length_pos.mpr this
      exact_mod_cast hpos
    set ts : ℚ := min ((ms.1.length : ℚ) / 3) 1 with hts
    set cs : ℚ := min ((ms.2.length : ℚ) / 2) 1 with hcs
    set titleTerms := (ms.1.filter fun t => pySubstr t (pyLower article.title)).length
      with htt
    set bonus : ℚ := if titleTerms > 0 then 1/5 else 0 with hbonus
    set raw : ℚ := ts * (1/2) + cs * (3/10) + bonus with hraw
    set raw' : ℚ := if article.fullText = none ∧ titleTerms > 0
      then max raw (3/10) else raw with hraw2
    have hts13 : (1:ℚ)/3 ≤ ts := le_min (by linarith) (by norm_num)
    have hcs0 : 0 ≤ cs := le_min (by positivity) (by norm_num)
    have hbon0 : 0 ≤ bonus := by
      rw [hbonus]; split <;> norm_num
    have hraw16 : (1:ℚ)/6 ≤ raw := by
      have h1 : (1:ℚ)/3 * (1/2) ≤ ts * (1/2) := by linarith
      nlinarith
    have hraw'16 : (1:ℚ)/6 ≤ raw' := by
      rw [hraw2]; split
      · exact le_trans hraw16 (le_max_left _ _)
      · exact hraw16
    have hscore16 : (1:ℚ)/6 ≤ min raw' 1 := le_min hraw'16 (by norm_num)
    refine ⟨⟨by linarith, min_le_right _ _⟩, ?_⟩
    refine iff_of_false (by intro h0; rw [h0] at hscore16; norm_num at hscore16) ?_
    intro hno
    apply hm
    rw [hms, htextdef]
    unfold matchedSets
    rw [matchedFold_of_no_match (combineText article) table ([], []) hno]

/-- C8 (witness): a concrete article and table — "heatwave" matches, and
the iff reports matching correctly. -/
theorem score_relevance_range_witness :
    let tbl : List (PyStr × List PyStr) :=
      [("heatwave".toList, ["heatwave".toList, "heat wave".toList]),
       ("temperature".toList, ["scorching".toList])]
    let art : Article :=
      { title := "Heatwave alert in Rajasthan".toList, url := "u".toList
        source := "NDTV".toList, date := 0, language := "en".toList
        state := "Rajasthan".toList, district := none
        searchTerm := "heatwave".toList, fullText := none, relevanceScore := 0 }
    (0 ≤ scoreRelevance tbl art ∧ scoreRelevance tbl art ≤ 1) ∧
    (scoreRelevance tbl art = 0 ↔
      ∀ p ∈ tbl, ∀ t ∈ p.2, pySubstr (pyLower t) (combineText art) = false) := by
  intro tbl art
  exact score_relevance_range_and_zero_iff tbl art (by decide)

/-! ## C9 — extractor shape -/

/-- `mkArticle` copies the ref's fields. -/
theorem articleRefOf_mkArticle (r : ArticleRef) (ft : Option PyStr) :
    articleRefOf (mkArticle r ft) = r := rfl

/-- Characterisation of the extractor's chunk loop: it emits at most one
article per remaining ref, and the `i`-th emitted article is the `i`-th
remaining ref extracted with the oracle's outcome at its absolute index. -/
theorem extractLoop_spec (outcome : Nat → Option PyStr) (dh : Nat → Bool)
    (cs : Nat) (hcs : 0 < cs) :
    ∀ (fuel : Nat) (refs : List ArticleRef) (ci base : Nat),
    refs.length ≤ fuel →
    (extractLoop outcome dh cs fuel refs ci base).length ≤ refs.length ∧
    ∀ i < (extractLoop outcome dh cs fuel refs ci base).length,
      (extractLoop outcome dh cs fuel refs ci base)[i]? =
        refs[i]?.map fun r => mkArticle r (outcome (base + i)) := by
  intro fuel
  induction fuel with
  | zero =>
      intro refs ci base hlen
      have : refs = [] := List.length_eq_zero.mp (Nat.le_zero.mp hlen)
      subst this
      exact ⟨Nat.le_refl 0, by intro i hi; simp [extractLoop] at hi⟩
  | succ fuel ih =>
      intro refs ci base hlen
      cases refs with
      | nil => exact ⟨Nat.le_refl 0, by intro i hi; simp [extractLoop] at hi⟩
      | cons r rest =>
          by_cases hdl : dh ci
          · constructor
            · show (extractLoop outcome dh cs (fuel+1) (r :: rest) ci base).length ≤ _
              rw [extractLoop, if_pos hdl]
              simp
            · intro i hi
              rw [extractLoop, if_pos hdl] at hi
              simp at hi
          · have hrec := ih (rest.drop (cs - 1)) (ci + 1) (base + cs)
              (le_trans (List.length_drop _ _ ▸ Nat.sub_le _ _)
                (by simpa using Nat.le_of_succ_le_succ (by simpa using hlen)))
            have hL : extractLoop outcome dh cs (fuel+1) (r :: rest) ci base =
                ((r :: rest).take cs).enum.map
                    (fun p => mkArticle p.2 (outcome (base + p.1)))
                  ++ extractLoop outcome dh cs fuel
                      (rest.drop (cs - 1)) (ci + 1) (base + cs) := by
              rw [extractLoop, if_neg hdl]
            set el := ((r :: rest).take cs).enum.map
                (fun p => mkArticle p.2 (outcome (base + p.1))) with hel
            have hellen : el.length = min cs (r :: rest).length := by
              rw [hel, List.length_map, List.enum_length, List.length_take]
            constructor
            · rw [hL, List.length_append]
              rcases Nat.lt_or_ge (r :: rest).length cs with hsmall | hbig
              · -- everything fits in one chunk; the recursive list is empty
                have hdropnil : rest.drop (cs - 1) = [] := by
                  apply List.drop_eq_nil_of_le
                  have : (r :: rest).length = rest.length + 1 := by simp
                  omega
                have : extractLoop outcome dh cs fuel [] (ci + 1) (base + cs) = [] := by
                  cases fuel <;> rfl
                rw [hdropnil, this]
                simp [hellen]
              · have : (rest.drop (cs - 1)).length = (r :: rest).length - cs := by
                  rw [List.length_drop]
                  simp
                  omega
                have hrl := hrec.1
                rw [this] at hrl
                omega
            · intro i hi
              rw [hL] at hi ⊢
              rw [List.getElem?_append]
              by_cases hic : i < el.length
              · rw [if_pos hic]
                rw [hel, List.getElem?_map, List.getElem?_enum,
                  List.getElem?_take]
                have hicCs : i < cs := by
                  rw [hellen] at hic
                  omega
                rw [if_pos hicCs]
                cases hr : (r :: rest)[i]? <;> simp
              · rw [if_neg hic]
                -- the chunk is full (length cs) here, else the tail is empty
                have hbig : cs ≤ (r :: rest).length := by
                  by_contra hsmall
                  push_neg at hsmall
                  have hdropnil : rest.drop (cs - 1) = [] := by
                    apply List.drop_eq_nil_of_le
                    have : (r :: rest).length = rest.length + 1 := by simp
                    omega
                  have hnil : extractLoop outcome dh cs fuel
                      (rest.drop (cs - 1)) (ci + 1) (base + cs) = [] := by
                    rw [hdropnil]; cases fuel <;> rfl
                  rw [List.length_append, hnil] at hi
                  simp at hi
                  omega
                have helcs : el.length = cs := by
                  rw [hellen]; omega
                have hi' : i - el.length <
                    (extractLoop outcome dh cs fuel (rest.drop (cs - 1))
                      (ci + 1) (base + cs)).length := by
                  rw [List.length_append] at hi
                  omega
                rw [hrec.2 (i - el.length) hi']
                rw [List.getElem?_drop]
                have harith : cs - 1 + (i - el.length) = i - 1 := by
                  rw [helcs]
                  omega
                rw [harith]
                have hrefs : (r :: rest)[i]? = rest[i - 1]? := by
                  cases i with
                  | zero => rw [helcs] at hic; omega
                  | succ n => simp
                rw [hrefs]
                have harith2 : base + cs + (i - el.length) = base + i := by
                  rw [helcs]
                  have : cs ≤ i := by omega
                  omega
                rw [harith2]

/-- C9.  `extract_articles` returns exactly one Article per input ref, in
order: writing `P` for the number of refs processed before the deadline
poll stopped the chunk loop, the `i`-th output is
`Article(**refs[i].model_dump(), full_text=…, relevance_score=0.0)` whose
`full_text` is the extraction outcome for `i < P` (so `None` whenever the
fetch or extraction failed) and `None` for every deadline-skipped ref
`i ≥ P`. -/
theorem extract_articles_one_article_per_ref (refs : List ArticleRef)
    (maxConcurrent : Nat) (outcome : Nat → Option PyStr) (dh : Nat → Bool)
    (hmc : 0 < maxConcurrent) :
    (extractArticles refs maxConcurrent outcome dh).length = refs.length ∧
    ∀ i r, refs[i]? = some r →
      (extractArticles refs maxConcurrent outcome dh)[i]? =
        some (mkArticle r
          (if i < (extractLoop outcome dh (maxConcurrent * 3)
              refs.length refs 0 0).length
           then outcome i else none)) ∧
      articleRefOf (mkArticle r (outcome i)) = r ∧
      (mkArticle r (outcome i)).relevanceScore = 0 := by
  have hcs : 0 < maxConcurrent * 3 := by omega
  cases refs with
  | nil =>
      refine ⟨rfl, ?_⟩
      intro i r hr
      simp at hr
  | cons r0 rest =>
      set refs := r0 :: rest
      have hspec := extractLoop_spec outcome dh (maxConcurrent * 3) hcs
        refs.length refs 0 0 (le_refl _)
      set processed := extractLoop outcome dh (maxConcurrent * 3)
        refs.length refs 0 0 with hproc
      have hP := hspec.1
      have hout : extractArticles refs maxConcurrent outcome dh =
          processed ++ (refs.drop processed.length).map
            (fun r => mkArticle r none) := rfl
      constructor
      · rw [hout, List.length_append, List.length_map, List.length_drop]
        omega
      · intro i r hr
        have hilen : i < refs.length := by
          by_contra hge
          push_neg at hge
          rw [List.getElem?_eq_none hge] at hr
          exact Option.noConfusion hr
        refine ⟨?_, rfl, rfl⟩
        rw [hout, List.getElem?_append]
        by_cases hip : i < processed.length
        · rw [if_pos hip, if_pos hip, hspec.2 i hip, hr]
          simp
        · rw [if_neg hip, if_neg hip, List.getElem?_map, List.getElem?_drop]
          have : processed.length + (i - processed.length) = i := by omega
          rw [this, hr]
          rfl

/-- C9 (witness): three refs, concurrency 1, deadline never reached for
chunk 0 but reached for chunk 1 — still three articles out. -/
theorem extract_articles_one_article_per_ref_witness :
    let r : Nat → ArticleRef := fun n =>
      { title := "t".toList, url := "u".toList, source := "s".toList
        date := n, language := "en".toList, state := "S".toList
        district := none, searchTerm := "q".toList }
    (extractArticles [r 0, r 1, r 2, r 3] 1
        (fun i => if i = 0 then some "body".toList else none)
        (fun k => decide (k ≥ 1))).length = 4 := by
  intro r
  exact (extract_articles_one_article_per_ref [r 0, r 1, r 2, r 3] 1
    (fun i => if i = 0 then some "body".toList else none)
    (fun k => decide (k ≥ 1)) (by decide)).1

/-! ## C6 / C10 — deduplication -/

theorem urlSeenStep_mem (key : PyStr) (a : Article) :
    ∀ (seen : List (PyStr × Article)) (p : PyStr × Article),
    p ∈ urlSeenStep key a seen → p ∈ seen ∨ p = (key, a) := by
  intro seen
  induction seen with
  | nil =>
      intro p hp
      unfold urlSeenStep at hp
      right
      simpa using hp
  | cons q rest ih =>
      intro p hp
      obtain ⟨k', e⟩ := q
      unfold urlSeenStep at hp
      by_cases hk : k' = key
      · rw [if_pos hk] at hp
        by_cases hq : qualityScore a > qualityScore e
        · rw [if_pos hq] at hp
          rcases List.mem_cons.mp hp with h | h
          · right; rw [h, hk]
          · left; exact List.mem_cons_of_mem _ h
        · rw [if_neg hq] at hp
          left; exact hp
      · rw [if_neg hk] at hp
        rcases List.mem_cons.mp hp with h | h
        · left; simp [h]
        · rcases ih p h with h' | h'
          · left; exact List.mem_cons_of_mem _ h'
          · right; exact h'

theorem urlSeenFold_mem :
    ∀ (arts : List Article) (acc s : List (PyStr × Article)),
    urlSeenFold arts acc = some s →
    ∀ p ∈ s, p ∈ acc ∨ p.2 ∈ arts := by
  intro arts
  induction arts with
  | nil =>
      intro acc s h p hp
      unfold urlSeenFold at h
      injection h with h
      left; rw [← h] at hp; exact hp
  | cons a rest ih =>
      intro acc s h p hp
      unfold urlSeenFold at h
      cases hnorm : normalizeUrl a.url with
      | none => rw [hnorm] at h; exact absurd h (by simp)
      | some k =>
          rw [hnorm] at h
          replace h : urlSeenFold rest (urlSeenStep k a acc) = some s := h
          rcases ih _ _ h p hp with h' | h'
          · rcases urlSeenStep_mem k a acc p h' with h'' | h''
            · left; exact h''
            · right; rw [h'']; simp
          · right; exact List.mem_cons_of_mem _ h'

theorem titleKeptStep_mem (n d : Nat) (kept : List Article) (a x : Article)
    (hx : x ∈ titleKeptStep n d kept a) : x ∈ kept ∨ x = a := by
  unfold titleKeptStep at hx
  cases hf : kept.findIdx? (fun e => titleSimilarGe a.title e.title n d) with
  | none =>
      rw [hf] at hx
      rcases List.mem_append.mp hx with h | h
      · left; exact h
      · right; simpa using h
  | some i =>
      rw [hf] at hx
      by_cases hq : qualityScore a > qualityScore (kept.getD i a)
      · replace hx : x ∈ kept.set i a := by
          rw [show (match some i with
            | some i =>
              let e := kept.getD i a
              if qualityScore a > qualityScore e then kept.set i a else kept
            | none => kept ++ [a]) = kept.set i a from by
              dsimp only
              rw [if_pos hq]] at hx
          exact hx
        exact List.mem_or_eq_of_mem_set hx
      · replace hx : x ∈ kept := by
          rw [show (match some i with
            | some i =>
              let e := kept.getD i a
              if qualityScore a > qualityScore e then kept.set i a else kept
            | none => kept ++ [a]) = kept from by
              dsimp only
              rw [if_neg hq]] at hx
          exact hx
        left; exact hx

theorem titleBucket_subset (n d : Nat) :
    ∀ (bucket kept : List Article) (x : Article),
    x ∈ bucket.foldl (titleKeptStep n d) kept → x ∈ kept ∨ x ∈ bucket := by
  intro bucket
  induction bucket with
  | nil => intro kept x hx; left; exact hx
  | cons a rest ih =>
      intro kept x hx
      rw [List.foldl_cons] at hx
      rcases ih _ x hx with h | h
      · rcases titleKeptStep_mem n d kept a x h with h' | h'
        · left; exact h'
        · right; rw [h']; simp
      · right; exact List.mem_cons_of_mem _ h

theorem deduplicateByTitle_subset (n d : Nat) (arts : List Article)
    (x : Article) (hx : x ∈ deduplicateByTitle n d arts) : x ∈ arts := by
  unfold deduplicateByTitle at hx
  rw [List.mem_flatMap] at hx
  obtain ⟨lang, _, hxin⟩ := hx
  rcases titleBucket_subset n d _ [] x hxin with h | h
  · simp at h
  · exact List.mem_of_mem_filter h

/-- When the key is already present, the step leaves the key list
unchanged (it only possibly swaps a value in place). -/
theorem urlSeenStep_keys_of_mem (key : PyStr) (a : Article) :
    ∀ (seen : List (PyStr × Article)), key ∈ seen.map Prod.fst →
    (urlSeenStep key a seen).map Prod.fst = seen.map Prod.fst := by
  intro seen
  induction seen with
  | nil => intro h; simp at h
  | cons q rest ih =>
      obtain ⟨k', e⟩ := q
      intro h
      unfold urlSeenStep
      by_cases hk : k' = key
      · rw [if_pos hk]
        by_cases hq : qualityScore a > qualityScore e
        · rw [if_pos hq]; simp
        · rw [if_neg hq]
      · rw [if_neg hk]
        have hmem : key ∈ rest.map Prod.fst := by
          rw [List.map_cons, List.mem_cons] at h
          rcases h with h' | h'
          · exact absurd h'.symm hk
          · exact h'
        rw [List.map_cons, List.map_cons, ih hmem]

/-- When the key is absent, the step appends the new entry at the end. -/
theorem urlSeenStep_keys_of_not_mem (key : PyStr) (a : Article) :
    ∀ (seen : List (PyStr × Article)), key ∉ seen.map Prod.fst →
    urlSeenStep key a seen = seen ++ [(key, a)] := by
  intro seen
  induction seen with
  | nil => intro _; rfl
  | cons q rest ih =>
      obtain ⟨k', e⟩ := q
      intro h
      have hk : k' ≠ key := by
        intro hc
        exact h (by rw [List.map_cons, List.mem_cons]; left; exact hc.symm)
      unfold urlSeenStep
      rw [if_neg hk, ih (by
        intro hc
        exact h (by rw [List.map_cons, List.mem_cons]; right; exact hc))]
      rfl

/-- Entries of the `seen` dict map to their own normalized URL, and the
keys are pairwise distinct, as long as the starting dict satisfied both. -/
theorem urlSeenFold_invariant :
    ∀ (arts : List Article) (acc s : List (PyStr × Article)),
    urlSeenFold arts acc = some s →
    (∀ p ∈ acc, normalizeUrl p.2.url = some p.1) →
    (acc.map Prod.fst).Nodup →
    (∀ p ∈ s, normalizeUrl p.2.url = some p.1) ∧ (s.map Prod.fst).Nodup := by
  intro arts
  induction arts with
  | nil =>
      intro acc s h hinv hnd
      unfold urlSeenFold at h
      injection h with h
      rw [← h]
      exact ⟨hinv, hnd⟩
  | cons a rest ih =>
      intro acc s h hinv hnd
      unfold urlSeenFold at h
      cases hnorm : normalizeUrl a.url with
      | none => rw [hnorm] at h; exact absurd h (by simp)
      | some k =>
          rw [hnorm] at h
          replace h : urlSeenFold rest (urlSeenStep k a acc) = some s := h
          refine ih _ _ h ?_ ?_
          · intro p hp
            rcases urlSeenStep_mem k a acc p hp with h' | h'
            · exact hinv p h'
            · rw [h']; exact hnorm
          · by_cases hmem : k ∈ acc.map Prod.fst
            · rw [urlSeenStep_keys_of_mem k a acc hmem]
              exact hnd
            · rw [urlSeenStep_keys_of_not_mem k a acc hmem]
              simp [List.nodup_append, hnd, hmem]

/-- Replaying the final dict's own values over any disjoint starting dict
appends them one by one: the second pass of URL dedup finds no collision. -/
theorem urlSeenFold_replay :
    ∀ (s acc : List (PyStr × Article)),
    (∀ p ∈ s, normalizeUrl p.2.url = some p.1) →
    (acc.map Prod.fst ++ s.map Prod.fst).Nodup →
    urlSeenFold (s.map Prod.snd) acc = some (acc ++ s) := by
  intro s
  induction s with
  | nil => intro acc _ _; simp [urlSeenFold]
  | cons q rest ih =>
      obtain ⟨k, e⟩ := q
      intro acc hinv hnd
      have hek : normalizeUrl e.url = some k := hinv (k, e) (by simp)
      show urlSeenFold (e :: rest.map Prod.snd) acc = _
      show (normalizeUrl e.url).bind
        (fun norm => urlSeenFold (rest.map Prod.snd) (urlSeenStep norm e acc)) = _
      rw [hek]
      show urlSeenFold (rest.map Prod.snd) (urlSeenStep k e acc) = _
      have hknot : k ∉ acc.map Prod.fst := by
        intro hc
        have := (List.nodup_append.mp hnd).2.2
        exact this hc (by rw [List.map_cons, List.mem_cons]; left; rfl)
      rw [urlSeenStep_keys_of_not_mem k e acc hknot]
      have hnd' : ((acc ++ [(k, e)]).map Prod.fst ++ rest.map Prod.fst).Nodup := by
        have : (acc ++ [(k, e)]).map Prod.fst ++ rest.map Prod.fst =
            acc.map Prod.fst ++ ((k, e) :: rest).map Prod.fst := by
          simp
        rw [this]
        exact hnd
      rw [ih (acc ++ [(k, e)]) (fun p hp => hinv p (List.mem_cons_of_mem _ hp)) hnd']
      rw [List.append_assoc]
      rfl

/-- URL dedup is idempotent: its output has pairwise-distinct normalized
URLs, so a second pass keeps everything. -/
theorem deduplicateByUrl_idem (arts out : List Article)
    (h : deduplicateByUrl arts = some out) :
    deduplicateByUrl out = some out := by
  unfold deduplicateByUrl at h ⊢
  cases hf : urlSeenFold arts [] with
  | none => rw [hf] at h; exact absurd h (by simp)
  | some s =>
      rw [hf] at h
      replace h : some (s.map Prod.snd) = some out := h
      injection h with h
      obtain ⟨hinv, hnd⟩ := urlSeenFold_invariant arts [] s hf
        (by intro p hp; simp at hp) (by simp)
      have hreplay := urlSeenFold_replay s [] hinv (by simpa using hnd)
      rw [← h, hreplay]
      simp

theorem deduplicateByUrl_subset (arts out : List Article)
    (h : deduplicateByUrl arts = some out) : ∀ x ∈ out, x ∈ arts := by
  intro x hx
  unfold deduplicateByUrl at h
  cases hf : urlSeenFold arts [] with
  | none => rw [hf] at h; exact absurd h (by simp)
  | some s =>
      rw [hf] at h
      replace h : some (s.map Prod.snd) = some out := h
      injection h with h
      rw [← h] at hx
      rw [List.mem_map] at hx
      obtain ⟨p, hp, hpx⟩ := hx
      rcases urlSeenFold_mem arts [] s hf p hp with h' | h'
      · simp at h'
      · rw [← hpx]; exact h'

set_option maxRecDepth 1000000 in
/-- C6 (counterexample).  Three same-language articles with pairwise
distinct normalized URLs: the title-dedup pass keeps `exArtA` and
`exArtB` (similarity 0.8 < 0.85), then `exArtC` (similar to both at 0.9,
higher quality than `exArtA`) *replaces* `exArtA` in place, leaving the
similar pair `[exArtC, exArtB]`.  A second dedup pass collapses that pair
to `[exArtC]`, so `dedup (dedup A) ≠ dedup A`. -/
theorem dedup_not_idempotent :
    dedup [exArtA, exArtB, exArtC] = some [exArtC, exArtB] ∧
    dedup [exArtC, exArtB] = some [exArtC] ∧
    ([exArtC] : List Article) ≠ [exArtC, exArtB] := by
  refine ⟨by decide, by decide, by decide⟩

/-- C6 (amended).  The dedup stage is *selective* — every article of
`dedup(A)` is an element of `A` — and its URL stage alone is idempotent
(its output has pairwise-distinct normalized URLs).  Exact idempotence of
the combined stage fails: the title pass's in-place replacement can leave
a similar pair behind (see the counterexample), so reapplication may
remove further articles. -/
theorem dedup_selective_and_url_stage_idem :
    (∀ (articles out : List Article), dedup articles = some out →
      ∀ x ∈ out, x ∈ articles) ∧
    (∀ (articles out : List Article), deduplicateByUrl articles = some out →
      deduplicateByUrl out = some out) := by
  constructor
  · intro articles out h x hx
    unfold dedup at h
    cases hurl : deduplicateByUrl articles with
    | none => rw [hurl] at h; exact absurd h (by simp)
    | some byUrl =>
        rw [hurl] at h
        replace h : some (deduplicateByTitle 85 100 byUrl) = some out := h
        injection h with h
        rw [← h] at hx
        exact deduplicateByUrl_subset articles byUrl hurl x
          (deduplicateByTitle_subset 85 100 byUrl x hx)
  · exact deduplicateByUrl_idem

set_option maxRecDepth 1000000 in
/-- C6 (witness): the amended theorem applied at the counterexample's
input — the two survivors both come from the input list. -/
theorem dedup_selective_witness :
    ∀ x ∈ [exArtC, exArtB], x ∈ [exArtA, exArtB, exArtC] :=
  dedup_selective_and_url_stage_idem.1 [exArtA, exArtB, exArtC]
    [exArtC, exArtB] (by decide)

/-- C10.  Duplicate resolution is first-wins on ties, in both stages.
URL stage: when an article collides with the `seen` entry for its
normalized URL, the entry (which always originates from an
earlier-processed input article — second conjunct) is kept whenever the
newcomer's quality is not strictly greater, and replaced exactly when it
is.  Title stage: when `findIdx?` locates the first kept article whose
title is similar at threshold `n/d` (`titleSimilarGe` is the cross-
multiplied form of `_title_similarity ≥ n/d`), the kept article survives
on ties and is replaced in place only by a strictly higher-quality
newcomer; and every kept article originates from the bucket being
processed. -/
theorem dedup_first_wins_on_ties :
    (∀ (key : PyStr) (a e : Article) (seen : List (PyStr × Article)),
      seenLookup key seen = some e →
      (qualityScore a ≤ qualityScore e → urlSeenStep key a seen = seen) ∧
      (qualityScore e < qualityScore a →
        seenLookup key (urlSeenStep key a seen) = some a)) ∧
    (∀ (arts : List Article) (s : List (PyStr × Article)),
      urlSeenFold arts [] = some s → ∀ p ∈ s, p.2 ∈ arts) ∧
    (∀ (n d : Nat) (kept : List Article) (article e : Article) (i : Nat),
      kept.findIdx? (fun x => titleSimilarGe article.title x.title n d) = some i →
      kept[i]? = some e →
      (qualityScore article ≤ qualityScore e →
        titleKeptStep n d kept article = kept) ∧
      (qualityScore e < qualityScore article →
        titleKeptStep n d kept article = kept.set i article)) ∧
    (∀ (n d : Nat) (bucket : List Article) (x : Article),
      x ∈ titleBucket n d bucket → x ∈ bucket) := by
  refine ⟨?_, ?_, ?_, ?_⟩
  · intro key a e seen
    induction seen with
    | nil => intro h; simp [seenLookup] at h
    | cons q rest ih =>
        obtain ⟨k', e'⟩ := q
        intro h
        by_cases hk : k' = key
        · have he : e' = e := by
            unfold seenLookup at h
            rw [List.find?_cons_of_pos _ (by simpa using hk)] at h
            simpa using h
          subst he
          constructor
          · intro hle
            unfold urlSeenStep
            rw [if_pos hk, if_neg (by omega)]
          · intro hlt
            unfold urlSeenStep
            rw [if_pos hk, if_pos (by omega)]
            unfold seenLookup
            rw [List.find?_cons_of_pos _ (by simpa using hk)]
            rfl
        · have h' : seenLookup key rest = some e := by
            unfold seenLookup at h ⊢
            rw [List.find?_cons_of_neg _ (by simpa using hk)] at h
            exact h
          obtain ⟨ihle, ihlt⟩ := ih h'
          constructor
          · intro hle
            unfold urlSeenStep
            rw [if_neg hk, ihle hle]
          · intro hlt
            unfold urlSeenStep
            rw [if_neg hk]
            unfold seenLookup
            rw [List.find?_cons_of_neg _ (by simpa using hk)]
            exact ihlt hlt
  · intro arts s h p hp
    rcases urlSeenFold_mem arts [] s h p hp with h' | h'
    · simp at h'
    · exact h'
  · intro n d kept article e i hf hget
    have hgetd : kept.getD i article = e := by
      rw [List.getD_eq_getElem?_getD, hget]
      rfl
    constructor
    · intro hle
      unfold titleKeptStep
      rw [hf]
      dsimp only
      rw [hgetd, if_neg (by omega)]
    · intro hlt
      unfold titleKeptStep
      rw [hf]
      dsimp only
      rw [hgetd, if_pos (by omega)]
  · intro n d bucket x hx
    rcases titleBucket_subset n d bucket [] x hx with h | h
    · simp at h
    · exact h

set_option maxRecDepth 1000000 in
/-- C10 (witness): a tie (both articles quality 0) keeps the existing
entry in both stages; `exArtD` is `exArtC`'s title at quality 0, similar
to the kept `exArtA`. -/
theorem dedup_first_wins_on_ties_witness :
    (urlSeenStep "k".toList exArtB [("k".toList, exArtA)] =
      [("k".toList, exArtA)]) ∧
    (titleKeptStep 85 100 [exArtA] { exArtC with fullText := none } =
      [exArtA]) := by
  constructor
  · exact (dedup_first_wins_on_ties.1 "k".toList exArtB exArtA
      [("k".toList, exArtA)] (by decide)).1 (by decide)
  · exact (dedup_first_wins_on_ties.2.2.1 85 100 [exArtA]
      { exArtC with fullText := none } exArtA 0 (by decide) (by decide)).1
      (by decide)

/-! ## C5 — URL canonicalisation: character and list groundwork -/

theorem char_eq_of_toNat {a b : Char} (h : a.toNat = b.toNat) : a = b :=
  Char.ext (UInt32.ext h)

theorem char_le_iff {a b : Char} : a ≤ b ↔ a.toNat ≤ b.toNat := Iff.rfl

theorem char_toNat_ofNat {n : Nat} (h : n.isValidChar) :
    (Char.ofNat n).toNat = n := by
  unfold Char.ofNat
  rw [dif_pos h]
  rfl

theorem pyLowerChar_toNat (c : Char) :
    (pyLowerChar c).toNat =
      if 65 ≤ c.toNat ∧ c.toNat ≤ 90 then c.toNat + 32 else c.toNat := by
  unfold pyLowerChar
  by_cases h : 65 ≤ c.toNat ∧ c.toNat ≤ 90
  · rw [if_pos (by exact ⟨char_le_iff.mpr h.1, char_le_iff.mpr h.2⟩), if_pos h]
    exact char_toNat_ofNat (Or.inl (by omega))
  · rw [if_neg (by
      intro hc
      exact h ⟨char_le_iff.mp hc.1, char_le_iff.mp hc.2⟩), if_neg h]

theorem pyLowerChar_idem (c : Char) :
    pyLowerChar (pyLowerChar c) = pyLowerChar c := by
  apply char_eq_of_toNat
  rw [pyLowerChar_toNat, pyLowerChar_toNat]
  split_ifs <;> omega

theorem pyLower_idem (s : PyStr) : pyLower (pyLower s) = pyLower s := by
  unfold pyLower
  rw [List.map_map]
  exact List.map_congr_left fun c _ => pyLowerChar_idem c

/-- For a character that is neither upper-case ASCII nor the image of one
under `+32`, `pyLowerChar c = t ↔ c = t`. -/
theorem pyLowerChar_eq_special {t : Char} (ht : t.toNat < 97)
    (htup : ¬ (65 ≤ t.toNat ∧ t.toNat ≤ 90)) (c : Char) :
    pyLowerChar c = t ↔ c = t := by
  constructor
  · intro h
    apply char_eq_of_toNat
    have := congrArg Char.toNat h
    rw [pyLowerChar_toNat] at this
    by_cases hc : 65 ≤ c.toNat ∧ c.toNat ≤ 90
    · rw [if_pos hc] at this; omega
    · rw [if_neg hc] at this; exact this
  · intro h
    subst h
    apply char_eq_of_toNat
    rw [pyLowerChar_toNat, if_neg htup]

theorem mem_pyLower_special {t : Char} (ht : t.toNat < 97)
    (htup : ¬ (65 ≤ t.toNat ∧ t.toNat ≤ 90)) (s : PyStr) :
    t ∈ pyLower s ↔ t ∈ s := by
  unfold pyLower
  rw [List.mem_map]
  constructor
  · rintro ⟨c, hc, hct⟩
    rw [pyLowerChar_eq_special ht htup] at hct
    rw [← hct]; exact hc
  · intro h
    exact ⟨t, h, (pyLowerChar_eq_special ht htup t).mpr rfl⟩

/-- Generic `takeWhile`/`dropWhile` over an all-satisfying prefix. -/
theorem takeWhile_append_all {α : Type} {p : α → Bool} :
    ∀ (l₁ l₂ : List α), (∀ x ∈ l₁, p x = true) →
    (l₁ ++ l₂).takeWhile p = l₁ ++ l₂.takeWhile p := by
  intro l₁
  induction l₁ with
  | nil => intro l₂ _; rfl
  | cons a l ih =>
      intro l₂ h
      rw [List.cons_append, List.takeWhile_cons, h a (by simp),
        List.cons_append, ih l₂ (fun x hx => h x (by simp [hx])), if_pos rfl]

theorem dropWhile_append_all {α : Type} {p : α → Bool} :
    ∀ (l₁ l₂ : List α), (∀ x ∈ l₁, p x = true) →
    (l₁ ++ l₂).dropWhile p = l₂.dropWhile p := by
  intro l₁
  induction l₁ with
  | nil => intro l₂ _; rfl
  | cons a l ih =>
      intro l₂ h
      rw [List.cons_append, List.dropWhile_cons, if_pos (h a (by simp)),
        ih l₂ (fun x hx => h x (by simp [hx]))]

theorem takeWhile_all_eq {α : Type} {p : α → Bool} :
    ∀ (l : List α), (∀ x ∈ l, p x = true) → l.takeWhile p = l := by
  intro l
  induction l with
  | nil => intro _; rfl
  | cons a l ih =>
      intro h
      rw [List.takeWhile_cons, h a (by simp), ih (fun x hx => h x (by simp [hx])),
        if_pos rfl]

theorem dropWhile_all_eq {α : Type} {p : α → Bool} :
    ∀ (l : List α), (∀ x ∈ l, p x = true) → l.dropWhile p = [] := by
  intro l
  induction l with
  | nil => intro _; rfl
  | cons a l ih =>
      intro h
      rw [List.dropWhile_cons, if_pos (h a (by simp)),
        ih (fun x hx => h x (by simp [hx]))]

theorem takeWhile_cons_false {α : Type} {p : α → Bool} (a : α) (l : List α)
    (h : p a = false) : (a :: l).takeWhile p = [] := by
  rw [List.takeWhile_cons, h, if_neg (by simp)]

theorem dropWhile_cons_false {α : Type} {p : α → Bool} (a : α) (l : List α)
    (h : p a = false) : (a :: l).dropWhile p = a :: l := by
  rw [List.dropWhile_cons, if_neg (by simp [h])]

theorem splitOnce_not_mem (s : PyStr) (c : Char) (h : c ∉ s) :
    splitOnce s c = (s, none) := by
  unfold splitOnce
  have hall : ∀ x ∈ s, (decide (x ≠ c)) = true := by
    intro x hx
    simp only [decide_eq_true_eq]
    intro hxc
    exact h (hxc ▸ hx)
  rw [dropWhile_all_eq s hall]

theorem splitOnce_append (l₁ l₂ : PyStr) (c : Char) (h : c ∉ l₁) :
    splitOnce (l₁ ++ c :: l₂) c = (l₁, some l₂) := by
  unfold splitOnce
  have hall : ∀ x ∈ l₁, (decide (x ≠ c)) = true := by
    intro x hx
    simp only [decide_eq_true_eq]
    intro hxc
    exact h (hxc ▸ hx)
  rw [takeWhile_append_all l₁ (c :: l₂) hall,
    dropWhile_append_all l₁ (c :: l₂) hall,
    takeWhile_cons_false _ _ (by simp), dropWhile_cons_false _ _ (by simp)]
  simp

/-! ### UTF-8 round trip -/

theorem char_ofNat_toNat (c : Char) : Char.ofNat c.toNat = c :=
  char_eq_of_toNat (char_toNat_ofNat c.valid)

theorem char_valid_nat (c : Char) :
    c.toNat < 0xD800 ∨ (0xE000 ≤ c.toNat ∧ c.toNat < 0x110000) := c.valid

/-- One decode step on an ASCII byte. -/
theorem utf8DecodeAux_step1 (f b0 : Nat) (rest : List Nat) (h : b0 < 0x80) :
    utf8DecodeAux (f + 1) (b0 :: rest) = Char.ofNat b0 :: utf8DecodeAux f rest := by
  simp only [utf8DecodeAux]
  rw [if_pos h]

/-- One decode step on a well-formed two-byte sequence. -/
theorem utf8DecodeAux_step2 (f b0 b1 : Nat) (rest : List Nat)
    (h0 : 0xC2 ≤ b0 ∧ b0 ≤ 0xDF) (h1 : 0x80 ≤ b1 ∧ b1 ≤ 0xBF) :
    utf8DecodeAux (f + 1) (b0 :: b1 :: rest) =
      Char.ofNat ((b0 - 0xC0) * 64 + (b1 - 0x80)) :: utf8DecodeAux f rest := by
  simp only [utf8DecodeAux]
  rw [if_neg (by omega), if_pos h0, if_pos h1]

/-- One decode step on a well-formed three-byte sequence. -/
theorem utf8DecodeAux_step3 (f b0 b1 b2 : Nat) (rest : List Nat)
    (h0 : 0xE0 ≤ b0 ∧ b0 ≤ 0xEF)
    (h1 : (if b0 = 0xE0 then 0xA0 else 0x80) ≤ b1 ∧
          b1 ≤ (if b0 = 0xED then 0x9F else 0xBF))
    (h2 : 0x80 ≤ b2 ∧ b2 ≤ 0xBF) :
    utf8DecodeAux (f + 1) (b0 :: b1 :: b2 :: rest) =
      Char.ofNat ((b0 - 0xE0) * 4096 + (b1 - 0x80) * 64 + (b2 - 0x80))
        :: utf8DecodeAux f rest := by
  simp only [utf8DecodeAux]
  rw [if_neg (by omega), if_neg (by omega), if_pos h0, if_pos h1, if_pos h2]

/-- One decode step on a well-formed four-byte sequence. -/
theorem utf8DecodeAux_step4 (f b0 b1 b2 b3 : Nat) (rest : List Nat)
    (h0 : 0xF0 ≤ b0 ∧ b0 ≤ 0xF4)
    (h1 : (if b0 = 0xF0 then 0x90 else 0x80) ≤ b1 ∧
          b1 ≤ (if b0 = 0xF4 then 0x8F else 0xBF))
    (h2 : 0x80 ≤ b2 ∧ b2 ≤ 0xBF) (h3 : 0x80 ≤ b3 ∧ b3 ≤ 0xBF) :
    utf8DecodeAux (f + 1) (b0 :: b1 :: b2 :: b3 :: rest) =
      Char.ofNat ((b0 - 0xF0) * 262144 + (b1 - 0x80) * 4096
          + (b2 - 0x80) * 64 + (b3 - 0x80))
        :: utf8DecodeAux f rest := by
  simp only [utf8DecodeAux]
  rw [if_neg (by omega), if_neg (by omega), if_neg (by omega), if_pos h0,
    if_pos h1, if_pos h2, if_pos h3]

theorem utf8Encode_cons (c : Char) (s : PyStr) :
    utf8Encode (c :: s) = utf8EncodeChar c ++ utf8Encode s := rfl

theorem utf8Encode_append (a b : PyStr) :
    utf8Encode (a ++ b) = utf8Encode a ++ utf8Encode b := by
  unfold utf8Encode
  rw [List.flatMap_append]

/-- Every byte `utf8EncodeChar` emits fits in one byte. -/
theorem utf8EncodeChar_lt_256 (c : Char) : ∀ b ∈ utf8EncodeChar c, b < 256 := by
  intro b hb
  have hv := char_valid_nat c
  unfold utf8EncodeChar at hb
  by_cases h1 : c.toNat < 0x80
  · rw [if_pos h1] at hb
    simp only [List.mem_singleton] at hb
    omega
  · rw [if_neg h1] at hb
    by_cases h2 : c.toNat < 0x800
    · rw [if_pos h2] at hb
      simp only [List.mem_cons, List.not_mem_nil, or_false] at hb
      rcases hb with hb | hb <;> omega
    · rw [if_neg h2] at hb
      by_cases h3 : c.toNat < 0x10000
      · rw [if_pos h3] at hb
        simp only [List.mem_cons, List.not_mem_nil, or_false] at hb
        rcases hb with hb | hb | hb <;> omega
      · rw [if_neg h3] at hb
        simp only [List.mem_cons, List.not_mem_nil, or_false] at hb
        rcases hb with hb | hb | hb | hb <;> omega

/-- Decoding the encoding with enough fuel is the identity (`str ==
bytes.decode` after `str.encode`): the UTF-8 round trip. -/
theorem utf8DecodeAux_encode :
    ∀ (s : PyStr) (fuel : Nat), (utf8Encode s).length ≤ fuel →
    utf8DecodeAux fuel (utf8Encode s) = s := by
  intro s
  induction s with
  | nil =>
      intro fuel _
      cases fuel <;> rfl
  | cons c s ih =>
      intro fuel hlen
      have hv := char_valid_nat c
      have hcn : Char.ofNat c.toNat = c := char_ofNat_toNat c
      rw [utf8Encode_cons] at hlen ⊢
      by_cases h1 : c.toNat < 0x80
      · have hec : utf8EncodeChar c = [c.toNat] := by
          unfold utf8EncodeChar; rw [if_pos h1]
        rw [hec, List.singleton_append] at hlen ⊢
        rw [List.length_cons] at hlen
        cases fuel with
        | zero => omega
        | succ f =>
            rw [utf8DecodeAux_step1 f _ _ h1, hcn, ih f (by omega)]
      · by_cases h2 : c.toNat < 0x800
        · have hec : utf8EncodeChar c = [0xC0 + c.toNat / 64, 0x80 + c.toNat % 64] := by
            unfold utf8EncodeChar; rw [if_neg h1, if_pos h2]
          rw [hec] at hlen ⊢
          simp only [List.cons_append, List.nil_append, List.length_cons] at hlen ⊢
          cases fuel with
          | zero => omega
          | succ f =>
              rw [utf8DecodeAux_step2 f _ _ _ ⟨by omega, by omega⟩ ⟨by omega, by omega⟩,
                show (0xC0 + c.toNat / 64 - 0xC0) * 64 + (0x80 + c.toNat % 64 - 0x80)
                  = c.toNat from by omega, hcn, ih f (by omega)]
        · by_cases h3 : c.toNat < 0x10000
          · have hec : utf8EncodeChar c =
                [0xE0 + c.toNat / 4096, 0x80 + (c.toNat / 64) % 64, 0x80 + c.toNat % 64] := by
              unfold utf8EncodeChar; rw [if_neg h1, if_neg h2, if_pos h3]
            rw [hec] at hlen ⊢
            simp only [List.cons_append, List.nil_append, List.length_cons] at hlen ⊢
            cases fuel with
            | zero => omega
            | succ f =>
                rw [utf8DecodeAux_step3 f _ _ _ _ ⟨by omega, by omega⟩
                    ⟨by split <;> omega, by split <;> omega⟩ ⟨by omega, by omega⟩,
                  show (0xE0 + c.toNat / 4096 - 0xE0) * 4096
                      + (0x80 + (c.toNat / 64) % 64 - 0x80) * 64
                      + (0x80 + c.toNat % 64 - 0x80) = c.toNat from by omega,
                  hcn, ih f (by omega)]
          · have hec : utf8EncodeChar c =
                [0xF0 + c.toNat / 262144, 0x80 + (c.toNat / 4096) % 64,
                 0x80 + (c.toNat / 64) % 64, 0x80 + c.toNat % 64] := by
              unfold utf8EncodeChar; rw [if_neg h1, if_neg h2, if_neg h3]
            rw [hec] at hlen ⊢
            simp only [List.cons_append, List.nil_append, List.length_cons] at hlen ⊢
            cases fuel with
            | zero => omega
            | succ f =>
                rw [utf8DecodeAux_step4 f _ _ _ _ _ ⟨by omega, by omega⟩
                    ⟨by split <;> omega, by split <;> omega⟩
                    ⟨by omega, by omega⟩ ⟨by omega, by omega⟩,
                  show (0xF0 + c.toNat / 262144 - 0xF0) * 262144
                      + (0x80 + (c.toNat / 4096) % 64 - 0x80) * 4096
                      + (0x80 + (c.toNat / 64) % 64 - 0x80) * 64
                      + (0x80 + c.toNat % 64 - 0x80) = c.toNat from by omega,
                  hcn, ih f (by omega)]

/-- `s.encode("utf-8").decode("utf-8") == s`. -/
theorem utf8DecodeReplace_encode (s : PyStr) :
    utf8DecodeReplace (utf8Encode s) = s :=
  utf8DecodeAux_encode s (utf8Encode s).length (Nat.le_refl _)

/-! ### `unquote_plus ∘ quote_plus = id` -/

theorem char_eq_iff {c d : Char} : c = d ↔ c.toNat = d.toNat :=
  ⟨congrArg Char.toNat, char_eq_of_toNat⟩

/-- `unquote` step on a literal (non-`%`) character. -/
theorem unquoteAux_lit (c : Char) (hc : c ≠ '%') (rest : PyStr) (acc : List Nat) :
    unquoteAux (c :: rest) acc = utf8DecodeReplace acc ++ c :: unquoteAux rest [] := by
  conv_lhs => rw [unquoteAux.eq_def]
  split
  · rename_i heq; exact absurd heq (by simp)
  · rename_i h1 h2 r heq; injection heq with hh _; exact absurd hh hc
  · rename_i c' r' heq; injection heq with hh ht; rw [hh, ht]

/-- `unquote` step on one `%XX` escape. -/
theorem unquoteAux_pct_one (h1 h2 : Char) (a b : Nat) (rest : PyStr) (acc : List Nat)
    (hv1 : hexVal h1 = some a) (hv2 : hexVal h2 = some b) :
    unquoteAux ('%' :: h1 :: h2 :: rest) acc = unquoteAux rest (acc ++ [16 * a + b]) := by
  simp only [unquoteAux, hv1, hv2]

theorem hexUpperChar_toNat (n : Nat) (h : n < 16) :
    (hexUpperChar n).toNat = if n < 10 then 48 + n else 55 + n := by
  unfold hexUpperChar
  by_cases h10 : n < 10
  · rw [if_pos h10, if_pos h10]
    exact char_toNat_ofNat (Or.inl (by omega))
  · rw [if_neg h10, if_neg h10]
    exact char_toNat_ofNat (Or.inl (by omega))

theorem hexUpperChar_range (n : Nat) (h : n < 16) :
    (48 ≤ (hexUpperChar n).toNat ∧ (hexUpperChar n).toNat ≤ 57) ∨
      (65 ≤ (hexUpperChar n).toNat ∧ (hexUpperChar n).toNat ≤ 70) := by
  rw [hexUpperChar_toNat n h]
  split
  · left; omega
  · right; omega

theorem hexVal_hexUpper (n : Nat) (h : n < 16) : hexVal (hexUpperChar n) = some n := by
  unfold hexUpperChar
  by_cases h10 : n < 10
  · rw [if_pos h10]
    have ht : (Char.ofNat (48 + n)).toNat = 48 + n := char_toNat_ofNat (Or.inl (by omega))
    unfold hexVal
    rw [if_pos ⟨char_le_iff.mpr (by rw [ht]; show 48 ≤ 48 + n; omega),
        char_le_iff.mpr (by rw [ht]; show 48 + n ≤ 57; omega)⟩, ht,
      show 48 + n - 48 = n from by omega]
  · rw [if_neg h10]
    have ht : (Char.ofNat (55 + n)).toNat = 55 + n := char_toNat_ofNat (Or.inl (by omega))
    unfold hexVal
    rw [if_neg (fun hc => by
        have h2 := char_le_iff.mp hc.2
        rw [ht] at h2
        have h3 : 55 + n ≤ 57 := h2
        omega),
      if_neg (fun hc => by
        have h2 := char_le_iff.mp hc.1
        rw [ht] at h2
        have h3 : 97 ≤ 55 + n := h2
        omega),
      if_pos ⟨char_le_iff.mpr (by rw [ht]; show 65 ≤ 55 + n; omega),
        char_le_iff.mpr (by rw [ht]; show 55 + n ≤ 70; omega)⟩, ht,
      show 55 + n - 55 = n from by omega]

/-- `unquote` consumes a maximal uppercase-hex escape run byte for byte. -/
theorem unquoteAux_pct :
    ∀ (bs : List Nat), (∀ b ∈ bs, b < 256) →
    ∀ (rest : PyStr) (acc : List Nat),
    unquoteAux
        ((bs.flatMap fun b => ['%', hexUpperChar (b / 16), hexUpperChar (b % 16)]) ++ rest)
        acc
      = unquoteAux rest (acc ++ bs) := by
  intro bs
  induction bs with
  | nil => intro _ rest acc; simp
  | cons b bs ih =>
      intro hlt rest acc
      have hb : b < 256 := hlt b (by simp)
      rw [List.flatMap_cons]
      simp only [List.cons_append, List.nil_append, List.append_assoc]
      rw [unquoteAux_pct_one _ _ _ _ _ _ (hexVal_hexUpper (b / 16) (by omega))
          (hexVal_hexUpper (b % 16) (by omega)),
        show 16 * (b / 16) + b % 16 = b from by omega,
        ih (fun x hx => hlt x (by simp [hx])) rest (acc ++ [b]),
        List.append_assoc]
      rfl

theorem alwaysSafeByte_iff (b : Nat) :
    alwaysSafeByte b = true ↔
      ((48 ≤ b ∧ b ≤ 57) ∨ (65 ≤ b ∧ b ≤ 90) ∨ (97 ≤ b ∧ b ≤ 122) ∨
        b = 45 ∨ b = 46 ∨ b = 95 ∨ b = 126) := by
  simp [alwaysSafeByte]

theorem utf8EncodeChar_ascii (c : Char) (h : c.toNat < 0x80) :
    utf8EncodeChar c = [c.toNat] := by
  unfold utf8EncodeChar
  rw [if_pos h]

/-- Every byte of a multi-byte UTF-8 encoding is ≥ `0x80`. -/
theorem utf8EncodeChar_ge_128 (c : Char) (h : 0x80 ≤ c.toNat) :
    ∀ b ∈ utf8EncodeChar c, 0x80 ≤ b := by
  intro b hb
  unfold utf8EncodeChar at hb
  rw [if_neg (by omega)] at hb
  by_cases h2 : c.toNat < 0x800
  · rw [if_pos h2] at hb
    simp only [List.mem_cons, List.not_mem_nil, or_false] at hb
    rcases hb with hb | hb <;> omega
  · rw [if_neg h2] at hb
    by_cases h3 : c.toNat < 0x10000
    · rw [if_pos h3] at hb
      simp only [List.mem_cons, List.not_mem_nil, or_false] at hb
      rcases hb with hb | hb | hb <;> omega
    · rw [if_neg h3] at hb
      simp only [List.mem_cons, List.not_mem_nil, or_false] at hb
      rcases hb with hb | hb | hb | hb <;> omega

theorem quotePlus_cons (c : Char) (s : PyStr) :
    quotePlus (c :: s) = quotePlusChar c ++ quotePlus s := rfl

/-- Character inventory of `quote_plus` output (all ASCII; only `+`, `%`,
always-safe characters and uppercase hex digits occur). -/
theorem mem_quotePlus_range (v : PyStr) (c : Char) (hc : c ∈ quotePlus v) :
    c.toNat = 43 ∨ c.toNat = 37 ∨ (48 ≤ c.toNat ∧ c.toNat ≤ 57) ∨
      (65 ≤ c.toNat ∧ c.toNat ≤ 90) ∨ (97 ≤ c.toNat ∧ c.toNat ≤ 122) ∨
      c.toNat = 45 ∨ c.toNat = 46 ∨ c.toNat = 95 ∨ c.toNat = 126 := by
  unfold quotePlus at hc
  rw [List.mem_flatMap] at hc
  obtain ⟨d, _, hd⟩ := hc
  unfold quotePlusChar at hd
  split at hd
  · simp only [List.mem_singleton] at hd
    left
    rw [hd]
    rfl
  · rw [List.mem_flatMap] at hd
    obtain ⟨b, hb, hcb⟩ := hd
    have hb256 : b < 256 := utf8EncodeChar_lt_256 d b hb
    split at hcb
    · rename_i hsafe
      simp only [List.mem_singleton] at hcb
      have ht : (Char.ofNat b).toNat = b := char_toNat_ofNat (Or.inl (by omega))
      rw [hcb, ht]
      have := (alwaysSafeByte_iff b).mp hsafe
      tauto
    · simp only [List.mem_cons, List.not_mem_nil, or_false] at hcb
      rcases hcb with h | h | h
      · right; left; rw [h]; rfl
      · have := hexUpperChar_range (b / 16) (by omega)
        rw [← h] at this
        rcases this with h' | h'
        · right; right; left; exact h'
        · right; right; right; left; omega
      · have := hexUpperChar_range (b % 16) (by omega)
        rw [← h] at this
        rcases this with h' | h'
        · right; right; left; exact h'
        · right; right; right; left; omega

/-- `.replace('+', ' ')` is the identity on the non-`+` part of
`quote_plus` output. -/
theorem map_plusToSpace_quotePlusChar (c : Char) (hne : c ≠ ' ') :
    (quotePlusChar c).map (fun x => if x = '+' then ' ' else x) = quotePlusChar c := by
  unfold quotePlusChar
  rw [if_neg hne]
  rw [List.map_flatMap]
  refine List.flatMap_congr (fun b hb => ?_)
  have hb256 : b < 256 := utf8EncodeChar_lt_256 c b hb
  by_cases hs : alwaysSafeByte b = true
  · rw [if_pos hs]
    have ht : (Char.ofNat b).toNat = b := char_toNat_ofNat (Or.inl (by omega))
    have hsafe := (alwaysSafeByte_iff b).mp hs
    simp only [List.map_cons, List.map_nil]
    rw [if_neg (fun he => by
      rw [char_eq_iff, ht] at he
      have h43 : ('+' : Char).toNat = 43 := rfl
      rw [h43] at he
      omega)]
  · rw [if_neg hs]
    simp only [List.map_cons, List.map_nil]
    have hpct : ('%' : Char) ≠ '+' := by decide
    have hx1 : hexUpperChar (b / 16) ≠ '+' := fun he => by
      have hr := hexUpperChar_range (b / 16) (by omega)
      rw [he, show ('+' : Char).toNat = 43 from rfl] at hr
      omega
    have hx2 : hexUpperChar (b % 16) ≠ '+' := fun he => by
      have hr := hexUpperChar_range (b % 16) (by omega)
      rw [he, show ('+' : Char).toNat = 43 from rfl] at hr
      omega
    rw [if_neg hpct, if_neg hx1, if_neg hx2]

theorem utf8Encode_snoc (p : PyStr) (c : Char) :
    utf8Encode (p ++ [c]) = utf8Encode p ++ utf8EncodeChar c := by
  rw [utf8Encode_append]
  simp [utf8Encode]

/-- The generalized round trip: decoding the `+`-despaced form of
`quote_plus x` appended after an accumulated byte prefix recovers the
prefix followed by `x`. -/
theorem unquoteAux_map_quotePlus :
    ∀ (x p : PyStr),
    unquoteAux ((quotePlus x).map (fun ch => if ch = '+' then ' ' else ch)) (utf8Encode p)
      = p ++ x := by
  intro x
  induction x with
  | nil =>
      intro p
      show unquoteAux [] (utf8Encode p) = p ++ []
      show utf8DecodeReplace (utf8Encode p) = p ++ []
      rw [utf8DecodeReplace_encode, List.append_nil]
  | cons c x' ih =>
      intro p
      rw [quotePlus_cons, List.map_append]
      by_cases hspace : c = ' '
      · subst hspace
        show unquoteAux (' ' :: (quotePlus x').map _) (utf8Encode p) = _
        rw [unquoteAux_lit ' ' (by decide), utf8DecodeReplace_encode]
        have h0 := ih []
        rw [show utf8Encode [] = [] from rfl] at h0
        rw [h0, List.nil_append]
      · rw [map_plusToSpace_quotePlusChar c hspace]
        by_cases hA : c.toNat < 0x80 ∧ alwaysSafeByte c.toNat = true
        · have hqc : quotePlusChar c = [c] := by
            unfold quotePlusChar
            rw [if_neg hspace, utf8EncodeChar_ascii c hA.1]
            simp only [List.flatMap_cons, List.flatMap_nil]
            rw [if_pos hA.2, char_ofNat_toNat, List.append_nil]
          have hc37 : c ≠ '%' := fun he => by
            have := (alwaysSafeByte_iff c.toNat).mp hA.2
            rw [char_eq_iff, show ('%' : Char).toNat = 37 from rfl] at he
            omega
          rw [hqc, List.singleton_append, unquoteAux_lit c hc37,
            utf8DecodeReplace_encode]
          have h0 := ih []
          rw [show utf8Encode [] = [] from rfl] at h0
          rw [h0, List.nil_append]
        · have hbytes : ∀ b ∈ utf8EncodeChar c, alwaysSafeByte b = false := by
            intro b hb
            by_cases h80 : c.toNat < 0x80
            · rw [utf8EncodeChar_ascii c h80] at hb
              simp only [List.mem_singleton] at hb
              subst hb
              by_cases hsf : alwaysSafeByte c.toNat = true
              · exact absurd ⟨h80, hsf⟩ hA
              · simpa using hsf
            · have hge := utf8EncodeChar_ge_128 c (by omega) b hb
              by_cases hsf : alwaysSafeByte b = true
              · have := (alwaysSafeByte_iff b).mp hsf
                omega
              · simpa using hsf
          have hqc : quotePlusChar c =
              (utf8EncodeChar c).flatMap fun b =>
                ['%', hexUpperChar (b / 16), hexUpperChar (b % 16)] := by
            unfold quotePlusChar
            rw [if_neg hspace]
            exact List.flatMap_congr (fun b hb => by rw [hbytes b hb]; simp)
          rw [hqc, unquoteAux_pct (utf8EncodeChar c) (utf8EncodeChar_lt_256 c) _ _,
            ← utf8Encode_snoc, ih (p ++ [c]), List.append_assoc, List.singleton_append]

/-- `unquote_plus(quote_plus(s)) == s` (UTF-8, uppercase-hex escapes). -/
theorem unquotePlus_quotePlus (s : PyStr) : unquotePlus (quotePlus s) = s := by
  have h := unquoteAux_map_quotePlus s []
  rw [show utf8Encode [] = [] from rfl, List.nil_append] at h
  exact h

/-! ### Nonemptiness facts for `parse_qsl` values -/

theorem utf8DecodeAux_cons_ne_nil (fuel b : Nat) (bs : List Nat) :
    utf8DecodeAux (fuel + 1) (b :: bs) ≠ [] := by
  simp only [utf8DecodeAux]
  repeat' split
  all_goals simp

theorem unquoteAux_ne_nil : ∀ (s : PyStr) (acc : List Nat),
    ¬(s = [] ∧ acc = []) → unquoteAux s acc ≠ [] := by
  intro s acc
  induction s, acc using unquoteAux.induct with
  | case1 acc =>
      intro h
      cases acc with
      | nil => exact absurd ⟨rfl, rfl⟩ h
      | cons b bs =>
          show utf8DecodeReplace (b :: bs) ≠ []
          unfold utf8DecodeReplace
          rw [List.length_cons]
          exact utf8DecodeAux_cons_ne_nil bs.length b bs
  | case2 h1 h2 rest acc a b hvb hva ih =>
      intro _
      rw [unquoteAux_pct_one h1 h2 a b rest acc hva hvb]
      exact ih (fun hp => by simp at hp)
  | case3 h1 h2 rest acc hno ih =>
      intro _
      simp only [unquoteAux]
      simp
  | case4 c rest acc hno ih =>
      intro _
      by_cases hc : c = '%'
      · subst hc
        match rest, hno with
        | [], _ =>
            show utf8DecodeReplace acc ++ '%' :: unquoteAux [] [] ≠ []
            simp
        | [x], _ =>
            show utf8DecodeReplace acc ++ '%' :: unquoteAux [x] [] ≠ []
            simp
        | x :: y :: r, hno => exact (hno x y r rfl rfl).elim
      · rw [unquoteAux_lit c hc]
        simp

theorem unquotePlus_ne_nil (s : PyStr) (h : s ≠ []) : unquotePlus s ≠ [] := by
  unfold unquotePlus unquote
  apply unquoteAux_ne_nil
  rintro ⟨h1, -⟩
  exact h (List.map_eq_nil_iff.mp h1)

theorem utf8EncodeChar_ne_nil (c : Char) : utf8EncodeChar c ≠ [] := by
  unfold utf8EncodeChar
  by_cases h1 : c.toNat < 0x80
  · rw [if_pos h1]; simp
  · rw [if_neg h1]
    by_cases h2 : c.toNat < 0x800
    · rw [if_pos h2]; simp
    · rw [if_neg h2]
      by_cases h3 : c.toNat < 0x10000
      · rw [if_pos h3]; simp
      · rw [if_neg h3]; simp

theorem quotePlusChar_ne_nil (c : Char) : quotePlusChar c ≠ [] := by
  unfold quotePlusChar
  split
  · simp
  · obtain ⟨b, bs, heq⟩ := List.exists_cons_of_ne_nil (utf8EncodeChar_ne_nil c)
    rw [heq, List.flatMap_cons]
    intro hnil
    rw [List.append_eq_nil] at hnil
    have h1 := hnil.1
    revert h1
    split <;> simp

theorem quotePlus_ne_nil (s : PyStr) (h : s ≠ []) : quotePlus s ≠ [] := by
  obtain ⟨c, cs, heq⟩ := List.exists_cons_of_ne_nil h
  rw [heq, quotePlus_cons]
  intro hnil
  rw [List.append_eq_nil] at hnil
  exact quotePlusChar_ne_nil c hnil.1

/-! ### `str.split` round trip over `'&'.join` -/

theorem splitAll_no_sep (sep : Char) : ∀ (s : PyStr), sep ∉ s → splitAll sep s = [s] := by
  intro s
  induction s with
  | nil => intro _; rfl
  | cons c rest ih =>
      intro h
      simp only [splitAll]
      rw [if_neg (fun he => h (by rw [he]; exact List.mem_cons_self _ _)),
        ih (fun hm => h (List.mem_cons_of_mem _ hm))]

theorem splitAll_sep_append (sep : Char) : ∀ (p rest : PyStr), sep ∉ p →
    splitAll sep (p ++ sep :: rest) = p :: splitAll sep rest := by
  intro p
  induction p with
  | nil =>
      intro rest _
      rw [List.nil_append]
      simp only [splitAll]
      simp
  | cons c p' ih =>
      intro rest h
      rw [List.cons_append]
      simp only [splitAll]
      rw [if_neg (fun he => h (by rw [he]; exact List.mem_cons_self _ _)),
        ih rest (fun hm => h (List.mem_cons_of_mem _ hm))]

theorem mem_intersperse {α : Type} (sep x : α) :
    ∀ (l : List α), x ∈ l.intersperse sep → x ∈ l ∨ x = sep := by
  intro l
  induction l with
  | nil => intro h; simp at h
  | cons a t ih =>
      cases t with
      | nil => intro h; simp at h; left; simp [h]
      | cons b t' =>
          intro h
          rw [show (a :: b :: t').intersperse sep = a :: sep :: (b :: t').intersperse sep
            from rfl] at h
          rcases List.mem_cons.mp h with h | h
          · left; rw [h]; exact List.mem_cons_self _ _
          · rcases List.mem_cons.mp h with h | h
            · right; exact h
            · rcases ih h with h | h
              · left; exact List.mem_cons_of_mem _ h
              · right; exact h

/-- `'&'.join(pieces).split('&') == pieces` for `'&'`-free pieces. -/
theorem splitAll_flatten_intersperse (sep : Char) :
    ∀ (pieces : List PyStr), pieces ≠ [] → (∀ q ∈ pieces, sep ∉ q) →
    splitAll sep ((pieces.intersperse [sep]).flatten) = pieces := by
  intro pieces
  induction pieces with
  | nil => intro h; exact absurd rfl h
  | cons p ps ih =>
      intro _ hall
      cases ps with
      | nil =>
          rw [show (([p] : List PyStr).intersperse [sep]).flatten = p ++ [] from rfl,
            List.append_nil]
          exact splitAll_no_sep sep p (hall p (by simp))
      | cons p2 ps2 =>
          rw [show (((p :: p2 :: ps2) : List PyStr).intersperse [sep]).flatten
              = p ++ sep :: ((p2 :: ps2).intersperse [sep]).flatten from rfl,
            splitAll_sep_append sep p _ (hall p (by simp)),
            ih (by simp) (fun q hq => hall q (by simp [hq]))]

/-- Every value `parse_qsl` returns is nonempty (empty values are skipped,
and `unquote_plus` of a nonempty string is nonempty). -/
theorem parseQsl_pieces_snd_ne_nil (pieces : List PyStr) :
    ∀ pr ∈ pieces.foldr
      (fun nv acc =>
        if nv = [] then acc
        else
          match splitOnce nv '=' with
          | (_, none) => acc
          | (name, some value) =>
              if value = [] then acc
              else (unquotePlus name, unquotePlus value) :: acc)
      [], pr.2 ≠ [] := by
  induction pieces with
  | nil => intro pr hpr; simp at hpr
  | cons piece ps ih =>
      intro pr hpr
      rw [List.foldr_cons] at hpr
      split at hpr
      · exact ih pr hpr
      · split at hpr
        · exact ih pr hpr
        · rename_i name value heq
          split at hpr
          · exact ih pr hpr
          · rename_i hv
            rcases List.mem_cons.mp hpr with h | h
            · rw [h]
              exact unquotePlus_ne_nil value (by simpa using hv)
            · exact ih pr h

theorem parseQsl_snd_ne_nil (qs : PyStr) : ∀ pr ∈ parseQsl qs, pr.2 ≠ [] := by
  unfold parseQsl
  exact parseQsl_pieces_snd_ne_nil _

/-! ### `parse_qs` grouping -/

theorem groupInsert_absent (k v : PyStr) :
    ∀ (acc : List (PyStr × List PyStr)), (∀ e ∈ acc, e.1 ≠ k) →
    groupInsert k v acc = acc ++ [(k, [v])] := by
  intro acc
  induction acc with
  | nil => intro _; rfl
  | cons e rest ih =>
      intro h
      obtain ⟨k', vs⟩ := e
      simp only [groupInsert]
      rw [if_neg (h (k', vs) (List.mem_cons_self _ _)),
        ih (fun e he => h e (List.mem_cons_of_mem _ he)), List.cons_append]

theorem groupInsert_last (k v : PyStr) (ws : List PyStr) :
    ∀ (acc : List (PyStr × List PyStr)), (∀ e ∈ acc, e.1 ≠ k) →
    groupInsert k v (acc ++ [(k, ws)]) = acc ++ [(k, ws ++ [v])] := by
  intro acc
  induction acc with
  | nil =>
      intro _
      simp only [List.nil_append, groupInsert]
      simp
  | cons e rest ih =>
      intro h
      obtain ⟨k', vs⟩ := e
      rw [List.cons_append]
      simp only [groupInsert]
      rw [if_neg (h (k', vs) (List.mem_cons_self _ _)),
        ih (fun e he => h e (List.mem_cons_of_mem _ he)), List.cons_append]

theorem foldl_groupInsert_run (k : PyStr) :
    ∀ (vs ws : List PyStr) (acc : List (PyStr × List PyStr)),
    (∀ e ∈ acc, e.1 ≠ k) →
    ((vs.map fun v => (k, v)).foldl (fun a q => groupInsert q.1 q.2 a) (acc ++ [(k, ws)]))
      = acc ++ [(k, ws ++ vs)] := by
  intro vs
  induction vs with
  | nil => intro ws acc _; simp
  | cons v vs' ih =>
      intro ws acc h
      rw [List.map_cons, List.foldl_cons]
      dsimp only
      rw [groupInsert_last k v ws acc h, ih (ws ++ [v]) acc h, List.append_assoc,
        List.singleton_append]

/-- Re-grouping the flattened `(key, value)` pairs of a
distinct-key group list rebuilds it exactly. -/
theorem foldl_groupInsert_flat :
    ∀ (L acc : List (PyStr × List PyStr)),
    (∀ p ∈ L, p.2 ≠ []) →
    (∀ p ∈ L, ∀ e ∈ acc, e.1 ≠ p.1) →
    List.Pairwise (fun a b => a.1 ≠ b.1) L →
    ((L.flatMap fun p => p.2.map fun v => (p.1, v)).foldl
        (fun a q => groupInsert q.1 q.2 a) acc)
      = acc ++ L := by
  intro L
  induction L with
  | nil => intro acc _ _ _; simp
  | cons p L' ih =>
      intro acc hvs hacc hpw
      obtain ⟨k, vs⟩ := p
      rw [List.flatMap_cons, List.foldl_append]
      obtain ⟨v0, vs', hveq⟩ :=
        List.exists_cons_of_ne_nil (hvs (k, vs) (List.mem_cons_self _ _))
      subst hveq
      have hkacc : ∀ e ∈ acc, e.1 ≠ k :=
        fun e he => hacc (k, v0 :: vs') (List.mem_cons_self _ _) e he
      rw [List.map_cons, List.foldl_cons]
      dsimp only
      rw [groupInsert_absent k v0 acc hkacc,
        foldl_groupInsert_run k vs' [v0] acc hkacc, List.singleton_append,
        ih (acc ++ [(k, v0 :: vs')])
          (fun q hq => hvs q (List.mem_cons_of_mem _ hq))
          (fun q hq e he => by
            rcases List.mem_append.mp he with h' | h'
            · exact hacc q (List.mem_cons_of_mem _ hq) e h'
            · have hk : e.1 = k := by
                simp only [List.mem_singleton] at h'
                rw [h']
              rw [hk]
              exact (List.pairwise_cons.mp hpw).1 q hq)
          ((List.pairwise_cons.mp hpw).2),
        List.append_assoc, List.singleton_append]

theorem mem_groupInsert_pres (P : PyStr → Prop) (k v : PyStr) (hv : P v) :
    ∀ (acc : List (PyStr × List PyStr)),
    (∀ e ∈ acc, e.2 ≠ [] ∧ ∀ w ∈ e.2, P w) →
    ∀ e ∈ groupInsert k v acc, e.2 ≠ [] ∧ ∀ w ∈ e.2, P w := by
  intro acc
  induction acc with
  | nil =>
      intro _ e he
      simp only [groupInsert, List.mem_singleton] at he
      rw [he]
      refine ⟨by simp, ?_⟩
      intro w hw
      simp only [List.mem_singleton] at hw
      rw [hw]
      exact hv
  | cons e0 rest ih =>
      intro hall e he
      obtain ⟨k', vs⟩ := e0
      simp only [groupInsert] at he
      split at he
      · rcases List.mem_cons.mp he with h | h
        · rw [h]
          refine ⟨by simp, ?_⟩
          intro w hw
          rcases List.mem_append.mp hw with h' | h'
          · exact (hall (k', vs) (List.mem_cons_self _ _)).2 w h'
          · simp only [List.mem_singleton] at h'
            rw [h']
            exact hv
        · exact hall e (List.mem_cons_of_mem _ h)
      · rcases List.mem_cons.mp he with h | h
        · rw [h]; exact hall (k', vs) (List.mem_cons_self _ _)
        · exact ih (fun e' he' => hall e' (List.mem_cons_of_mem _ he')) e h

theorem foldl_groupInsert_pres (P : PyStr → Prop) :
    ∀ (pairs : List (PyStr × PyStr)) (acc : List (PyStr × List PyStr)),
    (∀ q ∈ pairs, P q.2) →
    (∀ e ∈ acc, e.2 ≠ [] ∧ ∀ w ∈ e.2, P w) →
    ∀ e ∈ pairs.foldl (fun a q => groupInsert q.1 q.2 a) acc,
      e.2 ≠ [] ∧ ∀ w ∈ e.2, P w := by
  intro pairs
  induction pairs with
  | nil =>
      intro acc _ hacc e he
      rw [List.foldl_nil] at he
      exact hacc e he
  | cons q qs ih =>
      intro acc hq hacc e he
      rw [List.foldl_cons] at he
      exact ih _ (fun q' hq' => hq q' (List.mem_cons_of_mem _ hq'))
        (mem_groupInsert_pres P q.1 q.2 (hq q (List.mem_cons_self _ _)) acc hacc) e he

/-- Every `parse_qs` group is nonempty and holds nonempty values. -/
theorem parseQs_entries (qs : PyStr) :
    ∀ e ∈ parseQs qs, e.2 ≠ [] ∧ ∀ w ∈ e.2, w ≠ [] := by
  unfold parseQs
  exact foldl_groupInsert_pres (fun w => w ≠ []) (parseQsl qs) []
    (fun q hq => parseQsl_snd_ne_nil qs q hq) (by simp)

theorem groupInsert_keys_mem (k v : PyStr) :
    ∀ (acc : List (PyStr × List PyStr)), (∃ e ∈ acc, e.1 = k) →
    (groupInsert k v acc).map Prod.fst = acc.map Prod.fst := by
  intro acc
  induction acc with
  | nil => intro h; simp at h
  | cons e0 rest ih =>
      intro h
      obtain ⟨k', vs⟩ := e0
      simp only [groupInsert]
      by_cases hk : k' = k
      · rw [if_pos hk]; simp
      · rw [if_neg hk]
        have hex : ∃ e ∈ rest, e.1 = k := by
          obtain ⟨e, he, hek⟩ := h
          rcases List.mem_cons.mp he with h' | h'
          · rw [h'] at hek; exact absurd hek hk
          · exact ⟨e, h', hek⟩
        rw [List.map_cons, List.map_cons, ih hex]

theorem foldl_groupInsert_keys_nodup :
    ∀ (pairs : List (PyStr × PyStr)) (acc : List (PyStr × List PyStr)),
    (acc.map Prod.fst).Nodup →
    ((pairs.foldl (fun a q => groupInsert q.1 q.2 a) acc).map Prod.fst).Nodup := by
  intro pairs
  induction pairs with
  | nil => intro acc h; rw [List.foldl_nil]; exact h
  | cons q qs ih =>
      intro acc h
      rw [List.foldl_cons]
      apply ih
      by_cases hex : ∃ e ∈ acc, e.1 = q.1
      · rw [groupInsert_keys_mem q.1 q.2 acc hex]; exact h
      · push_neg at hex
        rw [groupInsert_absent q.1 q.2 acc hex, List.map_append]
        rw [List.nodup_append]
        refine ⟨h, by simp, ?_⟩
        intro a ha hb
        simp only [List.map_cons, List.map_nil, List.mem_singleton] at hb
        obtain ⟨e, he, hea⟩ := List.mem_map.mp ha
        exact hex e he (by rw [hea, hb])

/-- `parse_qs` keys are pairwise distinct (CPython dict keys). -/
theorem parseQs_keys_nodup (qs : PyStr) : ((parseQs qs).map Prod.fst).Nodup := by
  unfold parseQs
  exact foldl_groupInsert_keys_nodup (parseQsl qs) [] (by simp)

/-! ### `bisect.insort`-style insertion sort: permutation, chains -/

theorem perm_insortBy {α : Type} (le : α → α → Bool) (x : α) :
    ∀ (l : List α), List.Perm (insortBy le x l) (x :: l) := by
  intro l
  induction l with
  | nil => exact List.Perm.refl _
  | cons y ys ih =>
      simp only [insortBy]
      split
      · exact List.Perm.refl _
      · exact (ih.cons y).trans (List.Perm.swap x y ys)

theorem perm_sortedBy {α : Type} (le : α → α → Bool) :
    ∀ (l : List α), List.Perm (sortedBy le l) l := by
  intro l
  induction l with
  | nil => exact List.Perm.refl _
  | cons x xs ih =>
      show List.Perm (insortBy le x (sortedBy le xs)) (x :: xs)
      exact (perm_insortBy le x (sortedBy le xs)).trans (ih.cons x)

theorem mem_sortedBy {α : Type} (le : α → α → Bool) (l : List α) (x : α) :
    x ∈ sortedBy le l ↔ x ∈ l := (perm_sortedBy le l).mem_iff

theorem head?_insortBy {α : Type} (le : α → α → Bool) (x : α) :
    ∀ (l : List α), (insortBy le x l).head? = some x ∨ (insortBy le x l).head? = l.head? := by
  intro l
  cases l with
  | nil => left; rfl
  | cons y ys =>
      simp only [insortBy]
      split
      · left; rfl
      · right; rfl

theorem chain'_insortBy {α : Type} (le : α → α → Bool)
    (htot : ∀ a b, le a b = true ∨ le b a = true) (x : α) :
    ∀ (l : List α), List.Chain' (fun a b => le a b = true) l →
    List.Chain' (fun a b => le a b = true) (insortBy le x l) := by
  intro l
  induction l with
  | nil => intro _; exact List.chain'_singleton x
  | cons y ys ih =>
      intro hch
      simp only [insortBy]
      split
      · rename_i hxy
        exact List.chain'_cons.mpr ⟨hxy, hch⟩
      · rename_i hxy
        have hyx : le y x = true := by
          rcases htot x y with h | h
          · exact absurd h hxy
          · exact h
        apply List.chain'_cons'.mpr
        constructor
        · intro b hb
          rcases head?_insortBy le x ys with h | h
          · rw [h] at hb
            simp only [Option.mem_def, Option.some.injEq] at hb
            rw [← hb]
            exact hyx
          · rw [h] at hb
            exact (List.chain'_cons'.mp hch).1 b hb
        · exact ih ((List.chain'_cons'.mp hch).2)

theorem chain'_sortedBy {α : Type} (le : α → α → Bool)
    (htot : ∀ a b, le a b = true ∨ le b a = true) :
    ∀ (l : List α), List.Chain' (fun a b => le a b = true) (sortedBy le l) := by
  intro l
  induction l with
  | nil => simp [sortedBy]
  | cons x xs ih =>
      show List.Chain' _ (insortBy le x (sortedBy le xs))
      exact chain'_insortBy le htot x _ ih

/-- A list already sorted (chain-wise) is a fixed point of the sort. -/
theorem sortedBy_of_chain' {α : Type} (le : α → α → Bool) :
    ∀ (l : List α), List.Chain' (fun a b => le a b = true) l → sortedBy le l = l := by
  intro l
  induction l with
  | nil => intro _; rfl
  | cons x ys ih =>
      intro hch
      show insortBy le x (sortedBy le ys) = x :: ys
      rw [ih ((List.chain'_cons'.mp hch).2)]
      cases ys with
      | nil => rfl
      | cons y ys' =>
          simp only [insortBy]
          rw [if_pos (List.chain'_cons.mp hch).1]

/-! ### Totality of the CPython comparison orders -/

theorem cmpStr_eq_swap : ∀ (a b : PyStr), cmpStr a b = (cmpStr b a).swap := by
  intro a
  induction a with
  | nil => intro b; cases b <;> rfl
  | cons x xs ih =>
      intro b
      cases b with
      | nil => rfl
      | cons y ys =>
          simp only [cmpStr]
          rcases Nat.lt_trichotomy x.toNat y.toNat with h | h | h
          · rw [Nat.compare_eq_lt.mpr h, Nat.compare_eq_gt.mpr h]
            rfl
          · rw [Nat.compare_eq_eq.mpr h, Nat.compare_eq_eq.mpr h.symm]
            exact ih ys
          · rw [Nat.compare_eq_gt.mpr h, Nat.compare_eq_lt.mpr h]
            rfl

theorem cmpStrList_eq_swap : ∀ (a b : List PyStr), cmpStrList a b = (cmpStrList b a).swap := by
  intro a
  induction a with
  | nil => intro b; cases b <;> rfl
  | cons x xs ih =>
      intro b
      cases b with
      | nil => rfl
      | cons y ys =>
          simp only [cmpStrList]
          rw [cmpStr_eq_swap y x]
          cases hxy : cmpStr x y
          · rfl
          · exact ih ys
          · rfl

theorem cmpPair_eq_swap (a b : PyStr × List PyStr) :
    cmpPair a b = (cmpPair b a).swap := by
  unfold cmpPair
  rw [cmpStr_eq_swap b.1 a.1]
  cases hab : cmpStr a.1 b.1
  · rfl
  · exact cmpStrList_eq_swap a.2 b.2
  · rfl

theorem strLeB_total (a b : PyStr) : strLeB a b = true ∨ strLeB b a = true := by
  unfold strLeB
  by_cases h : cmpStr a b = Ordering.gt
  · right
    have hs := cmpStr_eq_swap a b
    rw [h] at hs
    cases hba : cmpStr b a
    · simp
    · rw [hba] at hs; exact absurd hs (by decide)
    · rw [hba] at hs; exact absurd hs (by decide)
  · left
    simp [h]

theorem pairLeB_total (a b : PyStr × List PyStr) :
    pairLeB a b = true ∨ pairLeB b a = true := by
  unfold pairLeB
  by_cases h : cmpPair a b = Ordering.gt
  · right
    have hs := cmpPair_eq_swap a b
    rw [h] at hs
    cases hba : cmpPair b a
    · simp
    · rw [hba] at hs; exact absurd hs (by decide)
    · rw [hba] at hs; exact absurd hs (by decide)
  · left
    simp [h]

/-! ### `parse_qsl(urlencode(L, doseq=True))` recovers the pairs -/

theorem quotePlus_not_amp (s : PyStr) : '&' ∉ quotePlus s := fun hm => by
  have h := mem_quotePlus_range s '&' hm
  rw [show ('&' : Char).toNat = 38 from rfl] at h
  omega

theorem quotePlus_not_eqsign (s : PyStr) : '=' ∉ quotePlus s := fun hm => by
  have h := mem_quotePlus_range s '=' hm
  rw [show ('=' : Char).toNat = 61 from rfl] at h
  omega

theorem parseQsl_eq_foldr (qs : PyStr) (h : qs ≠ []) :
    parseQsl qs = (splitAll '&' qs).foldr
      (fun nv acc =>
        if nv = [] then acc
        else
          match splitOnce nv '=' with
          | (_, none) => acc
          | (name, some value) =>
              if value = [] then acc
              else (unquotePlus name, unquotePlus value) :: acc)
      [] := by
  unfold parseQsl
  rw [if_neg h]

theorem foldr_parseQsl_step_run (k : PyStr) :
    ∀ (vs : List PyStr) (acc : List (PyStr × PyStr)), (∀ v ∈ vs, v ≠ []) →
    ((vs.map fun v => quotePlus k ++ ['='] ++ quotePlus v).foldr
        (fun nv acc =>
          if nv = [] then acc
          else
            match splitOnce nv '=' with
            | (_, none) => acc
            | (name, some value) =>
                if value = [] then acc
                else (unquotePlus name, unquotePlus value) :: acc)
        acc)
      = vs.map (fun v => (k, v)) ++ acc := by
  intro vs
  induction vs with
  | nil => intro acc _; rfl
  | cons v vs' ih =>
      intro acc hvne
      rw [List.map_cons, List.foldr_cons,
        ih acc (fun w hw => hvne w (List.mem_cons_of_mem _ hw))]
      rw [if_neg (by simp : ¬(quotePlus k ++ ['='] ++ quotePlus v = []))]
      rw [show splitOnce (quotePlus k ++ ['='] ++ quotePlus v) '='
          = (quotePlus k, some (quotePlus v)) from by
        rw [List.append_assoc, List.singleton_append]
        exact splitOnce_append (quotePlus k) (quotePlus v) '=' (quotePlus_not_eqsign k)]
      dsimp only
      rw [if_neg (quotePlus_ne_nil v (hvne v (List.mem_cons_self _ _))),
        unquotePlus_quotePlus, unquotePlus_quotePlus, List.map_cons, List.cons_append]

theorem foldr_parseQsl_pieces :
    ∀ (L : List (PyStr × List PyStr)), (∀ p ∈ L, ∀ v ∈ p.2, v ≠ []) →
    ((L.flatMap fun p => p.2.map fun v => quotePlus p.1 ++ ['='] ++ quotePlus v).foldr
        (fun nv acc =>
          if nv = [] then acc
          else
            match splitOnce nv '=' with
            | (_, none) => acc
            | (name, some value) =>
                if value = [] then acc
                else (unquotePlus name, unquotePlus value) :: acc)
        [])
      = L.flatMap fun p => p.2.map fun v => (p.1, v) := by
  intro L
  induction L with
  | nil => intro _; rfl
  | cons p L' ih =>
      intro hv
      obtain ⟨k, vs⟩ := p
      rw [List.flatMap_cons, List.foldr_append,
        ih (fun q hq w hw => hv q (List.mem_cons_of_mem _ hq) w hw),
        List.flatMap_cons]
      rw [foldr_parseQsl_step_run k vs _
        (fun w hw => hv (k, vs) (List.mem_cons_self _ _) w hw)]

/-- Each encoded `k=v` piece is free of `'&'`. -/
theorem encPiece_no_amp (k v : PyStr) : '&' ∉ quotePlus k ++ ['='] ++ quotePlus v := by
  intro h
  rcases List.mem_append.mp h with h | h
  · rcases List.mem_append.mp h with h | h
    · exact quotePlus_not_amp k h
    · simp at h
  · exact quotePlus_not_amp v h

/-- `parse_qsl` inverts `urlencode(·, doseq=True)` on group lists with
nonempty value lists of nonempty values. -/
theorem parseQsl_urlencodeDoseq (L : List (PyStr × List PyStr))
    (hne : ∀ p ∈ L, p.2 ≠ []) (hv : ∀ p ∈ L, ∀ v ∈ p.2, v ≠ []) :
    parseQsl (urlencodeDoseq L) = L.flatMap fun p => p.2.map fun v => (p.1, v) := by
  cases L with
  | nil => rfl
  | cons p L' =>
      obtain ⟨k, vs⟩ := p
      obtain ⟨v0, vs', hveq⟩ := List.exists_cons_of_ne_nil (hne (k, vs) (by simp))
      subst hveq
      have hpieces :
          (((k, v0 :: vs') :: L').flatMap fun p =>
            p.2.map fun v => quotePlus p.1 ++ ['='] ++ quotePlus v)
          = (quotePlus k ++ ['='] ++ quotePlus v0) ::
            ((vs'.map fun v => quotePlus k ++ ['='] ++ quotePlus v) ++
              L'.flatMap fun p => p.2.map fun v => quotePlus p.1 ++ ['='] ++ quotePlus v) := by
        rw [List.flatMap_cons, List.map_cons, List.cons_append]
      have hfree : ∀ q ∈ (((k, v0 :: vs') :: L').flatMap fun p =>
          p.2.map fun v => quotePlus p.1 ++ ['='] ++ quotePlus v), '&' ∉ q := by
        intro q hq
        obtain ⟨p, _, hq2⟩ := List.mem_flatMap.mp hq
        obtain ⟨v, _, hqe⟩ := List.mem_map.mp hq2
        rw [← hqe]
        exact encPiece_no_amp p.1 v
      have hqs_ne : (((((k, v0 :: vs') :: L').flatMap fun p =>
          p.2.map fun v => quotePlus p.1 ++ ['='] ++ quotePlus v).intersperse
            ['&']).flatten) ≠ [] := by
        rw [hpieces]
        cases hrest : (vs'.map fun v => quotePlus k ++ ['='] ++ quotePlus v) ++
            L'.flatMap fun p => p.2.map fun v => quotePlus p.1 ++ ['='] ++ quotePlus v with
        | nil => simp
        | cons r rs => simp
      show parseQsl ((((((k, v0 :: vs') :: L').flatMap fun p =>
          p.2.map fun v => quotePlus p.1 ++ ['='] ++ quotePlus v).intersperse
            ['&']).flatten)) = _
      rw [parseQsl_eq_foldr _ hqs_ne,
        splitAll_flatten_intersperse '&' _ (by rw [hpieces]; simp) hfree]
      exact foldr_parseQsl_pieces _ hv

/-- `parse_qs` inverts `urlencode` on distinct-key group lists. -/
theorem parseQs_urlencodeDoseq (L : List (PyStr × List PyStr))
    (hne : ∀ p ∈ L, p.2 ≠ []) (hv : ∀ p ∈ L, ∀ v ∈ p.2, v ≠ [])
    (hpw : List.Pairwise (fun a b => a.1 ≠ b.1) L) :
    parseQs (urlencodeDoseq L) = L := by
  unfold parseQs
  rw [parseQsl_urlencodeDoseq L hne hv, foldl_groupInsert_flat L [] hne (by simp) hpw,
    List.nil_append]

/-! ### Idempotence of the query-canonicalisation pipeline -/

theorem sortedBy_ne_nil {α : Type} (le : α → α → Bool) (l : List α) (h : l ≠ []) :
    sortedBy le l ≠ [] := by
  intro hnil
  apply h
  have hlen := (perm_sortedBy le l).length_eq
  rw [hnil] at hlen
  exact List.length_eq_zero.mp hlen.symm

/-- `queryNormalized` is the identity on the canonical form it produces. -/
theorem queryNormalized_urlencode_fixed (L : List (PyStr × List PyStr))
    (hne : ∀ p ∈ L, p.2 ≠ []) (hv : ∀ p ∈ L, ∀ v ∈ p.2, v ≠ [])
    (hpw : List.Pairwise (fun a b => a.1 ≠ b.1) L)
    (hkeep : ∀ p ∈ L, ¬ trackingParams.contains (pyLower p.1))
    (hvch : ∀ p ∈ L, List.Chain' (fun a b => strLeB a b = true) p.2)
    (hch : List.Chain' (fun a b => pairLeB a b = true) L) :
    queryNormalized (urlencodeDoseq L) = urlencodeDoseq L := by
  unfold queryNormalized
  rw [parseQs_urlencodeDoseq L hne hv hpw,
    List.filter_eq_self.mpr (fun p hp => by
      simp only [decide_eq_true_eq]
      exact hkeep p hp),
    show (L.map fun p => (p.1, sortedBy strLeB p.2)) = L from
      (List.map_congr_left (fun p hp => by
        rw [sortedBy_of_chain' strLeB p.2 (hvch p hp)])).trans (List.map_id' L),
    sortedBy_of_chain' pairLeB L hch]

/-- The heart of C5's query half: canonicalising a query string twice gives
the same result as once. -/
theorem queryNormalized_idem (q : PyStr) :
    queryNormalized (queryNormalized q) = queryNormalized q := by
  have hL : queryNormalized q = urlencodeDoseq (sortedBy pairLeB
      ((((parseQs q).filter fun p => ¬ trackingParams.contains (pyLower p.1)).map
        fun p => (p.1, sortedBy strLeB p.2)))) := rfl
  rw [hL]
  apply queryNormalized_urlencode_fixed
  · intro p hp
    rw [mem_sortedBy] at hp
    obtain ⟨p', hp', hpe⟩ := List.mem_map.mp hp
    rw [← hpe]
    exact sortedBy_ne_nil strLeB p'.2
      ((parseQs_entries q p' (List.mem_of_mem_filter hp')).1)
  · intro p hp w hw
    rw [mem_sortedBy] at hp
    obtain ⟨p', hp', hpe⟩ := List.mem_map.mp hp
    rw [← hpe] at hw
    rw [mem_sortedBy] at hw
    exact (parseQs_entries q p' (List.mem_of_mem_filter hp')).2 w hw
  · have hnodup0 : ((parseQs q).map Prod.fst).Nodup := parseQs_keys_nodup q
    have hnodupF : ((((parseQs q).filter fun p =>
        ¬ trackingParams.contains (pyLower p.1)).map Prod.fst)).Nodup :=
      hnodup0.sublist ((List.filter_sublist _).map Prod.fst)
    have hkeysM : ((((parseQs q).filter fun p =>
          ¬ trackingParams.contains (pyLower p.1)).map
            fun p => (p.1, sortedBy strLeB p.2)).map Prod.fst)
        = (((parseQs q).filter fun p =>
          ¬ trackingParams.contains (pyLower p.1)).map Prod.fst) := by
      rw [List.map_map]
      exact List.map_congr_left (fun p _ => rfl)
    have hnodupL : ((sortedBy pairLeB ((((parseQs q).filter fun p =>
        ¬ trackingParams.contains (pyLower p.1)).map
          fun p => (p.1, sortedBy strLeB p.2)))).map Prod.fst).Nodup := by
      refine (((perm_sortedBy pairLeB _).map Prod.fst).nodup_iff).mpr ?_
      rw [hkeysM]
      exact hnodupF
    have hpair : List.Pairwise (fun a b : PyStr => a ≠ b)
        ((sortedBy pairLeB ((((parseQs q).filter fun p =>
          ¬ trackingParams.contains (pyLower p.1)).map
            fun p => (p.1, sortedBy strLeB p.2)))).map Prod.fst) := hnodupL
    exact List.pairwise_map.mp hpair
  · intro p hp
    rw [mem_sortedBy] at hp
    obtain ⟨p', hp', hpe⟩ := List.mem_map.mp hp
    have hkf := List.of_mem_filter hp'
    simp only [decide_eq_true_eq] at hkf
    rw [← hpe]
    exact hkf
  · intro p hp
    rw [mem_sortedBy] at hp
    obtain ⟨p', hp', hpe⟩ := List.mem_map.mp hp
    rw [← hpe]
    exact chain'_sortedBy strLeB strLeB_total p'.2
  · exact chain'_sortedBy pairLeB pairLeB_total _

/-! ### Character classes of `urlsplit` -/

theorem isAsciiAlphaChar_iff (c : Char) :
    isAsciiAlphaChar c = true ↔
      ((97 ≤ c.toNat ∧ c.toNat ≤ 122) ∨ (65 ≤ c.toNat ∧ c.toNat ≤ 90)) := by
  unfold isAsciiAlphaChar
  rw [decide_eq_true_eq]
  exact Iff.rfl

theorem isAsciiDigitChar_iff (c : Char) :
    isAsciiDigitChar c = true ↔ (48 ≤ c.toNat ∧ c.toNat ≤ 57) := by
  unfold isAsciiDigitChar
  rw [decide_eq_true_eq]
  exact Iff.rfl

theorem schemeChar_toNat (c : Char) (h : isSchemeChar c = true) :
    (97 ≤ c.toNat ∧ c.toNat ≤ 122) ∨ (65 ≤ c.toNat ∧ c.toNat ≤ 90) ∨
    (48 ≤ c.toNat ∧ c.toNat ≤ 57) ∨ c.toNat = 43 ∨ c.toNat = 45 ∨ c.toNat = 46 := by
  unfold isSchemeChar at h
  rw [decide_eq_true_eq] at h
  rcases h with h | h | h | h | h
  · rcases (isAsciiAlphaChar_iff c).mp h with h | h
    · left; exact h
    · right; left; exact h
  · right; right; left; exact (isAsciiDigitChar_iff c).mp h
  · right; right; right; left; rw [h]; rfl
  · right; right; right; right; left; rw [h]; rfl
  · right; right; right; right; right; rw [h]; rfl

theorem isUnsafeUrlChar_false (c : Char)
    (h : c.toNat ≠ 9 ∧ c.toNat ≠ 13 ∧ c.toNat ≠ 10) :
    isUnsafeUrlChar c = false := by
  unfold isUnsafeUrlChar
  rw [decide_eq_false_iff_not]
  rintro (he | he | he)
  · exact h.1 (by rw [he]; rfl)
  · exact h.2.1 (by rw [he]; rfl)
  · exact h.2.2 (by rw [he]; rfl)

theorem isC0OrSpace_false (c : Char) (h : 32 < c.toNat) : isC0OrSpace c = false := by
  unfold isC0OrSpace
  rw [decide_eq_false_iff_not]
  omega

theorem schemeChar_ne_colon (c : Char) (h : isSchemeChar c = true) : c ≠ ':' :=
  fun he => by
    have hr := schemeChar_toNat c h
    rw [he, show (':' : Char).toNat = 58 from rfl] at hr
    omega

theorem schemeChar_not_unsafe (c : Char) (h : isSchemeChar c = true) :
    isUnsafeUrlChar c = false := by
  have hr := schemeChar_toNat c h
  exact isUnsafeUrlChar_false c (by omega)

theorem alphaChar_not_c0 (c : Char) (h : isAsciiAlphaChar c = true) :
    isC0OrSpace c = false := by
  have hr := (isAsciiAlphaChar_iff c).mp h
  exact isC0OrSpace_false c (by omega)

/-! ### `rstrip` and `_splitparams` -/

theorem dropWhile_head_false {α : Type} (p : α → Bool) (x : α) (t : List α) :
    ∀ (l : List α), l.dropWhile p = x :: t → p x = false := by
  intro l
  induction l with
  | nil => intro h; simp at h
  | cons a l' ih =>
      intro h
      rw [List.dropWhile_cons] at h
      split at h
      · exact ih h
      · rename_i hpa
        injection h with h1 _
        rw [h1] at hpa
        simpa using hpa

theorem dropWhile_dropWhile {α : Type} (p : α → Bool) :
    ∀ (l : List α), (l.dropWhile p).dropWhile p = l.dropWhile p := by
  intro l
  induction l with
  | nil => rfl
  | cons a t ih =>
      cases hpa : p a
      · rw [dropWhile_cons_false _ _ hpa, dropWhile_cons_false _ _ hpa]
      · rw [List.dropWhile_cons, hpa, if_pos rfl]
        exact ih

/-- `rstrip` is idempotent. -/
theorem rstripChars_idem (s : PyStr) (cs : List Char) :
    rstripChars (rstripChars s cs) cs = rstripChars s cs := by
  unfold rstripChars
  rw [List.reverse_reverse, dropWhile_dropWhile]

theorem mem_rstripChars (s : PyStr) (cs : List Char) (c : Char)
    (h : c ∈ rstripChars s cs) : c ∈ s := by
  unfold rstripChars at h
  rw [List.mem_reverse] at h
  have h2 := (List.dropWhile_suffix (fun c => cs.contains c)).sublist.subset h
  rw [List.mem_reverse] at h2
  exact h2

/-- Prepending before a nonempty `rstrip` fixed point keeps it fixed. -/
theorem rstripChars_append_fixed (pre s : PyStr) (cs : List Char)
    (hfix : rstripChars s cs = s) (hne : s ≠ []) :
    rstripChars (pre ++ s) cs = pre ++ s := by
  unfold rstripChars at hfix ⊢
  have h1 : (s.reverse).dropWhile (fun c => cs.contains c) = s.reverse := by
    have h2 := congrArg List.reverse hfix
    rw [List.reverse_reverse] at h2
    exact h2
  obtain ⟨h, t, hrev⟩ := List.exists_cons_of_ne_nil
    (show s.reverse ≠ [] from fun hh => hne (by
      have h3 := congrArg List.reverse hh
      rw [List.reverse_reverse] at h3
      exact h3))
  have hph : cs.contains h = false := by
    rw [hrev] at h1
    cases hb : cs.contains h
    · rfl
    · exfalso
      rw [List.dropWhile_cons] at h1
      rw [if_pos hb] at h1
      have hlen := congrArg List.length h1
      have hle : (t.dropWhile fun c => cs.contains c).length ≤ t.length :=
        ((List.dropWhile_suffix (fun c => cs.contains c)).sublist).length_le
      rw [List.length_cons] at hlen
      omega
  rw [List.reverse_append, hrev, List.cons_append, dropWhile_cons_false _ _ hph,
    ← List.cons_append, ← hrev, ← List.reverse_append, List.reverse_reverse]

/-- Splitting off the last occurrence of `c`. -/
theorem exists_last_split (c : Char) (path : PyStr) (h : c ∈ path) :
    ∃ A B, path = A ++ c :: B ∧ c ∉ B ∧
      B = (path.reverse.takeWhile (fun x => decide (x ≠ c))).reverse := by
  have hmemr : c ∈ path.reverse := by rw [List.mem_reverse]; exact h
  have hdw : path.reverse.dropWhile (fun x => decide (x ≠ c)) ≠ [] := by
    intro hnil
    have hsplit : path.reverse.takeWhile (fun x => decide (x ≠ c)) ++
        path.reverse.dropWhile (fun x => decide (x ≠ c)) = path.reverse :=
      List.takeWhile_append_dropWhile _ _
    rw [hnil, List.append_nil] at hsplit
    have hm : c ∈ path.reverse.takeWhile (fun x => decide (x ≠ c)) := by
      rw [hsplit]; exact hmemr
    have h2 := List.mem_takeWhile_imp hm
    simp at h2
  obtain ⟨h0, t0, hdrop⟩ := List.exists_cons_of_ne_nil hdw
  have h0c : h0 = c := by
    have hf := dropWhile_head_false _ h0 t0 path.reverse hdrop
    simpa using hf
  refine ⟨t0.reverse, (path.reverse.takeWhile (fun x => decide (x ≠ c))).reverse,
    ?_, ?_, rfl⟩
  · have hsplit : path.reverse.takeWhile (fun x => decide (x ≠ c)) ++
        path.reverse.dropWhile (fun x => decide (x ≠ c)) = path.reverse :=
      List.takeWhile_append_dropWhile _ _
    rw [hdrop, h0c] at hsplit
    have h2 := congrArg List.reverse hsplit
    rw [List.reverse_reverse] at h2
    conv_lhs => rw [← h2]
    rw [List.reverse_append, List.reverse_cons, List.append_assoc,
      List.singleton_append]
  · intro hcm
    rw [List.mem_reverse] at hcm
    have h2 := List.mem_takeWhile_imp hcm
    simp at h2

theorem rfindSlash_decomp (A B : PyStr) (hB : '/' ∉ B) :
    rfindSlash (A ++ '/' :: B) = some A.length := by
  unfold rfindSlash
  have hrev : (A ++ '/' :: B).reverse = B.reverse ++ '/' :: A.reverse := by
    rw [List.reverse_append, List.reverse_cons, List.append_assoc,
      List.singleton_append]
  rw [hrev, takeWhile_append_all _ _ (fun x hx => by
      simp only [decide_eq_true_eq]
      intro hxe
      rw [List.mem_reverse] at hx
      exact hB (hxe ▸ hx)),
    takeWhile_cons_false _ _ (by simp), List.append_nil, List.length_reverse]
  simp only [List.length_append, List.length_cons]
  rw [if_pos (by omega)]
  congr 1
  omega

theorem findSemiFrom_decomp (A B : PyStr) (hB : ';' ∉ B) :
    findSemiFrom (A ++ '/' :: B) A.length = none := by
  unfold findSemiFrom
  rw [List.drop_left A ('/' :: B),
    takeWhile_all_eq ('/' :: B) (fun x hx => by
      simp only [decide_eq_true_eq]
      intro he
      rcases List.mem_cons.mp hx with h | h
      · rw [h] at he; exact absurd he (by decide)
      · exact hB (he ▸ h))]
  rw [if_neg (by
    simp only [List.length_append, List.length_cons]
    omega)]

/-- `_splitparams` is the identity (with empty params) when the last path
segment holds no `;`. -/
theorem splitparams_no_semi (path : PyStr) (h : lastSegmentHasSemi path = false) :
    splitparams path = (path, []) := by
  unfold splitparams
  by_cases hsl : path.contains '/' = true
  · rw [if_pos hsl]
    obtain ⟨A, B, hAB, hBnoslash, hBdef⟩ :=
      exists_last_split '/' path (List.elem_iff.mp hsl)
    have hBnosemi : ';' ∉ B := by
      unfold lastSegmentHasSemi at h
      rw [if_pos hsl] at h
      rw [hBdef]
      intro hm
      rw [List.mem_reverse] at hm
      have h' : List.elem ';'
          (List.takeWhile (fun x => decide (x ≠ '/')) (List.reverse path)) = false := h
      rw [List.elem_iff.mpr hm] at h'
      exact absurd h' (by decide)
    subst hAB
    rw [rfindSlash_decomp A B hBnoslash]
    dsimp only
    rw [findSemiFrom_decomp A B hBnosemi]
  · rw [if_neg hsl]
    unfold lastSegmentHasSemi at h
    rw [if_neg hsl] at h
    have hns : ';' ∉ path := fun hm => by
      have h' : List.elem ';' path = false := h
      rw [List.elem_iff.mpr hm] at h'
      exact absurd h' (by decide)
    have hfs : findSemiFrom path 0 = none := by
      unfold findSemiFrom
      rw [List.drop_zero, takeWhile_all_eq path (fun x hx => by
        simp only [decide_eq_true_eq]
        intro he
        exact hns (he ▸ hx))]
      rw [if_neg (by omega)]
    rw [hfs]

/-! ### `urlsplit` on reassembled URLs -/

theorem contains_reverse (l : PyStr) (c : Char) : l.reverse.contains c = l.contains c := by
  cases hc : l.contains c
  · cases hr : l.reverse.contains c
    · rfl
    · exfalso
      have hm := List.elem_iff.mp hr
      rw [List.mem_reverse] at hm
      have hc' : List.elem c l = false := hc
      rw [List.elem_iff.mpr hm] at hc'
      exact absurd hc' (by decide)
  · have hm := List.elem_iff.mp hc
    rw [← List.mem_reverse] at hm
    exact List.elem_iff.mpr hm

theorem dropWhile_ne_nil_of_mem {α : Type} (p : α → Bool) (c : α) (l : List α)
    (hm : c ∈ l) (hc : p c = false) : l.dropWhile p ≠ [] := by
  intro hnil
  have hsplit := List.takeWhile_append_dropWhile p l
  rw [hnil, List.append_nil] at hsplit
  have hm2 : c ∈ l.takeWhile p := by rw [hsplit]; exact hm
  have h2 := List.mem_takeWhile_imp hm2
  rw [hc] at h2
  exact absurd h2 (by decide)

theorem takeWhile_append_of_stop {α : Type} (p : α → Bool) :
    ∀ (l l' : List α), l.dropWhile p ≠ [] → (l ++ l').takeWhile p = l.takeWhile p := by
  intro l
  induction l with
  | nil => intro l' h; exact absurd rfl h
  | cons a t ih =>
      intro l' h
      rw [List.cons_append]
      cases hpa : p a
      · rw [takeWhile_cons_false _ _ hpa, takeWhile_cons_false _ _ hpa]
      · have h' : t.dropWhile p ≠ [] := by
          rw [List.dropWhile_cons, hpa, if_pos rfl] at h
          exact h
        simp only [List.takeWhile_cons, hpa]
        rw [ih l' h']

/-- Prepending a `'/'` to a path does not change whether the last segment
holds a `;`. -/
theorem lastSegmentHasSemi_cons_slash (path : PyStr) :
    lastSegmentHasSemi ('/' :: path) = lastSegmentHasSemi path := by
  unfold lastSegmentHasSemi
  by_cases hsl : path.contains '/' = true
  · have hstop : path.reverse.dropWhile (fun x => decide (x ≠ '/')) ≠ [] :=
      dropWhile_ne_nil_of_mem _ '/' _
        (by rw [List.mem_reverse]; exact List.elem_iff.mp hsl) (by simp)
    rw [if_pos hsl, if_pos (List.elem_iff.mpr (List.mem_cons_self '/' path)),
      List.reverse_cons, takeWhile_append_of_stop _ _ _ hstop]
  · have hnomem : '/' ∉ path := fun hm => hsl (List.elem_iff.mpr hm)
    have hall : ∀ x ∈ path.reverse, (decide (x ≠ '/')) = true := by
      intro x hx
      simp only [decide_eq_true_eq]
      intro he
      rw [List.mem_reverse] at hx
      exact hnomem (he ▸ hx)
    rw [if_neg hsl, if_pos (List.elem_iff.mpr (List.mem_cons_self '/' path)),
      List.reverse_cons, takeWhile_append_all _ _ hall,
      takeWhile_cons_false _ _ (by simp), List.append_nil, contains_reverse]

theorem removePrefix_of_not_startsWith (s p : PyStr) (h : startsWith s p = false) :
    removePrefix s p = s := by
  unfold removePrefix
  unfold startsWith at h
  rw [if_neg (by simp [h])]

/-- `urlsplit` of a reassembled netloc-carrying URL recovers the
components. -/
theorem urlsplitM_assembled_netloc (c : Char) (sc' nl pt q : PyStr)
    (hc : isAsciiAlphaChar c = true)
    (hsc : (c :: sc').all isSchemeChar = true)
    (hnl : ∀ x ∈ nl, x ≠ '/' ∧ x ≠ '?' ∧ x ≠ '#' ∧ isUnsafeUrlChar x = false)
    (hbr : ¬((nl.contains '[' ∧ ¬ nl.contains ']') ∨
             (nl.contains ']' ∧ ¬ nl.contains '[')))
    (hpt : ∀ x ∈ pt, x ≠ '?' ∧ x ≠ '#' ∧ isUnsafeUrlChar x = false)
    (hq : ∀ x ∈ q, x ≠ '#' ∧ isUnsafeUrlChar x = false) :
    urlsplitM ((c :: sc') ++ ':' :: '/' :: '/' :: (nl ++ ('/' :: pt) ++
        (if q = [] then [] else '?' :: q)))
      = some ⟨pyLower (c :: sc'), nl, '/' :: pt, q, []⟩ := by
  have hsc' : ∀ x ∈ c :: sc', isSchemeChar x = true := fun x hx =>
    List.all_eq_true.mp hsc x hx
  have hopt : ∀ x ∈ (if q = [] then ([] : PyStr) else '?' :: q),
      x ≠ '#' ∧ isUnsafeUrlChar x = false := by
    intro x hx
    split at hx
    · simp at hx
    · rcases List.mem_cons.mp hx with h | h
      · rw [h]; exact ⟨by decide, by decide⟩
      · exact hq x h
  have hall_clean : ∀ x ∈ (c :: sc') ++ ':' :: '/' :: '/' :: (nl ++ ('/' :: pt) ++
      (if q = [] then [] else '?' :: q)), isUnsafeUrlChar x = false := by
    intro x hx
    rcases List.mem_append.mp hx with h | h
    · exact schemeChar_not_unsafe x (hsc' x h)
    · rcases List.mem_cons.mp h with h | h
      · rw [h]; decide
      · rcases List.mem_cons.mp h with h | h
        · rw [h]; decide
        · rcases List.mem_cons.mp h with h | h
          · rw [h]; decide
          · rcases List.mem_append.mp h with h | h
            · rcases List.mem_append.mp h with h | h
              · exact (hnl x h).2.2.2
              · rcases List.mem_cons.mp h with h | h
                · rw [h]; decide
                · exact (hpt x h).2.2
            · exact (hopt x h).2
  unfold urlsplitM
  dsimp only
  rw [List.cons_append,
    dropWhile_cons_false _ _ (alphaChar_not_c0 c hc),
    ← List.cons_append,
    List.filter_eq_self.mpr (fun a ha => by
      rw [hall_clean a ha]
      decide),
    takeWhile_append_all _ _ (fun x hx => by
      simp only [decide_eq_true_eq]
      exact schemeChar_ne_colon x (hsc' x hx)),
    takeWhile_cons_false _ _ (by simp),
    List.append_nil,
    dropWhile_append_all _ _ (fun x hx => by
      simp only [decide_eq_true_eq]
      exact schemeChar_ne_colon x (hsc' x hx)),
    dropWhile_cons_false _ _ (by simp)]
  dsimp only
  rw [if_pos (show isAsciiAlphaChar c = true ∧ (c :: sc').all isSchemeChar = true
    from ⟨hc, hsc⟩)]
  dsimp only
  rw [if_pos (show startsWith ('/' :: '/' :: (nl ++ ('/' :: pt) ++
      (if q = [] then [] else '?' :: q))) ("//".toList) = true from
    List.isPrefixOf_iff_prefix.mpr
      ⟨nl ++ ('/' :: pt) ++ (if q = [] then [] else '?' :: q), rfl⟩)]
  rw [show ('/' :: '/' :: (nl ++ ('/' :: pt) ++
      (if q = [] then [] else '?' :: q))).drop 2
      = nl ++ ('/' :: pt) ++ (if q = [] then [] else '?' :: q) from rfl,
    List.append_assoc, List.cons_append,
    takeWhile_append_all _ _ (fun x hx => by
      simp only [decide_eq_true_eq]
      rintro (h | h | h)
      · exact (hnl x hx).1 h
      · exact (hnl x hx).2.1 h
      · exact (hnl x hx).2.2.1 h),
    takeWhile_cons_false _ _ (by decide),
    List.append_nil,
    dropWhile_append_all _ _ (fun x hx => by
      simp only [decide_eq_true_eq]
      rintro (h | h | h)
      · exact (hnl x hx).1 h
      · exact (hnl x hx).2.1 h
      · exact (hnl x hx).2.2.1 h),
    dropWhile_cons_false _ _ (by decide)]
  dsimp only
  rw [if_neg hbr]
  rw [splitOnce_not_mem ('/' :: (pt ++ (if q = [] then [] else '?' :: q))) '#' (by
    intro hm
    rcases List.mem_cons.mp hm with h | h
    · exact absurd h (by decide)
    · rcases List.mem_append.mp h with h | h
      · exact (hpt '#' h).2.1 rfl
      · exact (hopt '#' h).1 rfl)]
  dsimp only
  by_cases hq0 : q = []
  · subst hq0
    rw [if_pos rfl] at *
    rw [show (pt ++ ([] : PyStr)) = pt from List.append_nil pt]
    rw [splitOnce_not_mem ('/' :: pt) '?' (by
      intro hm
      rcases List.mem_cons.mp hm with h | h
      · exact absurd h (by decide)
      · exact (hpt '?' h).1 rfl)]
  · rw [show (if q = [] then ([] : PyStr) else '?' :: q) = '?' :: q from if_neg hq0,
      ← List.cons_append,
      splitOnce_append ('/' :: pt) q '?' (by
        intro hm
        rcases List.mem_cons.mp hm with h | h
        · exact absurd h (by decide)
        · exact (hpt '?' h).1 rfl)]

/-- `urlsplit` of a reassembled netloc-free URL recovers the components. -/
theorem urlsplitM_assembled_nonetloc (c : Char) (sc' pa q : PyStr)
    (hc : isAsciiAlphaChar c = true)
    (hsc : (c :: sc').all isSchemeChar = true)
    (hpa : ∀ x ∈ pa, x ≠ '?' ∧ x ≠ '#' ∧ isUnsafeUrlChar x = false)
    (hq : ∀ x ∈ q, x ≠ '#' ∧ isUnsafeUrlChar x = false)
    (hns : startsWith (pa ++ (if q = [] then [] else '?' :: q)) ("//".toList) = false) :
    urlsplitM ((c :: sc') ++ ':' :: (pa ++ (if q = [] then [] else '?' :: q)))
      = some ⟨pyLower (c :: sc'), [], pa, q, []⟩ := by
  have hsc' : ∀ x ∈ c :: sc', isSchemeChar x = true := fun x hx =>
    List.all_eq_true.mp hsc x hx
  have hopt : ∀ x ∈ (if q = [] then ([] : PyStr) else '?' :: q),
      x ≠ '#' ∧ isUnsafeUrlChar x = false := by
    intro x hx
    split at hx
    · simp at hx
    · rcases List.mem_cons.mp hx with h | h
      · rw [h]; exact ⟨by decide, by decide⟩
      · exact hq x h
  have hall_clean : ∀ x ∈ (c :: sc') ++ ':' :: (pa ++
      (if q = [] then [] else '?' :: q)), isUnsafeUrlChar x = false := by
    intro x hx
    rcases List.mem_append.mp hx with h | h
    · exact schemeChar_not_unsafe x (hsc' x h)
    · rcases List.mem_cons.mp h with h | h
      · rw [h]; decide
      · rcases List.mem_append.mp h with h | h
        · exact (hpa x h).2.2
        · exact (hopt x h).2
  unfold urlsplitM
  dsimp only
  rw [List.cons_append,
    dropWhile_cons_false _ _ (alphaChar_not_c0 c hc),
    ← List.cons_append,
    List.filter_eq_self.mpr (fun a ha => by
      rw [hall_clean a ha]
      decide),
    takeWhile_append_all _ _ (fun x hx => by
      simp only [decide_eq_true_eq]
      exact schemeChar_ne_colon x (hsc' x hx)),
    takeWhile_cons_false _ _ (by simp),
    List.append_nil,
    dropWhile_append_all _ _ (fun x hx => by
      simp only [decide_eq_true_eq]
      exact schemeChar_ne_colon x (hsc' x hx)),
    dropWhile_cons_false _ _ (by simp)]
  dsimp only
  rw [if_pos (show isAsciiAlphaChar c = true ∧ (c :: sc').all isSchemeChar = true
    from ⟨hc, hsc⟩)]
  dsimp only
  rw [if_neg (show ¬(startsWith (pa ++ (if q = [] then [] else '?' :: q))
      ("//".toList) = true) from fun htrue => by
    rw [hns] at htrue
    exact absurd htrue (by decide))]
  dsimp only
  rw [if_neg (show ¬(([] : PyStr).contains '[' = true ∧
      ¬([] : PyStr).contains ']' = true ∨
      ([] : PyStr).contains ']' = true ∧
      ¬([] : PyStr).contains '[' = true) from by simp)]
  rw [splitOnce_not_mem (pa ++ (if q = [] then [] else '?' :: q)) '#' (by
    intro hm
    rcases List.mem_append.mp hm with h | h
    · exact (hpa '#' h).2.1 rfl
    · exact (hopt '#' h).1 rfl)]
  dsimp only
  by_cases hq0 : q = []
  · subst hq0
    rw [if_pos rfl] at *
    rw [show (pa ++ ([] : PyStr)) = pa from List.append_nil pa]
    rw [splitOnce_not_mem pa '?' (fun hm => (hpa '?' hm).1 rfl)]
  · rw [show (if q = [] then ([] : PyStr) else '?' :: q) = '?' :: q from if_neg hq0,
      splitOnce_append pa q '?' (fun hm => (hpa '?' hm).1 rfl)]

/-! ### `urlunsplit` output shapes -/

theorem append_query_opt (X q : PyStr) :
    (if q ≠ [] then X ++ ['?'] ++ q else X) = X ++ (if q = [] then [] else '?' :: q) := by
  by_cases hq : q = []
  · rw [if_neg (fun hc => hc hq), if_pos hq, List.append_nil]
  · rw [if_pos hq, if_neg hq, List.append_assoc, List.singleton_append]

theorem urlunsplitM_netloc_form (sc nl pa q : PyStr) (hsc : sc ≠ [])
    (hcond : nl ≠ [] ∨ (sc ≠ [] ∧ usesNetloc.contains sc ∧
      ¬ startsWith pa ("//".toList)))
    (hpa : startsWith pa ("/".toList) = true) :
    urlunsplitM sc nl pa q [] =
      sc ++ ':' :: '/' :: '/' :: (nl ++ pa ++ (if q = [] then [] else '?' :: q)) := by
  unfold urlunsplitM
  dsimp only
  rw [if_pos hcond,
    if_neg (show ¬(pa ≠ [] ∧ ¬ startsWith pa ("/".toList) = true) from
      fun hc => hc.2 hpa),
    if_pos hsc,
    if_neg (show ¬(([] : PyStr) ≠ []) from fun hc => hc rfl),
    append_query_opt,
    show "//".toList = ['/', '/'] from rfl]
  simp [List.append_assoc]

theorem urlunsplitM_netloc_form2 (sc nl pa q : PyStr) (hsc : sc ≠ [])
    (hcond : nl ≠ [] ∨ (sc ≠ [] ∧ usesNetloc.contains sc ∧
      ¬ startsWith pa ("//".toList)))
    (hpa : startsWith pa ("/".toList) = false) (hp2 : pa ≠ []) :
    urlunsplitM sc nl pa q [] =
      sc ++ ':' :: '/' :: '/' :: (nl ++ ('/' :: pa) ++
        (if q = [] then [] else '?' :: q)) := by
  unfold urlunsplitM
  dsimp only
  rw [if_pos hcond,
    if_pos (show pa ≠ [] ∧ ¬ startsWith pa ("/".toList) = true from
      ⟨hp2, fun htrue => by rw [hpa] at htrue; exact absurd htrue (by decide)⟩),
    if_pos hsc,
    if_neg (show ¬(([] : PyStr) ≠ []) from fun hc => hc rfl),
    append_query_opt,
    show "//".toList = ['/', '/'] from rfl]
  simp [List.append_assoc]

theorem urlunsplitM_plain_form (sc nl pa q : PyStr) (hsc : sc ≠ [])
    (hcond : ¬(nl ≠ [] ∨ (sc ≠ [] ∧ usesNetloc.contains sc ∧
      ¬ startsWith pa ("//".toList)))) :
    urlunsplitM sc nl pa q [] =
      sc ++ ':' :: (pa ++ (if q = [] then [] else '?' :: q)) := by
  unfold urlunsplitM
  dsimp only
  rw [if_neg hcond,
    if_pos hsc,
    if_neg (show ¬(([] : PyStr) ≠ []) from fun hc => hc rfl),
    append_query_opt]
  simp [List.append_assoc]

theorem urlunparseM_no_params (sc nl pa q : PyStr) :
    urlunparseM sc nl pa [] q [] = urlunsplitM sc nl pa q [] := by
  unfold urlunparseM
  rw [if_neg (fun hc => hc rfl)]

/-! ### `normalize_url` is a fixed point on well-formed canonical parts -/

theorem option_bind_some {α β : Type} (a : α) (f : α → Option β) :
    (do let y ← some a; f y) = f a := rfl

theorem normalizeUrl_fixed_point (sc nl pa q : PyStr)
    (hs1 : sc ≠ [])
    (hs2 : pyLower sc = sc)
    (hs3 : sc.all isSchemeChar = true)
    (hs4 : isAsciiAlphaChar (sc.headD 'x') = true)
    (hnl : ∀ x ∈ nl, x ≠ '/' ∧ x ≠ '?' ∧ x ≠ '#' ∧ isUnsafeUrlChar x = false)
    (hbr : ¬((nl.contains '[' ∧ ¬ nl.contains ']') ∨
             (nl.contains ']' ∧ ¬ nl.contains '[')))
    (hn3 : pyLower nl = nl)
    (hn4 : startsWith nl ("www.".toList) = false)
    (hp1 : ∀ x ∈ pa, x ≠ '?' ∧ x ≠ '#' ∧ isUnsafeUrlChar x = false)
    (hp2 : pa ≠ [])
    (hp3 : pa = ['/'] ∨ rstripChars pa ['/'] = pa)
    (hp4 : lastSegmentHasSemi pa = false)
    (hp5 : ¬(nl = [] ∧ startsWith pa ("//".toList) = true))
    (hq1 : ∀ x ∈ q, x ≠ '#' ∧ isUnsafeUrlChar x = false)
    (hq2 : queryNormalized q = q) :
    normalizeUrl (urlunsplitM sc nl pa q []) = some (urlunsplitM sc nl pa q []) := by
  obtain ⟨c, sc', rfl⟩ : ∃ c sc', sc = c :: sc' := by
    cases sc with
    | nil => exact absurd rfl hs1
    | cons a b => exact ⟨a, b, rfl⟩
  have hcA : isAsciiAlphaChar c = true := by simpa using hs4
  by_cases hcond : nl ≠ [] ∨ ((c :: sc') ≠ [] ∧ usesNetloc.contains (c :: sc') ∧
      ¬ startsWith pa ("//".toList))
  · by_cases hslash : startsWith pa ("/".toList) = true
    · obtain ⟨pt, hpt_eq⟩ := List.isPrefixOf_iff_prefix.mp hslash
      have hpa_eq : pa = '/' :: pt := by rw [← hpt_eq]; rfl
      subst hpa_eq
      rw [urlunsplitM_netloc_form (c :: sc') nl ('/' :: pt) q (by simp) hcond hslash]
      have hsplit := urlsplitM_assembled_netloc c sc' nl pt q hcA hs3 hnl hbr
        (fun x hx => hp1 x (List.mem_cons_of_mem _ hx)) hq1
      rw [hs2] at hsplit
      have hparse : urlparseM ((c :: sc') ++ ':' :: '/' :: '/' ::
          (nl ++ ('/' :: pt) ++ (if q = [] then [] else '?' :: q)))
          = some ⟨c :: sc', nl, '/' :: pt, [], q, []⟩ := by
        unfold urlparseM
        rw [hsplit]
        rw [option_bind_some]
        by_cases hguard : usesParams.contains (c :: sc') = true ∧
            ('/' :: pt).contains ';' = true
        · rw [if_pos hguard, splitparams_no_semi ('/' :: pt) hp4]
        · rw [if_neg hguard]
      have hnorm : normParts ((c :: sc') ++ ':' :: '/' :: '/' ::
          (nl ++ ('/' :: pt) ++ (if q = [] then [] else '?' :: q)))
          = some ⟨c :: sc', nl, '/' :: pt, q⟩ := by
        unfold normParts
        rw [hparse]
        rw [option_bind_some]
        dsimp only
        rw [if_neg (show ¬((c :: sc') = []) from by simp), hs2, hn3,
          removePrefix_of_not_startsWith nl _ hn4, hq2]
        rcases hp3 with hp3 | hp3
        · have hpt0 : pt = [] := by simpa using hp3
          subst hpt0
          rw [show rstripChars ['/'] ['/'] = [] from by decide, if_pos rfl]
        · rw [hp3, if_neg (show ¬(('/' : Char) :: pt = []) from by simp)]
      unfold normalizeUrl
      rw [hnorm]
      simp only [Option.map_some']
      rw [urlunparseM_no_params,
        urlunsplitM_netloc_form (c :: sc') nl ('/' :: pt) q (by simp) hcond hslash]
    · have hslashF : startsWith pa ("/".toList) = false := by
        cases h : startsWith pa ("/".toList)
        · rfl
        · exact absurd h hslash
      rw [urlunsplitM_netloc_form2 (c :: sc') nl pa q (by simp) hcond hslashF hp2]
      have hsplit := urlsplitM_assembled_netloc c sc' nl pa q hcA hs3 hnl hbr hp1 hq1
      rw [hs2] at hsplit
      have hsemi : lastSegmentHasSemi ('/' :: pa) = false := by
        rw [lastSegmentHasSemi_cons_slash]
        exact hp4
      have hparse : urlparseM ((c :: sc') ++ ':' :: '/' :: '/' ::
          (nl ++ ('/' :: pa) ++ (if q = [] then [] else '?' :: q)))
          = some ⟨c :: sc', nl, '/' :: pa, [], q, []⟩ := by
        unfold urlparseM
        rw [hsplit]
        rw [option_bind_some]
        by_cases hguard : usesParams.contains (c :: sc') = true ∧
            ('/' :: pa).contains ';' = true
        · rw [if_pos hguard, splitparams_no_semi ('/' :: pa) hsemi]
        · rw [if_neg hguard]
      have hpa_nslash : pa ≠ ['/'] := by
        intro he
        rw [he] at hslashF
        exact absurd hslashF (by decide)
      have hfix : rstripChars pa ['/'] = pa := by
        rcases hp3 with h | h
        · exact absurd h hpa_nslash
        · exact h
      have hrs : rstripChars ('/' :: pa) ['/'] = '/' :: pa := by
        have h2 := rstripChars_append_fixed ['/'] pa ['/'] hfix hp2
        simpa using h2
      have hnorm : normParts ((c :: sc') ++ ':' :: '/' :: '/' ::
          (nl ++ ('/' :: pa) ++ (if q = [] then [] else '?' :: q)))
          = some ⟨c :: sc', nl, '/' :: pa, q⟩ := by
        unfold normParts
        rw [hparse]
        rw [option_bind_some]
        dsimp only
        rw [if_neg (show ¬((c :: sc') = []) from by simp), hs2, hn3,
          removePrefix_of_not_startsWith nl _ hn4, hq2, hrs,
          if_neg (show ¬(('/' : Char) :: pa = []) from by simp)]
      unfold normalizeUrl
      rw [hnorm]
      simp only [Option.map_some']
      rw [urlunparseM_no_params]
      have hcond2 : nl ≠ [] ∨ ((c :: sc') ≠ [] ∧ usesNetloc.contains (c :: sc') ∧
          ¬ startsWith ('/' :: pa) ("//".toList)) := by
        rcases hcond with h | h
        · left; exact h
        · right
          refine ⟨h.1, h.2.1, ?_⟩
          intro htrue
          obtain ⟨t, ht⟩ := List.isPrefixOf_iff_prefix.mp htrue
          have ht' : '/' :: '/' :: t = '/' :: pa := ht
          injection ht' with _ h2
          have hslash' : ("/".toList).isPrefixOf pa = false := hslashF
          rw [← h2] at hslash'
          have htr : ("/".toList).isPrefixOf ('/' :: t) = true :=
            List.isPrefixOf_iff_prefix.mpr ⟨t, rfl⟩
          rw [htr] at hslash'
          exact absurd hslash' (by decide)
      have hslash2 : startsWith ('/' :: pa) ("/".toList) = true :=
        List.isPrefixOf_iff_prefix.mpr ⟨pa, rfl⟩
      rw [urlunsplitM_netloc_form (c :: sc') nl ('/' :: pa) q (by simp) hcond2 hslash2]
  · rw [not_or] at hcond
    obtain ⟨hnl_ne, hnotun⟩ := hcond
    have hnl0 : nl = [] := not_not.mp hnl_ne
    subst hnl0
    have hnp : ¬ startsWith pa ("//".toList) = true := fun hs => hp5 ⟨rfl, hs⟩
    have hns : startsWith (pa ++ (if q = [] then [] else '?' :: q))
        ("//".toList) = false := by
      cases hpf : ("//".toList).isPrefixOf (pa ++ (if q = [] then [] else '?' :: q))
      · exact hpf
      · exfalso
        obtain ⟨t, ht⟩ := List.isPrefixOf_iff_prefix.mp hpf
        cases pa with
        | nil => exact hp2 rfl
        | cons a pa' =>
            have ht' : '/' :: '/' :: t = (a :: pa') ++
                (if q = [] then [] else '?' :: q) := ht
            rw [List.cons_append] at ht'
            injection ht' with h1 h2
            cases pa' with
            | nil =>
                rw [List.nil_append] at h2
                by_cases hq0 : q = []
                · rw [if_pos hq0] at h2
                  simp at h2
                · rw [if_neg hq0] at h2
                  injection h2 with h3 _
                  exact absurd h3 (by decide)
            | cons b pa'' =>
                rw [List.cons_append] at h2
                injection h2 with h3 _
                apply hnp
                show ("//".toList).isPrefixOf (a :: b :: pa'') = true
                exact List.isPrefixOf_iff_prefix.mpr ⟨pa'', by rw [← h1, ← h3]; rfl⟩
    have hplain : ¬(([] : PyStr) ≠ [] ∨ ((c :: sc') ≠ [] ∧
        usesNetloc.contains (c :: sc') ∧ ¬ startsWith pa ("//".toList))) := by
      rw [not_or]
      exact ⟨fun hc => hc rfl, hnotun⟩
    rw [urlunsplitM_plain_form (c :: sc') [] pa q (by simp) hplain]
    have hsplit := urlsplitM_assembled_nonetloc c sc' pa q hcA hs3 hp1 hq1 hns
    rw [hs2] at hsplit
    have hparse : urlparseM ((c :: sc') ++ ':' ::
        (pa ++ (if q = [] then [] else '?' :: q)))
        = some ⟨c :: sc', [], pa, [], q, []⟩ := by
      unfold urlparseM
      rw [hsplit]
      rw [option_bind_some]
      by_cases hguard : usesParams.contains (c :: sc') = true ∧
          pa.contains ';' = true
      · rw [if_pos hguard, splitparams_no_semi pa hp4]
      · rw [if_neg hguard]
    have hnorm : normParts ((c :: sc') ++ ':' ::
        (pa ++ (if q = [] then [] else '?' :: q)))
        = some ⟨c :: sc', [], pa, q⟩ := by
      unfold normParts
      rw [hparse]
      rw [option_bind_some]
      dsimp only
      rw [if_neg (show ¬((c :: sc') = []) from by simp), hs2,
        show removePrefix (pyLower ([] : PyStr)) ("www.".toList) = [] from by decide,
        hq2]
      rcases hp3 with hp3 | hp3
      · rw [hp3, show rstripChars ['/'] ['/'] = [] from by decide, if_pos rfl]
      · rw [hp3, if_neg hp2]
    unfold normalizeUrl
    rw [hnorm]
    simp only [Option.map_some']
    rw [urlunparseM_no_params,
      urlunsplitM_plain_form (c :: sc') [] pa q (by simp) hplain]

/-! ### What `urlsplit` guarantees about its output on an arbitrary input -/

theorem splitOnce_fst_not_mem (s : PyStr) (c : Char) : c ∉ (splitOnce s c).1 := by
  unfold splitOnce
  dsimp only
  cases hdw : s.dropWhile (fun x => decide (x ≠ c)) with
  | nil =>
      intro hm
      exact dropWhile_ne_nil_of_mem (fun x => decide (x ≠ c)) c s hm (by simp) hdw
  | cons hh tt =>
      intro hm
      have hm' : c ∈ s.takeWhile (fun x => decide (x ≠ c)) := hm
      have h2 := List.mem_takeWhile_imp hm'
      simp at h2

theorem splitOnce_fst_subset (s : PyStr) (c : Char) : ∀ x ∈ (splitOnce s c).1, x ∈ s := by
  unfold splitOnce
  dsimp only
  cases hdw : s.dropWhile (fun x => decide (x ≠ c)) with
  | nil =>
      intro x hx
      exact hx
  | cons hh tt =>
      intro x hx
      have hx' : x ∈ s.takeWhile (fun x => decide (x ≠ c)) := hx
      exact (List.takeWhile_prefix _).subset hx'

theorem urlsplitM_eq_tail (u : PyStr) :
    urlsplitM u =
      urlsplitTail
        (schemeSplit ((u.dropWhile isC0OrSpace).filter (fun c => ¬ isUnsafeUrlChar c))).1
        (schemeSplit ((u.dropWhile isC0OrSpace).filter (fun c => ¬ isUnsafeUrlChar c))).2 :=
  rfl

/-- The `?`-split stage: no `?` in the path part, and it is drawn from the
input. -/
theorem splitOnce_q_fst_spec (a1 : PyStr) (x : Char)
    (hx : x ∈ (match splitOnce a1 '?' with
                | (p, none) => (p, ([] : PyStr))
                | (p, some q) => (p, q)).1) :
    x ≠ '?' ∧ x ∈ a1 := by
  revert hx
  cases hsp : splitOnce a1 '?' with
  | mk a2 b2 =>
    have hsub : ∀ y ∈ a2, y ∈ a1 := by
      have h1 := splitOnce_fst_subset a1 '?'
      rw [hsp] at h1
      exact h1
    have hnq : '?' ∉ a2 := by
      have h1 := splitOnce_fst_not_mem a1 '?'
      rw [hsp] at h1
      exact h1
    cases b2 with
    | none =>
        intro hx
        have hx' : x ∈ a2 := hx
        exact ⟨fun he => hnq (he ▸ hx'), hsub x hx'⟩
    | some qq =>
        intro hx
        have hx' : x ∈ a2 := hx
        exact ⟨fun he => hnq (he ▸ hx'), hsub x hx'⟩

/-- The fragment-then-query split: the path part has no `?`, no `#`, and
is drawn from the input. -/
theorem splitOnce_frag_path_spec (N2 : PyStr) (x : Char)
    (hx : x ∈ (match splitOnce (match splitOnce N2 '#' with
                 | (p, none) => (p, ([] : PyStr))
                 | (p, some f) => (p, f)).1 '?' with
                | (p, none) => (p, ([] : PyStr))
                | (p, some q) => (p, q)).1) :
    x ≠ '?' ∧ x ≠ '#' ∧ x ∈ N2 := by
  revert hx
  cases hsp1 : splitOnce N2 '#' with
  | mk a1 b1 =>
    have hsub : ∀ y ∈ a1, y ∈ N2 := by
      have h1 := splitOnce_fst_subset N2 '#'
      rw [hsp1] at h1
      exact h1
    have hnh : '#' ∉ a1 := by
      have h1 := splitOnce_fst_not_mem N2 '#'
      rw [hsp1] at h1
      exact h1
    cases b1 with
    | none =>
        intro hx
        have hx1 : x ∈ (match splitOnce a1 '?' with
            | (p, none) => (p, ([] : PyStr))
            | (p, some q) => (p, q)).1 := hx
        obtain ⟨hq, hm⟩ := splitOnce_q_fst_spec a1 x hx1
        exact ⟨hq, fun he => hnh (he ▸ hm), hsub x hm⟩
    | some f =>
        intro hx
        have hx1 : x ∈ (match splitOnce a1 '?' with
            | (p, none) => (p, ([] : PyStr))
            | (p, some q) => (p, q)).1 := hx
        obtain ⟨hq, hm⟩ := splitOnce_q_fst_spec a1 x hx1
        exact ⟨hq, fun he => hnh (he ▸ hm), hsub x hm⟩

/-- What the post-scheme stage of `urlsplit` guarantees: the scheme is
passed through; netloc holds none of `/?#` and is drawn from `rest`; the
netloc brackets are matched; the path holds no `?` or `#` and is drawn
from `rest`. -/
theorem urlsplitTail_spec (scheme rest : PyStr) (sr : SplitResult)
    (h : urlsplitTail scheme rest = some sr) :
    sr.scheme = scheme ∧
    (∀ x ∈ sr.netloc, x ≠ '/' ∧ x ≠ '?' ∧ x ≠ '#' ∧ x ∈ rest) ∧
    ¬((sr.netloc.contains '[' ∧ ¬ sr.netloc.contains ']') ∨
      (sr.netloc.contains ']' ∧ ¬ sr.netloc.contains '[')) ∧
    (∀ x ∈ sr.path, x ≠ '?' ∧ x ≠ '#' ∧ x ∈ rest) := by
  unfold urlsplitTail at h
  dsimp only at h
  by_cases hsw : startsWith rest ("//".toList) = true
  · rw [if_pos hsw] at h
    dsimp only at h
    split at h
    · exact Option.noConfusion h
    next hbrF =>
      injection h with h2
      subst h2
      dsimp only
      refine ⟨rfl, ?_, hbrF, ?_⟩
      · intro x hx
        have hx' : x ∈ (rest.drop 2).takeWhile
            (fun c => decide ¬(c = '/' ∨ c = '?' ∨ c = '#')) := hx
        have hpred := List.mem_takeWhile_imp hx'
        simp only [decide_eq_true_eq] at hpred
        push_neg at hpred
        exact ⟨hpred.1, hpred.2.1, hpred.2.2,
          List.drop_subset 2 rest ((List.takeWhile_prefix _).subset hx')⟩
      · intro x hx
        obtain ⟨hq, hh, hm⟩ := splitOnce_frag_path_spec
          ((rest.drop 2).dropWhile (fun c => decide ¬(c = '/' ∨ c = '?' ∨ c = '#'))) x hx
        exact ⟨hq, hh,
          List.drop_subset 2 rest ((List.dropWhile_suffix _).sublist.subset hm)⟩
  · rw [if_neg hsw] at h
    dsimp only at h
    split at h
    · exact Option.noConfusion h
    next hbrF =>
      injection h with h2
      subst h2
      dsimp only
      refine ⟨rfl, ?_, hbrF, ?_⟩
      · intro x hx
        have hx' : x ∈ ([] : PyStr) := hx
        simp at hx'
      · intro x hx
        obtain ⟨hq, hh, hm⟩ := splitOnce_frag_path_spec rest x hx
        exact ⟨hq, hh, hm⟩

/-- `str.lower` keeps `scheme_chars` inside `scheme_chars`. -/
theorem pyLowerChar_schemeChar (c : Char) (h : isSchemeChar c = true) :
    isSchemeChar (pyLowerChar c) = true := by
  have hr := schemeChar_toNat c h
  have ht := pyLowerChar_toNat c
  unfold isSchemeChar
  rw [decide_eq_true_eq]
  by_cases hu : 65 ≤ c.toNat ∧ c.toNat ≤ 90
  · rw [if_pos hu] at ht
    left
    rw [isAsciiAlphaChar_iff]
    left
    omega
  · rw [if_neg hu] at ht
    rcases hr with h1 | h1 | h1 | h1 | h1 | h1
    · left
      rw [isAsciiAlphaChar_iff]
      left
      omega
    · exact absurd h1 hu
    · right; left
      rw [isAsciiDigitChar_iff]
      omega
    · right; right; left
      exact char_eq_of_toNat (by rw [ht, h1]; rfl)
    · right; right; right; left
      exact char_eq_of_toNat (by rw [ht, h1]; rfl)
    · right; right; right; right
      exact char_eq_of_toNat (by rw [ht, h1]; rfl)

/-- `str.lower` keeps ASCII letters ASCII letters. -/
theorem pyLowerChar_alpha (c : Char) (h : isAsciiAlphaChar c = true) :
    isAsciiAlphaChar (pyLowerChar c) = true := by
  have hr := (isAsciiAlphaChar_iff c).mp h
  have ht := pyLowerChar_toNat c
  rw [isAsciiAlphaChar_iff]
  by_cases hu : 65 ≤ c.toNat ∧ c.toNat ≤ 90
  · rw [if_pos hu] at ht
    left
    omega
  · rw [if_neg hu] at ht
    rcases hr with h1 | h1
    · left
      omega
    · exact absurd h1 hu

/-- `str.lower` neither creates nor destroys tab/CR/LF. -/
theorem pyLowerChar_unsafe_eq (c : Char) :
    isUnsafeUrlChar (pyLowerChar c) = isUnsafeUrlChar c := by
  have h1 : pyLowerChar c = '\t' ↔ c = '\t' :=
    pyLowerChar_eq_special (by decide) (by decide) c
  have h2 : pyLowerChar c = '\r' ↔ c = '\r' :=
    pyLowerChar_eq_special (by decide) (by decide) c
  have h3 : pyLowerChar c = '\n' ↔ c = '\n' :=
    pyLowerChar_eq_special (by decide) (by decide) c
  unfold isUnsafeUrlChar
  exact decide_eq_decide.mpr (by rw [h1, h2, h3])

/-- What the scheme stage guarantees: either no scheme is recognised (and
the rest is the whole input), or the scheme is a nonempty lower-cased
`scheme_chars` string with a letter head and the rest is drawn from the
input. -/
theorem schemeSplit_spec (u1 : PyStr) :
    (schemeSplit u1 = (([] : PyStr), u1)) ∨
    ((schemeSplit u1).1 ≠ [] ∧ (schemeSplit u1).1.all isSchemeChar = true ∧
     isAsciiAlphaChar ((schemeSplit u1).1.headD 'x') = true ∧
     pyLower (schemeSplit u1).1 = (schemeSplit u1).1 ∧
     ∀ x ∈ (schemeSplit u1).2, x ∈ u1) := by
  unfold schemeSplit
  dsimp only
  cases hdwc : u1.dropWhile (· ≠ ':') with
  | nil => exact Or.inl rfl
  | cons ac act =>
      cases htwc : u1.takeWhile (· ≠ ':') with
      | nil => exact Or.inl rfl
      | cons pc pct =>
          dsimp only
          by_cases hguard : isAsciiAlphaChar pc = true ∧ (pc :: pct).all isSchemeChar = true
          · rw [if_pos hguard]
            refine Or.inr ⟨?_, ?_, ?_, ?_, ?_⟩
            · show pyLower (pc :: pct) ≠ []
              simp [pyLower]
            · show (pyLower (pc :: pct)).all isSchemeChar = true
              rw [List.all_eq_true]
              intro x hx
              rw [pyLower, List.mem_map] at hx
              obtain ⟨y, hy, hxy⟩ := hx
              rw [← hxy]
              exact pyLowerChar_schemeChar y (List.all_eq_true.mp hguard.2 y hy)
            · show isAsciiAlphaChar ((pyLower (pc :: pct)).headD 'x') = true
              exact pyLowerChar_alpha pc hguard.1
            · exact pyLower_idem (pc :: pct)
            · intro x hx
              have hx' : x ∈ act := hx
              have hsf : u1.dropWhile (· ≠ ':') ⊆ u1 :=
                (List.dropWhile_suffix _).sublist.subset
              rw [hdwc] at hsf
              exact hsf (List.mem_cons_of_mem ac hx')
          · rw [if_neg hguard]
            exact Or.inl rfl

/-- What `urlsplit` guarantees about any `some` result: the scheme is
empty or a nonempty lower-cased letter-headed `scheme_chars` string; the
netloc holds none of `/?#` and no tab/CR/LF, with matched brackets; the
path holds no `?`, `#`, tab, CR or LF. -/
theorem urlsplitM_spec (u : PyStr) (sr : SplitResult) (h : urlsplitM u = some sr) :
    (sr.scheme = [] ∨ (sr.scheme ≠ [] ∧ sr.scheme.all isSchemeChar = true ∧
      isAsciiAlphaChar (sr.scheme.headD 'x') = true ∧ pyLower sr.scheme = sr.scheme)) ∧
    (∀ x ∈ sr.netloc, x ≠ '/' ∧ x ≠ '?' ∧ x ≠ '#' ∧ isUnsafeUrlChar x = false) ∧
    ¬((sr.netloc.contains '[' ∧ ¬ sr.netloc.contains ']') ∨
      (sr.netloc.contains ']' ∧ ¬ sr.netloc.contains '[')) ∧
    (∀ x ∈ sr.path, x ≠ '?' ∧ x ≠ '#' ∧ isUnsafeUrlChar x = false) := by
  rw [urlsplitM_eq_tail] at h
  have hu1 : ∀ x ∈ ((u.dropWhile isC0OrSpace).filter (fun c => ¬ isUnsafeUrlChar c)),
      isUnsafeUrlChar x = false := by
    intro x hx
    have h2 := List.of_mem_filter hx
    simpa using h2
  rcases schemeSplit_spec ((u.dropWhile isC0OrSpace).filter (fun c => ¬ isUnsafeUrlChar c))
    with hss | ⟨hne, hall, hhd, hlow, hsub⟩
  · obtain ⟨hsch, hnlS, hbrS, hpaS⟩ := urlsplitTail_spec _ _ _ h
    have hsub1 : ∀ x ∈ (schemeSplit
        ((u.dropWhile isC0OrSpace).filter (fun c => ¬ isUnsafeUrlChar c))).2,
        x ∈ ((u.dropWhile isC0OrSpace).filter (fun c => ¬ isUnsafeUrlChar c)) := by
      rw [hss]
      exact fun x hx => hx
    refine ⟨Or.inl (by rw [hsch, hss]), ?_, hbrS, ?_⟩
    · intro x hx
      obtain ⟨h1, h2, h3, h4⟩ := hnlS x hx
      exact ⟨h1, h2, h3, hu1 x (hsub1 x h4)⟩
    · intro x hx
      obtain ⟨h1, h2, h3⟩ := hpaS x hx
      exact ⟨h1, h2, hu1 x (hsub1 x h3)⟩
  · obtain ⟨hsch, hnlS, hbrS, hpaS⟩ := urlsplitTail_spec _ _ _ h
    refine ⟨Or.inr ?_, ?_, hbrS, ?_⟩
    · rw [hsch]
      exact ⟨hne, hall, hhd, hlow⟩
    · intro x hx
      obtain ⟨h1, h2, h3, h4⟩ := hnlS x hx
      exact ⟨h1, h2, h3, hu1 x (hsub x h4)⟩
    · intro x hx
      obtain ⟨h1, h2, h3⟩ := hpaS x hx
      exact ⟨h1, h2, hu1 x (hsub x h3)⟩

/-! ### Transport of the `urlsplit` guarantees through `normalize_url`'s
component edits (`lower`, `removeprefix`, `rstrip`, `_splitparams`,
re-encoding) -/

theorem contains_pyLower_special {t : Char} (ht : t.toNat < 97)
    (htup : ¬ (65 ≤ t.toNat ∧ t.toNat ≤ 90)) (s : PyStr) :
    (pyLower s).contains t = s.contains t := by
  cases hc : s.contains t
  · cases hc2 : (pyLower s).contains t
    · rfl
    · exfalso
      have hm := List.elem_iff.mp hc2
      have hm2 : t ∈ s := (mem_pyLower_special ht htup s).mp hm
      have hc' : List.elem t s = false := hc
      rw [List.elem_iff.mpr hm2] at hc'
      exact absurd hc' (by decide)
  · have hm := List.elem_iff.mp hc
    have hm2 : t ∈ pyLower s := (mem_pyLower_special ht htup s).mpr hm
    exact List.elem_iff.mpr hm2

theorem contains_removePrefix (s p : PyStr) (c : Char) (hc : c ∉ p) :
    (removePrefix s p).contains c = s.contains c := by
  unfold removePrefix
  by_cases hsw : p.isPrefixOf s = true
  · rw [if_pos hsw]
    obtain ⟨t, ht⟩ := List.isPrefixOf_iff_prefix.mp hsw
    rw [← ht, List.drop_left]
    cases hm : t.contains c
    · cases hm2 : (p ++ t).contains c
      · rfl
      · exfalso
        have hmem := List.elem_iff.mp hm2
        rcases List.mem_append.mp hmem with hl | hr
        · exact hc hl
        · have h3 : List.elem c t = false := hm
          rw [List.elem_iff.mpr hr] at h3
          exact absurd h3 (by decide)
    · have hmem := List.elem_iff.mp hm
      exact (List.elem_iff.mpr (List.mem_append.mpr (Or.inr hmem))).symm
  · rw [if_neg hsw]

theorem mem_removePrefix (s p : PyStr) : ∀ x ∈ removePrefix s p, x ∈ s := by
  unfold removePrefix
  split
  · exact fun x hx => List.drop_subset _ _ hx
  · exact fun x hx => hx

/-- `removeprefix` applied after `lower` leaves a `lower` fixed point. -/
theorem pyLower_removePrefix_pyLower (s p : PyStr) :
    pyLower (removePrefix (pyLower s) p) = removePrefix (pyLower s) p := by
  unfold removePrefix
  split
  · show pyLower ((pyLower s).drop p.length) = (pyLower s).drop p.length
    unfold pyLower
    rw [List.map_drop, List.map_map]
    congr 1
    exact List.map_congr_left (fun c _ => pyLowerChar_idem c)
  · exact pyLower_idem s

theorem splitparams_fst_subset (u : PyStr) : ∀ x ∈ (splitparams u).1, x ∈ u := by
  unfold splitparams
  split
  · split
    · exact fun x hx => hx
    · split
      · exact fun x hx => hx
      · dsimp only
        exact fun x hx => List.take_subset _ _ hx
  · split
    · exact fun x hx => hx
    · dsimp only
      exact fun x hx => List.take_subset _ _ hx

/-- Every character of an `urlencode(..., doseq=True)` output is `&`, `=`
or a `quote_plus` output character. -/
theorem mem_urlencodeDoseq_range (l : List (PyStr × List PyStr)) (x : Char)
    (hx : x ∈ urlencodeDoseq l) :
    x.toNat = 38 ∨ x.toNat = 61 ∨ x.toNat = 43 ∨ x.toNat = 37 ∨
    (48 ≤ x.toNat ∧ x.toNat ≤ 57) ∨ (65 ≤ x.toNat ∧ x.toNat ≤ 90) ∨
    (97 ≤ x.toNat ∧ x.toNat ≤ 122) ∨ x.toNat = 45 ∨ x.toNat = 46 ∨
    x.toNat = 95 ∨ x.toNat = 126 := by
  unfold urlencodeDoseq at hx
  rw [List.mem_flatten] at hx
  obtain ⟨piece, hpi, hxp⟩ := hx
  rcases mem_intersperse ['&'] piece _ hpi with hmem | hsep
  · rw [List.mem_flatMap] at hmem
    obtain ⟨pr, _, hpc⟩ := hmem
    rw [List.mem_map] at hpc
    obtain ⟨v, _, hpv⟩ := hpc
    rw [← hpv] at hxp
    rcases List.mem_append.mp hxp with hleft | hq2
    · rcases List.mem_append.mp hleft with hq1 | heq
      · rcases mem_quotePlus_range pr.1 x hq1 with h | h | h | h | h | h | h | h | h
        all_goals omega
      · right; left
        rw [List.mem_singleton] at heq
        rw [heq]; rfl
    · rcases mem_quotePlus_range v x hq2 with h | h | h | h | h | h | h | h | h
      all_goals omega
  · left
    rw [hsep] at hxp
    rw [List.mem_singleton] at hxp
    rw [hxp]; rfl

/-- The canonical parts of any URL that `normalize_url` accepts satisfy,
when `idempotentSafe`, all the well-formedness facts under which the
reassembled URL is a `normalize_url` fixed point. -/
theorem normParts_reassembled_fixed (u : PyStr) (p : NormParts)
    (hp : normParts u = some p) (hsafe : idempotentSafe p = true) :
    normalizeUrl (urlunsplitM p.scheme p.netloc p.path p.query []) =
      some (urlunsplitM p.scheme p.netloc p.path p.query []) := by
  unfold normParts at hp
  cases hpr : urlparseM u with
  | none =>
      rw [hpr] at hp
      simp at hp
  | some parsed =>
    rw [hpr, option_bind_some] at hp
    dsimp only at hp
    unfold urlparseM at hpr
    cases hsr : urlsplitM u with
    | none =>
        rw [hsr] at hpr
        simp at hpr
    | some sr =>
      rw [hsr, option_bind_some] at hpr
      dsimp only at hpr
      injection hpr with hpr2
      obtain ⟨hS, hN, hB, hP⟩ := urlsplitM_spec u sr hsr
      have hparsed_path : ∀ x ∈ parsed.path, x ∈ sr.path := by
        rw [← hpr2]
        dsimp only
        split
        · exact splitparams_fst_subset sr.path
        · exact fun x hx => hx
      have hparsed_scheme : parsed.scheme = sr.scheme := by rw [← hpr2]
      have hparsed_netloc : parsed.netloc = sr.netloc := by rw [← hpr2]
      injection hp with hp2
      have hps : p.scheme =
          pyLower (if parsed.scheme = [] then "https".toList else parsed.scheme) := by
        rw [← hp2]
      have hpn : p.netloc = removePrefix (pyLower parsed.netloc) ("www.".toList) := by
        rw [← hp2]
      have hpp : p.path = if rstripChars parsed.path ['/'] = [] then ['/']
          else rstripChars parsed.path ['/'] := by
        rw [← hp2]
      have hpq : p.query = queryNormalized parsed.query := by
        rw [← hp2]
      have hsafe2 : (¬ startsWith p.netloc ("www.".toList) = true) ∧
          (¬ lastSegmentHasSemi p.path = true) ∧
          ¬(p.netloc = [] ∧ startsWith p.path ("//".toList) = true) := by
        unfold idempotentSafe at hsafe
        rw [decide_eq_true_eq] at hsafe
        exact hsafe
      have hs1 : p.scheme ≠ [] := by
        rw [hps, hparsed_scheme]
        by_cases hsch : sr.scheme = []
        · rw [if_pos hsch]; decide
        · rw [if_neg hsch]
          rcases hS with he | ⟨hne, _, _, hlow⟩
          · exact absurd he hsch
          · rw [hlow]; exact hne
      have hs2 : pyLower p.scheme = p.scheme := by
        rw [hps]
        exact pyLower_idem _
      have hs3 : p.scheme.all isSchemeChar = true := by
        rw [hps, hparsed_scheme]
        by_cases hsch : sr.scheme = []
        · rw [if_pos hsch]; decide
        · rw [if_neg hsch]
          rcases hS with he | ⟨_, hall, _, hlow⟩
          · exact absurd he hsch
          · rw [hlow]; exact hall
      have hs4 : isAsciiAlphaChar (p.scheme.headD 'x') = true := by
        rw [hps, hparsed_scheme]
        by_cases hsch : sr.scheme = []
        · rw [if_pos hsch]; decide
        · rw [if_neg hsch]
          rcases hS with he | ⟨_, _, hhd, hlow⟩
          · exact absurd he hsch
          · rw [hlow]; exact hhd
      have hnl : ∀ x ∈ p.netloc,
          x ≠ '/' ∧ x ≠ '?' ∧ x ≠ '#' ∧ isUnsafeUrlChar x = false := by
        rw [hpn, hparsed_netloc]
        intro x hx
        have hx2 : x ∈ pyLower sr.netloc := mem_removePrefix _ _ x hx
        rw [pyLower, List.mem_map] at hx2
        obtain ⟨y, hy, hxy⟩ := hx2
        obtain ⟨hy1, hy2, hy3, hy4⟩ := hN y hy
        subst hxy
        refine ⟨?_, ?_, ?_, ?_⟩
        · intro he
          exact hy1 ((pyLowerChar_eq_special (by decide) (by decide) y).mp he)
        · intro he
          exact hy2 ((pyLowerChar_eq_special (by decide) (by decide) y).mp he)
        · intro he
          exact hy3 ((pyLowerChar_eq_special (by decide) (by decide) y).mp he)
        · rw [pyLowerChar_unsafe_eq, hy4]
      have hbr : ¬((p.netloc.contains '[' ∧ ¬ p.netloc.contains ']') ∨
          (p.netloc.contains ']' ∧ ¬ p.netloc.contains '[')) := by
        rw [hpn, hparsed_netloc]
        have e1 : (pyLower sr.netloc).contains '[' = sr.netloc.contains '[' :=
          contains_pyLower_special (by decide) (by decide) sr.netloc
        have e2 : (pyLower sr.netloc).contains ']' = sr.netloc.contains ']' :=
          contains_pyLower_special (by decide) (by decide) sr.netloc
        rw [contains_removePrefix (pyLower sr.netloc) ("www.".toList) '[' (by decide),
          contains_removePrefix (pyLower sr.netloc) ("www.".toList) ']' (by decide),
          e1, e2]
        exact hB
      have hn3 : pyLower p.netloc = p.netloc := by
        rw [hpn, hparsed_netloc]
        exact pyLower_removePrefix_pyLower sr.netloc ("www.".toList)
      have hn4 : startsWith p.netloc ("www.".toList) = false :=
        Bool.eq_false_iff.mpr hsafe2.1
      have hp1 : ∀ x ∈ p.path,
          x ≠ '?' ∧ x ≠ '#' ∧ isUnsafeUrlChar x = false := by
        rw [hpp]
        split
        · intro x hx
          rw [List.mem_singleton] at hx
          subst hx
          exact ⟨by decide, by decide, by decide⟩
        · intro x hx
          have hx2 : x ∈ parsed.path := mem_rstripChars _ _ x hx
          exact hP x (hparsed_path x hx2)
      have hp2 : p.path ≠ [] := by
        rw [hpp]
        split
        · decide
        next hne => exact hne
      have hp3 : p.path = ['/'] ∨ rstripChars p.path ['/'] = p.path := by
        rw [hpp]
        split
        · exact Or.inl rfl
        · exact Or.inr (rstripChars_idem _ _)
      have hp4 : lastSegmentHasSemi p.path = false :=
        Bool.eq_false_iff.mpr hsafe2.2.1
      have hp5 : ¬(p.netloc = [] ∧ startsWith p.path ("//".toList) = true) :=
        hsafe2.2.2
      have hq1 : ∀ x ∈ p.query, x ≠ '#' ∧ isUnsafeUrlChar x = false := by
        rw [hpq]
        intro x hx
        unfold queryNormalized at hx
        have hr := mem_urlencodeDoseq_range _ x hx
        have hnot : x.toNat ≠ 35 ∧ x.toNat ≠ 9 ∧ x.toNat ≠ 13 ∧ x.toNat ≠ 10 := by
          rcases hr with h|h|h|h|h|h|h|h|h|h|h <;> omega
        refine ⟨?_, isUnsafeUrlChar_false x ⟨hnot.2.1, hnot.2.2.1, hnot.2.2.2⟩⟩
        intro he
        exact hnot.1 (by rw [he]; rfl)
      have hq2 : queryNormalized p.query = p.query := by
        rw [hpq]
        exact queryNormalized_idem _
      exact normalizeUrl_fixed_point p.scheme p.netloc p.path p.query
        hs1 hs2 hs3 hs4 hnl hbr hn3 hn4 hp1 hp2 hp3 hp4 hp5 hq1 hq2

set_option maxRecDepth 100000 in
/-- C5 counterexample: on `http://www.www.x.com/a` the canonical host still
starts with `www.`, so each `normalize_url` pass strips one more prefix and
the second application differs from the first — `canon(canon(u)) ≠
canon(u)`. -/
theorem normalize_url_not_idempotent :
    normalizeUrl ("http://www.www.x.com/a".toList) =
      some ("http://www.x.com/a".toList) ∧
    normalizeUrl ("http://www.x.com/a".toList) =
      some ("http://x.com/a".toList) ∧
    ("http://www.x.com/a".toList : PyStr) ≠ ("http://x.com/a".toList : PyStr) := by
  refine ⟨by rfl, by rfl, by decide⟩

/-- **C5** (amended).  `normalize_url` is a deterministic function of its
input, but it is *not* idempotent on every URL.  It is idempotent on the
`idempotentSafe` class: whenever the input parses to canonical parts `p`
whose host does not still start with `www.`, whose path's last segment has
no `;`, and whose host is nonempty if the path starts with `//`, a second
application of `normalize_url` to the output `s` returns `s` unchanged. -/
theorem normalize_url_idempotent_on_safe (u s : PyStr) (p : NormParts)
    (hp : normParts u = some p) (hsafe : idempotentSafe p = true)
    (hs : normalizeUrl u = some s) :
    normalizeUrl s = some s := by
  have hfix := normParts_reassembled_fixed u p hp hsafe
  have hs2 : normalizeUrl u =
      some (urlunparseM p.scheme p.netloc p.path [] p.query []) := by
    unfold normalizeUrl
    rw [hp]
    rfl
  rw [hs2] at hs
  injection hs with hs3
  rw [← hs3, urlunparseM_no_params]
  exact hfix

set_option maxRecDepth 100000 in
theorem normalize_url_idempotent_on_safe_witness :
    normalizeUrl ("http://e.com/p?a=1&b=2".toList) =
      some ("http://e.com/p?a=1&b=2".toList) :=
  normalize_url_idempotent_on_safe ("http://e.com/p?b=2&a=1".toList)
    ("http://e.com/p?a=1&b=2".toList)
    ⟨"http".toList, "e.com".toList, "/p".toList, "a=1&b=2".toList⟩
    (by rfl) (by rfl) (by rfl)

end HeatNews
